import Mathlib

/-!
Verification development for the AI Context Generator (`generate.py`).

The Python source is shallowly embedded: paths are modelled as lists of
components, the filesystem as a finite tree, machine-level concerns
(floats in `max_file_size_mb`) as exact rationals, and the optional
external collaborators (`chardet`, `tokenize`) as explicit oracle
parameters.  All definitions are executable; recursions that are not
structural use an explicit fuel argument so that concrete runs reduce
inside the kernel.
-/

namespace CtxGen

/-! ## Python string helpers -/

/-- The character set treated as whitespace by Python's `str.strip`,
`str.rstrip` and `str.isspace` (Unicode whitespace). -/
def pyIsSpace (c : Char) : Bool :=
  c.toNat ∈ ([9, 10, 11, 12, 13, 0x1c, 0x1d, 0x1e, 0x1f, 32, 0x85, 0xa0,
    0x1680, 0x2000, 0x2001, 0x2002, 0x2003, 0x2004, 0x2005, 0x2006, 0x2007,
    0x2008, 0x2009, 0x200a, 0x2028, 0x2029, 0x202f, 0x205f, 0x3000] : List Nat)

/-- Line-boundary characters of Python's `str.splitlines` (besides the
two-character boundary `"\r\n"`, which is handled in `pySplitlines`). -/
def pyIsLineBreak (c : Char) : Bool :=
  c.toNat ∈ ([10, 11, 12, 13, 0x1c, 0x1d, 0x1e, 0x85, 0x2028, 0x2029] : List Nat)

/-- Python `str.splitlines` on a character list: each boundary character
ends a line, `"\r\n"` counts as a single boundary, a trailing segment
without a terminator is kept, and the empty string yields no lines. -/
def pySplitlines : List Char → List (List Char)
  | [] => []
  | [c] => if pyIsLineBreak c then [[]] else [[c]]
  | c :: d :: rest =>
    if c = '\r' ∧ d = '\n' then [] :: pySplitlines rest
    else if pyIsLineBreak c then
      [] :: pySplitlines (d :: rest)
    else
      match pySplitlines (d :: rest) with
      | [] => [[c]]
      | l :: ls => (c :: l) :: ls

/-- Python `str.rstrip()` on a character list. -/
def pyRstrip (l : List Char) : List Char :=
  (l.reverse.dropWhile pyIsSpace).reverse

/-- Python truthiness of `s.strip()`: `true` iff some character is not
whitespace. -/
def pyStripNonEmpty (l : List Char) : Bool :=
  l.any (fun c => !pyIsSpace c)

/-- ASCII lower-casing of one character (the file extensions the tool
compares against are all ASCII). -/
def asciiLowerChar (c : Char) : Char :=
  if 'A' ≤ c ∧ c ≤ 'Z' then Char.ofNat (c.toNat + 32) else c

/-- ASCII lower-casing of a string, modelling `str.lower` on the ASCII
extension strings used by the tool. -/
def asciiLower (s : String) : String :=
  String.mk (s.data.map asciiLowerChar)

/-- Join path components with `/`. -/
def joinParts (ps : List String) : String :=
  String.intercalate "/" ps

/-- Boolean test that the first list is an initial segment of the second
(used for `Path.relative_to` and for the `.context` check). -/
def startsList : List String → List String → Bool
  | [], _ => true
  | _ :: _, [] => false
  | a :: as, b :: bs => a == b && startsList as bs

/-- Character-level initial-segment test. -/
def startsChars : List Char → List Char → Bool
  | [], _ => true
  | _ :: _, [] => false
  | a :: as, b :: bs => a == b && startsChars as bs

/-- Python `str.startswith` (kernel-reducible replacement for
`String.startsWith`). -/
def pyStartsWith (s pre : String) : Bool :=
  startsChars pre.data s.data

/-! ## Glob matching

`SmartFilter._compile_glob` compiles a pattern with `fnmatch.translate`
and tests it with `re.Pattern.match`, i.e. the pattern must match the
whole string starting at its beginning (`translate` appends `\Z`).  In
the translated regex `*` becomes `.*` (matching any characters,
including `/` and newlines, because of the `(?s:...)` flag) and `?`
becomes a single `.`.  The patterns used by the tool's defaults, presets
and the scenarios under study contain no `[...]` character classes, so
those are not modelled and `[` is treated as a literal. -/

/-- Fuel-driven full-string glob matcher: `globMatchF fuel pat s` decides
whether the whole of `s` matches `pat`, with `*` matching any sequence of
characters and `?` exactly one.  Any fuel of at least
`pat.length + s.length + 1` yields the limit value. -/
def globMatchF : Nat → List Char → List Char → Bool
  | 0, _, _ => false
  | _ + 1, [], [] => true
  | _ + 1, [], _ :: _ => false
  | f + 1, p :: ps, s =>
    if p = '*' then
      globMatchF f ps s ||
        (match s with
         | [] => false
         | _ :: t => globMatchF f (p :: ps) t)
    else
      match s with
      | [] => false
      | c :: t => (p = '?' || p = c) && globMatchF f ps t

/-- Full-string glob match of a pattern against a string, as produced by
`fnmatch.translate` plus `re.match` in `SmartFilter`. -/
def globMatch (pat s : String) : Bool :=
  globMatchF (pat.data.length + s.data.length + 1) pat.data s.data

/-- `SmartFilter._matches`: whether any of the compiled patterns matches
the string. -/
def SmartFilter.matchesAny (s : String) (pats : List String) : Bool :=
  pats.any (fun pat => globMatch pat s)

/-! ## Paths

The pipeline hands `SmartFilter` and `FileCollector` concrete
`pathlib.Path` values.  A path is modelled by its textual components
(which determine `as_posix()`, `name` and `suffix`), whether it is
absolute, whether it designates a file, and the result of
`Path.resolve()` (an absolute path; resolution consults the filesystem
and the working directory, so it is carried as data). -/

structure PathM where
  absolute : Bool
  parts : List String
  isFile : Bool
  resolved : List String
  deriving Repr, DecidableEq

/-- `Path.as_posix()` (equal to `str(path)` on POSIX). -/
def PathM.asPosix (p : PathM) : String :=
  (if p.absolute then "/" else "") ++ joinParts p.parts

/-- `Path.name`: the final component. -/
def PathM.name (p : PathM) : String :=
  p.parts.getLastD ""

/-- `PurePath.suffix`: the extension of the final component; empty when
the only dot is leading or trailing or there is none. -/
def pySuffix (name : String) : String :=
  match (name.data.reverse.span (fun c => c ≠ '.')) with
  | (rb, '.' :: ra) =>
    if ra ≠ [] ∧ rb ≠ [] then String.mk ('.' :: rb.reverse) else ""
  | _ => ""

/-- `Path.suffix` of a modelled path. -/
def PathM.suffix (p : PathM) : String :=
  pySuffix p.name

/-- `PathManager.rel_to_project_root`: `str(path.relative_to(root))` when
that succeeds (the path is absolute and below the absolute project
root), and `str(path)` when `relative_to` raises. -/
def relToProjectRoot (root : List String) (p : PathM) : String :=
  if p.absolute && startsList root p.parts then
    (if p.parts = root then "." else joinParts (p.parts.drop root.length))
  else
    p.asPosix

/-! ## Configuration and constants -/

inductive OutputFormat where
  | text
  | json
  | markdown
  deriving Repr, DecidableEq

/-- The `Config` dataclass (the fields the core pipeline reads).
`max_file_size_mb` is a Python float; floats are exact rationals, so it
is modelled as `ℚ`. -/
structure Config where
  includePatterns : List String := []
  excludePatterns : List String := []
  exclude_common : Bool := true
  max_file_size_mb : ℚ := 1
  output_format : OutputFormat := .text
  minify : Bool := false
  verbose : Bool := false
  dry_run : Bool := false

def CONTEXT_DIR_NAME : String := ".context"

/-- `DEFAULT_EXCLUDE_PATTERNS` from the source. -/
def DEFAULT_EXCLUDE_PATTERNS : List String :=
  ["*/.*", "dist", "build", "node_modules", "__pycache__", ".context/*"]

/-- `BINARY_FILE_EXTENSIONS` from the source. -/
def BINARY_FILE_EXTENSIONS : List String :=
  [".png", ".jpg", ".jpeg", ".gif", ".bmp", ".ico", ".svg", ".webp",
   ".zip", ".tar", ".gz", ".bz2", ".7z", ".rar",
   ".pdf", ".doc", ".docx", ".xls", ".xlsx", ".ppt", ".pptx",
   ".exe", ".dll", ".so", ".dylib", ".o", ".a", ".lib",
   ".mp3", ".wav", ".flac", ".aac", ".ogg", ".wma",
   ".mp4", ".mov", ".avi", ".mkv", ".webm", ".flv",
   ".class", ".jar", ".pyc", ".pyo", ".pyd",
   ".db", ".sqlite", ".sqlite3",
   ".ttf", ".otf", ".woff", ".woff2", ".eot"]

/-! ## SmartFilter -/

/-- The decision the body of `SmartFilter.should_process` computes for a
path when its resolved key is not in the cache, as a pure function of
the textual path.  `root` is the project root used by
`PathManager.rel_to_project_root`. -/
def SmartFilter.rulesDecision (cfg : Config) (root : List String) (p : PathM) : Bool :=
  if pyStartsWith (relToProjectRoot root p) CONTEXT_DIR_NAME then false
  else
    let path_str := p.asPosix
    if BINARY_FILE_EXTENSIONS.contains (asciiLower p.suffix) then false
    else if cfg.exclude_common &&
        (pyStartsWith p.name "." || SmartFilter.matchesAny path_str DEFAULT_EXCLUDE_PATTERNS) then false
    else if SmartFilter.matchesAny path_str cfg.excludePatterns then false
    else if !cfg.includePatterns.isEmpty && p.isFile &&
        !(SmartFilter.matchesAny p.name cfg.includePatterns) then false
    else true

/-- The `SmartFilter._cache`: resolved absolute path ↦ cached decision. -/
abbrev FilterCache := List (List String × Bool)

/-- `SmartFilter.should_process` with its memoization cache made
explicit: look the resolved key up, otherwise compute the decision from
the textual path and record it under the resolved key. -/
def SmartFilter.should_process (cfg : Config) (root : List String)
    (cache : FilterCache) (p : PathM) : Bool × FilterCache :=
  match cache.lookup p.resolved with
  | some b => (b, cache)
  | none =>
    let d := SmartFilter.rulesDecision cfg root p
    (d, (p.resolved, d) :: cache)

/-! ## FileCollector

The filesystem under a scanned root is modelled as a flat listing of
entries (absolute path components plus a file/directory flag); the
children of a directory are the entries whose components extend it by
one name, in listing order (`os.walk` returns names in unspecified
filesystem order, which the listing order models).  `os.walk` with
`topdown=True` first filters the subdirectory names in place through
the filter, then tests the files of the current directory, then
descends into the surviving subdirectories in order.  Symbolic links
are not followed and are not modelled, so `Path.resolve()` of a walked
path is the path itself. -/

structure FsEntry where
  parts : List String
  isFile : Bool
  deriving Repr, DecidableEq

/-- A filesystem listing. -/
abbrev FsListing := List FsEntry

/-- The children of the directory `parts`, in listing order. -/
def childrenOf (fs : FsListing) (parts : List String) : List FsEntry :=
  fs.filter (fun e => e.parts.dropLast == parts)

/-- The modelled path of an entry reached by the walk: walked paths are
absolute and resolve to themselves. -/
def entryPath (e : FsEntry) : PathM :=
  { absolute := true, parts := e.parts, isFile := e.isFile,
    resolved := e.parts }

/-- Collector state: the `seen_paths` set and the filter cache. -/
structure CollectSt where
  seen : List (List String)
  cache : FilterCache

/-- One step of the `files` loop of `FileCollector.collect`: filter the
file, resolve it and deduplicate against `seen_paths`. -/
def collectFile (cfg : Config) (root : List String) (e : FsEntry)
    (acc : List (List String) × CollectSt) :
    List (List String) × CollectSt :=
  let p := entryPath e
  let (keep, cache') := SmartFilter.should_process cfg root acc.2.cache p
  if keep then
    if acc.2.seen.contains p.resolved then
      (acc.1, { acc.2 with cache := cache' })
    else
      (acc.1 ++ [p.resolved], { seen := p.resolved :: acc.2.seen, cache := cache' })
  else
    (acc.1, { acc.2 with cache := cache' })

/-- The in-place pruning `dirs[:] = [d for d in dirs if filter(root/d)]`:
returns the surviving subdirectories and the updated cache. -/
def pruneDirs (cfg : Config) (root : List String) :
    List FsEntry → FilterCache → List FsEntry × FilterCache
  | [], cache => ([], cache)
  | e :: rest, cache =>
    if e.isFile then pruneDirs cfg root rest cache
    else
      let (keep, cache') := SmartFilter.should_process cfg root cache (entryPath e)
      let (kept, cache'') := pruneDirs cfg root rest cache'
      (if keep then e :: kept else kept, cache'')

/-- The `os.walk` traversal of `FileCollector.collect`, fuelled by a
bound on the tree depth so that concrete runs compute in the kernel.
At each directory: prune subdirectory names, test the files, then
descend into the surviving subdirectories in order. -/
def walkF (cfg : Config) (root : List String) (fs : FsListing) :
    Nat → List String → CollectSt → List (List String) × CollectSt
  | 0, _, st => ([], st)
  | fuel + 1, parts, st =>
    let entries := childrenOf fs parts
    let (keptDirs, cache1) := pruneDirs cfg root entries st.cache
    let afterFiles :=
      (entries.filter (fun e => e.isFile)).foldl
        (fun acc e => collectFile cfg root e acc)
        ([], { st with cache := cache1 })
    keptDirs.foldl
      (fun acc d =>
        let (ys, st') := walkF cfg root fs fuel d.parts acc.2
        (acc.1 ++ ys, st'))
      afterFiles

/-- `FileCollector.collect` for a single existing directory root (the
scenario under study): walk the tree rooted at the resolved start path
and return the resolved candidate paths in traversal order.  The walk
depth is bounded by the number of listing entries, so the fuel
`fs.length + 1` never runs out on a well-formed listing. -/
def FileCollector.collect (cfg : Config) (root : List String)
    (fs : FsListing) : List (List String) :=
  (walkF cfg root fs (fs.length + 1) root { seen := [], cache := [] }).1

/-! ## Claims C1 and C2: pattern matching against absolute paths

In the pipeline, `FileCollector.collect` resolves every start path
(`PathManager.resolve_project_path` returns an absolute path), so every
path handed to `SmartFilter.should_process` is absolute and
`str(path.as_posix())` is the absolute path string.  A compiled pattern
is tested with `re.match` against it, anchored at the start, so exclude
patterns such as `build/*` or `tests/*` (and the bare defaults `dist`,
`build`, `node_modules`, `__pycache__`) can never match.  The theorems
below evaluate the embedded code on the spec's concrete scenarios. -/

/-- Scenario configuration of claim C1: exclude `build/*`, include
`*.py`, defaults otherwise. -/
def c1Config : Config :=
  { includePatterns := ["*.py"], excludePatterns := ["build/*"] }

/-- Scenario tree of claim C1: a root `/R` containing `a.py`, `b.png`
and `build/x.py`. -/
def c1Tree : FsListing :=
  [{ parts := ["R", "a.py"], isFile := true },
   { parts := ["R", "b.png"], isFile := true },
   { parts := ["R", "build"], isFile := false },
   { parts := ["R", "build", "x.py"], isFile := true }]

/-- Claim C1 (code evaluation at the failing input): on the spec's
concrete scenario — root `/R` containing `a.py`, `b.png` and
`build/x.py`, exclude pattern `build/*`, include pattern `*.py` — the
candidate set produced by `FileCollector.collect` is
`{/R/a.py, /R/build/x.py}` and not the claimed `{a.py}`: the `build`
directory is not pruned and the file beneath it is collected, because
the exclude pattern is matched against the absolute path `/R/build`,
which `build/*` does not match. -/
theorem c1_collect_scenario_eval :
    FileCollector.collect c1Config ["R"] c1Tree =
      [["R", "a.py"], ["R", "build", "x.py"]] := by
  decide

/-- Absolute path `/R/tests/foo.py` as handed to the filter by the
collector. -/
def c2AbsPath : PathM :=
  { absolute := true, parts := ["R", "tests", "foo.py"], isFile := true,
    resolved := ["R", "tests", "foo.py"] }

/-- The same location written as a textually relative path (a form the
collector never produces). -/
def c2RelPath : PathM :=
  { absolute := false, parts := ["tests", "foo.py"], isFile := true,
    resolved := ["R", "tests", "foo.py"] }

/-- Configuration of claim C2's scenario: exclude pattern `tests/*`. -/
def c2Config : Config := { excludePatterns := ["tests/*"] }

/-- Claim C2 (code evaluation at the failing input): exclude patterns
are matched against the path's own POSIX string, not its root-relative
form.  For the absolute path `/R/tests/foo.py` (whose root-relative
form is `tests/foo.py`, which the pattern `tests/*` does match) the
filter nevertheless accepts the path, because `tests/*` is tested
against `/R/tests/foo.py`; the same location written relatively is
rejected, and include patterns are indeed tested against the basename
only (a nested `.py` file passes the include rule `*.py`). -/
theorem c2_filter_matching_eval :
    SmartFilter.rulesDecision c2Config ["R"] c2AbsPath = true ∧
    relToProjectRoot ["R"] c2AbsPath = "tests/foo.py" ∧
    globMatch "tests/*" "tests/foo.py" = true ∧
    SmartFilter.rulesDecision c2Config ["R"] c2RelPath = false ∧
    SmartFilter.rulesDecision
      { includePatterns := ["*.py"] } ["R"]
      { absolute := true, parts := ["R", "sub", "deep", "y.py"], isFile := true,
        resolved := ["R", "sub", "deep", "y.py"] } = true := by
  decide

/-! ## Claim C8: the decision cache

`should_process` looks its answer up under `path.resolve()` but computes
it from the textual path, so the cache is not a pure memoization of the
textual decision: two spellings of the same resolved location share one
cached answer, computed from whichever spelling was queried first. -/

/-- Configuration for the C8 counterexample: exclude pattern `b`, common
excludes disabled (the `Config` dataclass admits this; the claim ranges
over every `SmartFilter` instance). -/
def c8Config : Config := { excludePatterns := ["b"], exclude_common := false }

/-- The path `a/../b` (pathlib keeps `..` components textually); with the
working directory at the project root it resolves to `/R/b`. -/
def c8PathA : PathM :=
  { absolute := false, parts := ["a", "..", "b"], isFile := true, resolved := ["R", "b"] }

/-- The path `b`, resolving to the same location `/R/b`. -/
def c8PathB : PathM :=
  { absolute := false, parts := ["b"], isFile := true, resolved := ["R", "b"] }

/-- Claim C8 (counterexample): querying `a/../b` first and then `b` — two
paths with the same resolved key — returns `true` for `b` from the
cache, while the filtering rules computed without the cache reject `b`
(its textual path matches the exclude pattern).  The cache therefore
changes an answer. -/
theorem c8_cache_overrides_rules :
    c8PathA.resolved = c8PathB.resolved ∧
    (SmartFilter.should_process c8Config ["R"]
        (SmartFilter.should_process c8Config ["R"] [] c8PathA).2 c8PathB).1 = true ∧
    SmartFilter.rulesDecision c8Config ["R"] c8PathB = false := by
  decide

/-- Claim C8 (amended): the cache is pure memoization keyed by the
resolved path — a query whose resolved key is fresh returns exactly the
uncached rules decision for the queried (textual) path; every query
records its answer under its resolved key and preserves all existing
entries; hence any two paths with the same resolved key receive the same
decision, namely the rules decision of the spelling queried first. -/
theorem c8_cache_is_memoization (cfg : Config) (root : List String)
    (cache : FilterCache) (p q : PathM)
    (hfresh : cache.lookup p.resolved = none) :
    (SmartFilter.should_process cfg root cache p).1 =
      SmartFilter.rulesDecision cfg root p ∧
    ((SmartFilter.should_process cfg root cache p).2.lookup p.resolved =
      some (SmartFilter.should_process cfg root cache p).1) ∧
    (∀ k v, cache.lookup k = some v →
      (SmartFilter.should_process cfg root cache p).2.lookup k = some v) ∧
    (p.resolved = q.resolved →
      (SmartFilter.should_process cfg root
          (SmartFilter.should_process cfg root cache p).2 q).1 =
        (SmartFilter.should_process cfg root cache p).1) := by
  unfold SmartFilter.should_process
  rw [hfresh]
  refine ⟨rfl, by simp [List.lookup], ?_, ?_⟩
  · intro k v hk
    have hne : (k == p.resolved) = false := by
      refine beq_eq_false_iff_ne.mpr ?_
      intro he
      rw [he, hfresh] at hk
      cases hk
    simp [List.lookup, hne, hk]
  · intro hpq
    simp [List.lookup, ← hpq]

/-- Witness for `c8_cache_is_memoization` at a concrete instance. -/
theorem c8_cache_is_memoization_witness :
    ([] : FilterCache).lookup c8PathA.resolved = none ∧
    (SmartFilter.should_process c8Config ["R"] [] c8PathA).1 =
      SmartFilter.rulesDecision c8Config ["R"] c8PathA := by
  exact ⟨rfl, (c8_cache_is_memoization c8Config ["R"] [] c8PathA c8PathB rfl).1⟩

/-! ## Claim C9: preset table mutation in `_resolve_config`

`Generator._resolve_config` binds `includes = preset_conf.get("include",
[])` where `preset_conf` is the dictionary stored in
`ProjectDetector.PRESETS`; the subsequent `includes.extend(...)` calls
mutate that stored list in place.  The embedding threads the preset
table as state and returns the table as it stands after resolution. -/

/-- A preset table: ecosystem name ↦ (include patterns, exclude
patterns). -/
abbrev PresetTable := List (String × List String × List String)

/-- `ProjectDetector.PRESETS` from the source. -/
def PRESETS : PresetTable :=
  [("python",
    (["*.py", "requirements*.txt", "pyproject.toml", "setup.py", "*.pyx", "*.pyi"],
     ["*.pyc", "*.pyo", "*.pyd", "*.egg-info/*", "venv/*", ".venv/*", "__pycache__/*"])),
   ("javascript",
    (["*.js", "*.jsx", "*.ts", "*.tsx", "*.mjs", "*.cjs", "package.json",
      "tsconfig.json", "*.vue", "*.svelte", "*.html", "*.css", "*.scss", "*.less"],
     ["*.log", "package-lock.json", "yarn.lock", "pnpm-lock.yaml", "*.map"])),
   ("java",
    (["*.java", "*.xml", "*.properties", "pom.xml", "build.gradle*", "*.kt"],
     ["*.class", "*.jar", "target/*", "build/*"])),
   ("csharp",
    (["*.cs", "*.csproj", "*.sln", "*.xaml", "*.config", "*.resx"],
     ["bin/*", "obj/*", "*.dll", "*.exe"])),
   ("ruby",
    (["*.rb", "*.erb", "*.rake", "Gemfile", "Rakefile", "*.ru"],
     ["Gemfile.lock", "vendor/*"])),
   ("go",
    (["*.go", "go.mod", "go.sum", "*.proto"], ["vendor/*"])),
   ("rust",
    (["*.rs", "Cargo.toml", "Cargo.lock"], ["target/*"])),
   ("php",
    (["*.php", "composer.json", "*.blade.php"], ["vendor/*", "composer.lock"])),
   ("cpp",
    (["*.cpp", "*.cc", "*.cxx", "*.h", "*.hpp", "*.hxx", "CMakeLists.txt", "*.cmake"],
     ["*.o", "*.obj", "build/*", "cmake-build-*/*"])),
   ("swift",
    (["*.swift", "Package.swift", "*.xcodeproj/*", "*.xcworkspace/*"],
     ["*.xcuserdata/*", "build/*", "DerivedData/*"]))]

/-- `ProjectDetector.get_preset_config`: the stored configuration for a
preset name (`none` models the fresh empty dictionary returned for an
unknown name). -/
def ProjectDetector.get_preset_config (t : PresetTable) (name : String) :
    Option (List String × List String) :=
  t.lookup name

/-- `list(dict.fromkeys(l))`: deduplication keeping the first
occurrence. -/
def dedupKeepFirst (l : List String) : List String :=
  l.foldl (fun acc x => if acc.contains x then acc else acc ++ [x]) []

/-- Overwrite the value stored under a key of the preset table (the
effect of mutating the stored lists in place). -/
def updateTable (t : PresetTable) (name : String)
    (v : List String × List String) : PresetTable :=
  t.map (fun e => if e.1 == name then (e.1, v) else e)

/-- The pattern-merging part of `Generator._resolve_config`, with the
preset table threaded as state.  `detected` is the result of
`ProjectDetector.detect` (consulted only when the effective preset name
is `auto`), `cliPreset`/`filePreset` model `cli_config.preset` and
`file_conf.get("preset")` (with `none` for absent/falsy).  When the
preset name is found in the table, `includes`/`excludes` alias the
stored lists and the `extend` calls mutate them, so the table is
returned with those lists extended; otherwise fresh empty lists are
used and the table is unchanged. -/
def Generator.resolvePatterns (table : PresetTable) (detected : String)
    (cliPreset filePreset : Option String)
    (fileInc fileExc cliInc cliExc : List String) :
    (List String × List String) × PresetTable :=
  let name0 := match cliPreset with
    | some s => s
    | none => filePreset.getD "auto"
  let preset_name := if name0 = "auto" then detected else name0
  match ProjectDetector.get_preset_config table preset_name with
  | none =>
    let includes := ([] : List String) ++ fileInc ++ cliInc
    let excludes := ([] : List String) ++ fileExc ++ cliExc
    ((dedupKeepFirst includes, dedupKeepFirst excludes), table)
  | some (pi, pe) =>
    let includes := pi ++ fileInc ++ cliInc
    let excludes := pe ++ fileExc ++ cliExc
    ((dedupKeepFirst includes, dedupKeepFirst excludes),
      updateTable table preset_name (includes, excludes))

/-- Claim C9 (code evaluation at the failing input): resolving the
configuration with preset `python` and one CLI include pattern
`*.custom` leaves the preset table changed — the stored include list of
the `python` preset now ends in `*.custom` — contradicting the claim
that the built-in preset table is read-only.  With no CLI or file
patterns the table happens to be preserved (the in-place `extend` adds
nothing), which is why the aliasing goes unnoticed within a single
run. -/
theorem c9_resolve_mutates_preset_table :
    (Generator.resolvePatterns PRESETS "generic" (some "python") none
        [] [] ["*.custom"] []).2 ≠ PRESETS ∧
    ((Generator.resolvePatterns PRESETS "generic" (some "python") none
        [] [] ["*.custom"] []).2.lookup "python") =
      some (["*.py", "requirements*.txt", "pyproject.toml", "setup.py", "*.pyx",
             "*.pyi", "*.custom"],
            ["*.pyc", "*.pyo", "*.pyd", "*.egg-info/*", "venv/*", ".venv/*",
             "__pycache__/*"]) ∧
    (Generator.resolvePatterns PRESETS "generic" (some "python") none
        [] [] [] []).2 = PRESETS := by
  decide

/-! ## Minifier

Minification works on character lists.  The regex substitutions of the
source are embedded by their semantics on the concrete patterns used:

* `re.sub(r"//.*$", "", s, flags=re.MULTILINE)` cuts every
  `\n`-delimited line at its first `//`;
* `re.sub(r"#(?!!).*$", "", line)` cuts a line at its first `#` not
  followed by `!`;
* `re.sub(r"/\*.*?\*/", "", s, flags=re.DOTALL)` scans left to right;
  at the first `/*` it removes up to the nearest following `*/` and
  continues after it, and a `/*` with no later `*/` is left in place
  (no later opener can match either, since any closer after it would
  also close the first opener);
* `re.sub(r"\s+", " ", s)` collapses each maximal whitespace run to a
  single space;
* `re.sub(r"\s*([{}:;,])\s*", r"\1", s)` drops the whitespace runs
  adjacent to the punctuation characters.

Functions that scan past removed text take fuel bounded by the input
length so that all runs reduce inside the kernel. -/

/-- Split at `\n` only — the line structure seen by `re` in `MULTILINE`
mode (other line breaks are ordinary characters for `$` and `.`). -/
def splitOnNl : List Char → List (List Char)
  | [] => [[]]
  | c :: rest =>
    if c = '\n' then [] :: splitOnNl rest
    else
      match splitOnNl rest with
      | [] => [[c]]
      | l :: ls => (c :: l) :: ls

/-- Join lines with `\n` (inverse of `splitOnNl`). -/
def joinNl : List (List Char) → List Char
  | [] => []
  | [l] => l
  | l :: ls => l ++ '\n' :: joinNl ls

/-- Cut a line at its first `//` (the effect of `re.sub(r"//.*$", "")`
on one line). -/
def cutLine : List Char → List Char
  | [] => []
  | c :: rest =>
    if c = '/' ∧ rest.head? = some '/' then []
    else c :: cutLine rest

/-- Cut a line at its first `#` not followed by `!` (the effect of
`re.sub(r"#(?!!).*$", "")` on one line). -/
def cutHash : List Char → List Char
  | [] => []
  | '#' :: '!' :: rest => '#' :: '!' :: cutHash rest
  | '#' :: _ => []
  | c :: rest => c :: cutHash rest

/-- `re.sub(r"//.*$", "", s, flags=re.MULTILINE)`. -/
def lineSub (s : List Char) : List Char :=
  joinNl ((splitOnNl s).map cutLine)

/-- The suffix after the first `*/`, if any. -/
def findClose : List Char → Option (List Char)
  | [] => none
  | c :: rest =>
    if c = '*' ∧ rest.head? = some '/' then some rest.tail
    else findClose rest

/-- `re.sub(r"/\*.*?\*/", "", s, flags=re.DOTALL)`, fuelled: emit
characters until a `/*`; at a `/*`, remove up to the nearest `*/` and
continue after it, or keep the remainder verbatim when it never
closes. -/
def blockSubF : Nat → List Char → List Char
  | 0, s => s
  | _ + 1, [] => []
  | f + 1, c :: rest =>
    if c = '/' ∧ rest.head? = some '*' then
      match findClose rest.tail with
      | some d => blockSubF f d
      | none => c :: rest
    else c :: blockSubF f rest

/-- Block-comment removal at its limit fuel. -/
def blockSub (s : List Char) : List Char :=
  blockSubF s.length s

/-- `Minifier._minify_javascript`: strip `//` line comments, strip
`/* ... */` block comments, then keep the right-stripped non-blank
lines. -/
def Minifier._minify_javascript (s : List Char) : List Char :=
  let s1 := lineSub s
  let s2 := blockSub s1
  joinNl ((pySplitlines s2).filterMap
    (fun l => if pyStripNonEmpty l then some (pyRstrip l) else none))

/-- The punctuation class `[{}:;,]` of the stylesheet strategy. -/
def isCssTok (c : Char) : Bool :=
  c = '\x7b' ∨ c = '\x7d' ∨ c = ':' ∨ c = ';' ∨ c = ','

/-- `re.sub(r"\s+", " ", s)`: collapse each maximal whitespace run to a
single space. -/
def collapseWs : List Char → List Char
  | [] => []
  | [c] => if pyIsSpace c then [' '] else [c]
  | c :: c' :: rest =>
    if pyIsSpace c then
      if pyIsSpace c' then collapseWs (c' :: rest)
      else ' ' :: collapseWs (c' :: rest)
    else c :: collapseWs (c' :: rest)

/-- `re.sub(r"\s*([{}:;,])\s*", r"\1", s)`, fuelled: a punctuation
character is emitted with its adjacent whitespace runs removed; a
whitespace run followed by punctuation is consumed with it; all other
characters are kept. -/
def tokenSubF : Nat → List Char → List Char
  | 0, s => s
  | _ + 1, [] => []
  | f + 1, c :: rest =>
    if isCssTok c then c :: tokenSubF f (rest.dropWhile pyIsSpace)
    else if pyIsSpace c then
      match (c :: rest).dropWhile pyIsSpace with
      | t :: rest' =>
        if isCssTok t then t :: tokenSubF f (rest'.dropWhile pyIsSpace)
        else c :: tokenSubF f rest
      | [] => c :: tokenSubF f rest
    else c :: tokenSubF f rest

/-- Punctuation-adjacent whitespace removal at its limit fuel. -/
def tokenSub (s : List Char) : List Char :=
  tokenSubF s.length s

/-- Python `str.strip()`. -/
def pyStrip (l : List Char) : List Char :=
  ((l.dropWhile pyIsSpace).reverse.dropWhile pyIsSpace).reverse

/-- `Minifier._minify_css`: strip block comments, collapse whitespace,
remove whitespace around punctuation, strip. -/
def Minifier._minify_css (s : List Char) : List Char :=
  pyStrip (tokenSub (collapseWs (blockSub s)))

/-- One line of `Minifier._minify_generic`'s loop (for a non-shebang
line): cut at `//`, cut at `#` (except `#!`), keep the right-stripped
line when something non-blank remains. -/
def genKeep (l : List Char) : Option (List Char) :=
  let nl := cutHash (cutLine l)
  if pyStripNonEmpty nl then some (pyRstrip nl) else none

/-- `Minifier._minify_generic`: a leading shebang line is kept verbatim,
other lines are cut at `//` and `#` comments and dropped when blank,
then `/* ... */` block comments are removed from the joined result. -/
def Minifier._minify_generic (s : List Char) : List Char :=
  let res :=
    match pySplitlines s with
    | [] => []
    | l0 :: rest =>
      if startsChars ['#', '!'] l0 then l0 :: rest.filterMap genKeep
      else
        match genKeep l0 with
        | some x => x :: rest.filterMap genKeep
        | none => rest.filterMap genKeep
  blockSub (joinNl res)

/-- `Minifier._minify_python`: `tokenize`/`untokenize` is an external
library; the oracle returns `some r` when tokenization succeeds with
comment-stripped result `r`, and `none` on a
`TokenError`/`IndentationError`, in which case the source falls back to
the generic strategy. -/
def Minifier._minify_python (pyTok : List Char → Option (List Char))
    (s : List Char) : List Char :=
  match pyTok s with
  | some r => r
  | none => Minifier._minify_generic s

/-- `Minifier.minify`: dispatch on the lower-cased file extension. -/
def Minifier.minify (pyTok : List Char → Option (List Char))
    (content : List Char) (ext : String) : List Char :=
  if ext = ".py" then Minifier._minify_python pyTok content
  else if ext ∈ [".js", ".jsx", ".ts", ".tsx", ".mjs", ".cjs"] then
    Minifier._minify_javascript content
  else if ext ∈ [".css", ".scss", ".less"] then
    Minifier._minify_css content
  else Minifier._minify_generic content

/-! ## FileProcessor

A candidate file is modelled by its `stat` size, its bytes, and two
fault injections standing for the I/O exceptions the outer
`try`/`except` of `process_file` catches (`statErr`: `path.stat()`
raises; `readErr`: `path.open`/`f.read` raises).  The external `chardet`
detector and the codec registry used for a `chardet`-guessed encoding
are oracles; UTF-8 and Latin-1, the two encodings the tool itself
guarantees, are implemented. -/

structure FileM where
  size : Nat
  bytes : List Nat
  statErr : Option String := none
  readErr : Option String := none

/-- `ProcessedFile` from the source (the path field carries the
resolved components). -/
structure ProcessedFile where
  path : List String
  content : Option String := none
  skipped : Bool := false
  reason : Option String := none
  size : Nat := 0
  encoding : String := "unknown"
  deriving Repr, DecidableEq

/-- The reads `process_file` performs, for stating that an oversized
file's content is never read. -/
inductive Eff where
  | statSize
  | readChunk
  | readFull
  deriving Repr, DecidableEq

/-- `ENCODING_SAMPLE_SIZE` from the source. -/
def ENCODING_SAMPLE_SIZE : Nat := 8192

/-- `Config.max_file_size_bytes`: `None` models `float("inf")`
(non-positive limit), otherwise `int(max_file_size_mb * 1024 * 1024)`
— multiplying a float by `2^20` is exact, so `int` of it is the floor
of the exact rational product. -/
def Config.max_file_size_bytes (cfg : Config) : Option ℤ :=
  if cfg.max_file_size_mb ≤ 0 then none
  else some ⌊cfg.max_file_size_mb * 1048576⌋

/-- Strict UTF-8 validity of a byte sequence (`bytes.decode("utf-8")`
succeeds), rejecting overlong forms, surrogates and values beyond
`U+10FFFF`. -/
def isValidUtf8 : List Nat → Bool
  | [] => true
  | b :: rest =>
    if b < 0x80 then isValidUtf8 rest
    else if 0xc2 ≤ b ∧ b ≤ 0xdf then
      match rest with
      | b2 :: rest' => (0x80 ≤ b2 ∧ b2 < 0xc0) && isValidUtf8 rest'
      | [] => false
    else if 0xe0 ≤ b ∧ b ≤ 0xef then
      match rest with
      | b2 :: b3 :: rest' =>
        (decide (0x80 ≤ b2 ∧ b2 < 0xc0) &&
          decide (0x80 ≤ b3 ∧ b3 < 0xc0) &&
          !decide (b = 0xe0 ∧ b2 < 0xa0) &&
          !decide (b = 0xed ∧ 0xa0 ≤ b2)) && isValidUtf8 rest'
      | _ => false
    else if 0xf0 ≤ b ∧ b ≤ 0xf4 then
      match rest with
      | b2 :: b3 :: b4 :: rest' =>
        (decide (0x80 ≤ b2 ∧ b2 < 0xc0) &&
          decide (0x80 ≤ b3 ∧ b3 < 0xc0) &&
          decide (0x80 ≤ b4 ∧ b4 < 0xc0) &&
          !decide (b = 0xf0 ∧ b2 < 0x90) &&
          !decide (b = 0xf4 ∧ 0x90 ≤ b2)) && isValidUtf8 rest'
      | _ => false
    else false

/-- The replacement character `U+FFFD`. -/
def replChar : Char := Char.ofNat 0xfffd

/-- `bytes.decode("utf-8", errors="replace")`: total decoding with one
replacement character per maximal ill-formed subpart (a valid lead byte
consumes its valid continuation bytes before being replaced), following
CPython. -/
def utf8DecodeReplace : List Nat → List Char
  | [] => []
  | b :: rest =>
    if b < 0x80 then Char.ofNat b :: utf8DecodeReplace rest
    else if 0xc2 ≤ b ∧ b ≤ 0xdf then
      match rest with
      | b2 :: rest' =>
        if 0x80 ≤ b2 ∧ b2 < 0xc0 then
          Char.ofNat ((b - 0xc0) * 64 + (b2 - 0x80)) :: utf8DecodeReplace rest'
        else replChar :: utf8DecodeReplace (b2 :: rest')
      | [] => [replChar]
    else if 0xe0 ≤ b ∧ b ≤ 0xef then
      match rest with
      | b2 :: rest' =>
        if (0x80 ≤ b2 ∧ b2 < 0xc0) ∧ ¬(b = 0xe0 ∧ b2 < 0xa0) ∧ ¬(b = 0xed ∧ 0xa0 ≤ b2) then
          match rest' with
          | b3 :: rest'' =>
            if 0x80 ≤ b3 ∧ b3 < 0xc0 then
              Char.ofNat ((b - 0xe0) * 4096 + (b2 - 0x80) * 64 + (b3 - 0x80)) ::
                utf8DecodeReplace rest''
            else replChar :: utf8DecodeReplace (b3 :: rest'')
          | [] => [replChar]
        else replChar :: utf8DecodeReplace (b2 :: rest')
      | [] => [replChar]
    else if 0xf0 ≤ b ∧ b ≤ 0xf4 then
      match rest with
      | b2 :: rest' =>
        if (0x80 ≤ b2 ∧ b2 < 0xc0) ∧ ¬(b = 0xf0 ∧ b2 < 0x90) ∧ ¬(b = 0xf4 ∧ 0x90 ≤ b2) then
          match rest' with
          | b3 :: rest'' =>
            if 0x80 ≤ b3 ∧ b3 < 0xc0 then
              match rest'' with
              | b4 :: rest''' =>
                if 0x80 ≤ b4 ∧ b4 < 0xc0 then
                  Char.ofNat ((b - 0xf0) * 262144 + (b2 - 0x80) * 4096 +
                    (b3 - 0x80) * 64 + (b4 - 0x80)) :: utf8DecodeReplace rest'''
                else replChar :: utf8DecodeReplace (b4 :: rest''')
              | [] => [replChar]
            else replChar :: utf8DecodeReplace (b3 :: rest'')
          | [] => [replChar]
        else replChar :: utf8DecodeReplace (b2 :: rest')
      | [] => [replChar]
    else replChar :: utf8DecodeReplace rest

/-- `bytes.decode("latin-1")`: total, one character per byte. -/
def latin1Decode (bs : List Nat) : List Char :=
  bs.map (fun b => Char.ofNat (b % 256))

/-- The `chardet` collaborator: `none` when the library is absent
(`HAS_CHARDET = False`); otherwise a function from the sample to
`(result.get("encoding"), result["confidence"])`. -/
abbrev ChardetOracle := Option (List Nat → Option String × ℚ)

/-- The codec registry consulted for a `chardet`-guessed encoding name:
`Except` failure models the exception (`LookupError` etc.) that the
inner `try` of `process_file` catches. -/
abbrev CodecOracle := String → List Nat → Except String (List Char)

/-- `FileProcessor._detect_encoding`: strict UTF-8 on the sample, else a
`chardet` guess if available, truthy and above confidence `0.7` (no
float lies strictly between `float(0.7)` and `7/10`, so the comparison
is exact), else Latin-1. -/
def FileProcessor._detect_encoding (chardetO : ChardetOracle)
    (chunk : List Nat) : String :=
  if isValidUtf8 chunk then "utf-8"
  else
    match chardetO with
    | some det =>
      let r := det chunk
      match r.1 with
      | some enc => if enc ≠ "" ∧ r.2 > 7 / 10 then enc else "latin-1"
      | none => "latin-1"
    | none => "latin-1"

/-- `content = f.read().decode(encoding, errors="replace")`: implemented
for the two encodings the tool guarantees, deferred to the codec oracle
for a `chardet` guess. -/
def decodeWith (codecO : CodecOracle) (enc : String) (bs : List Nat) :
    Except String (List Char) :=
  if enc = "utf-8" then .ok (utf8DecodeReplace bs)
  else if enc = "latin-1" then .ok (latin1Decode bs)
  else codecO enc bs

/-- The part of `FileProcessor.process_file` after the size check:
binary sniff on the 8 KiB sample, encoding detection, full decode with
replacement, optional minification, and the emptiness check, with the
read-fault branch of the outer `try`/`except`. -/
def FileProcessor.process_rest (cfg : Config) (chardetO : ChardetOracle)
    (codecO : CodecOracle) (pyTok : List Char → Option (List Char))
    (path : List String) (nm : String) (fm : FileM) :
    ProcessedFile × List Eff :=
  match fm.readErr with
  | some e =>
    ({ path := path, skipped := true,
       reason := some ("Error reading file: " ++ e) }, [Eff.statSize])
  | none =>
    let size := fm.size
    let chunk := fm.bytes.take ENCODING_SAMPLE_SIZE
    if chunk.contains 0 then
      ({ path := path, skipped := true, reason := some "Binary file detected",
         size := size }, [Eff.statSize, Eff.readChunk])
    else
      let encoding := FileProcessor._detect_encoding chardetO chunk
      match decodeWith codecO encoding fm.bytes with
      | .error e =>
        ({ path := path, skipped := true,
           reason := some ("Could not decode with " ++ encoding ++ ": " ++ e),
           size := size }, [Eff.statSize, Eff.readChunk, Eff.readFull])
      | .ok content0 =>
        let content :=
          if cfg.minify then
            Minifier.minify pyTok content0 (asciiLower (pySuffix nm))
          else content0
        if pyStripNonEmpty content then
          ({ path := path, content := some (String.mk content), size := size,
             encoding := encoding }, [Eff.statSize, Eff.readChunk, Eff.readFull])
        else
          ({ path := path, skipped := true,
             reason := some (if cfg.minify then "Empty after minification"
               else "Empty or whitespace-only file"),
             size := size }, [Eff.statSize, Eff.readChunk, Eff.readFull])

/-- `FileProcessor.process_file`, returning the `ProcessedFile` together
with the trace of reads performed.  The outer `try`/`except` of the
source appears as the fault branches (reason `Error reading file: ...`);
every branch returns a `ProcessedFile`, which is the embedded form of
"this component never raises". -/
def FileProcessor.process_file (cfg : Config) (chardetO : ChardetOracle)
    (codecO : CodecOracle) (pyTok : List Char → Option (List Char))
    (path : List String) (nm : String) (fm : FileM) :
    ProcessedFile × List Eff :=
  match fm.statErr with
  | some e =>
    ({ path := path, skipped := true, reason := some ("Error reading file: " ++ e) }, [])
  | none =>
    let size := fm.size
    match cfg.max_file_size_bytes with
    | some limit =>
      if (size : ℤ) > limit then
        ({ path := path, skipped := true,
           reason := some ("Exceeds max size (" ++ toString size ++ " > " ++
             toString limit ++ ")"),
           size := size }, [Eff.statSize])
      else FileProcessor.process_rest cfg chardetO codecO pyTok path nm fm
    | none => FileProcessor.process_rest cfg chardetO codecO pyTok path nm fm

/-- Whether a `ProcessedFile` is a size skip (its reason carries the
`Exceeds max size` prefix; no other reason produced by `process_file`
starts that way). -/
def ProcessedFile.sizeSkipped (r : ProcessedFile) : Bool :=
  r.skipped &&
    (match r.reason with
     | some s => pyStartsWith s "Exceeds max size"
     | none => false)

/-- The size check passes (no finite limit is exceeded). -/
def sizeOk (cfg : Config) (fm : FileM) : Prop :=
  match cfg.max_file_size_bytes with
  | some limit => (fm.size : ℤ) ≤ limit
  | none => True

/-- No branch of the post-size-check processing produces a size-skip
reason. -/
theorem process_rest_not_sizeSkipped (cfg : Config) (chardetO : ChardetOracle)
    (codecO : CodecOracle) (pyTok : List Char → Option (List Char))
    (path : List String) (nm : String) (fm : FileM) :
    (FileProcessor.process_rest cfg chardetO codecO pyTok path nm fm).1.sizeSkipped = false := by
  unfold FileProcessor.process_rest
  cases fm.readErr with
  | some e => rfl
  | none =>
    dsimp only
    by_cases hnul : (fm.bytes.take ENCODING_SAMPLE_SIZE).contains 0 = true
    · rw [if_pos hnul]
      rfl
    · rw [if_neg hnul]
      cases decodeWith codecO
          (FileProcessor._detect_encoding chardetO (fm.bytes.take ENCODING_SAMPLE_SIZE))
          fm.bytes with
      | error e => rfl
      | ok content0 =>
        dsimp only
        by_cases hne : pyStripNonEmpty
            (if cfg.minify = true then Minifier.minify pyTok content0 (asciiLower (pySuffix nm))
             else content0) = true
        · rw [if_pos hne]
          rfl
        · rw [if_neg hne]
          cases cfg.minify <;> rfl

/-- Claim C10: with a non-positive `max_file_size_mb` the limit is
`float("inf")` and no file is ever skipped for size; with a positive
one, a file is skipped with an `Exceeds max size` reason exactly when
its byte size strictly exceeds `int(max_file_size_mb * 1024 * 1024)`,
and in that case nothing beyond `stat` is performed — the content is
never read. -/
theorem c10_max_file_size (cfg : Config) (chardetO : ChardetOracle)
    (codecO : CodecOracle) (pyTok : List Char → Option (List Char))
    (path : List String) (nm : String) (fm : FileM)
    (hstat : fm.statErr = none) :
    (cfg.max_file_size_mb ≤ 0 →
      cfg.max_file_size_bytes = none ∧
      (FileProcessor.process_file cfg chardetO codecO pyTok path nm fm).1.sizeSkipped = false) ∧
    (0 < cfg.max_file_size_mb →
      cfg.max_file_size_bytes = some ⌊cfg.max_file_size_mb * 1048576⌋ ∧
      ((FileProcessor.process_file cfg chardetO codecO pyTok path nm fm).1.sizeSkipped = true ↔
        (fm.size : ℤ) > ⌊cfg.max_file_size_mb * 1048576⌋) ∧
      ((fm.size : ℤ) > ⌊cfg.max_file_size_mb * 1048576⌋ →
        (FileProcessor.process_file cfg chardetO codecO pyTok path nm fm).2 = [Eff.statSize] ∧
        Eff.readChunk ∉ (FileProcessor.process_file cfg chardetO codecO pyTok path nm fm).2 ∧
        Eff.readFull ∉ (FileProcessor.process_file cfg chardetO codecO pyTok path nm fm).2)) := by
  constructor
  · intro hle
    have hbytes : cfg.max_file_size_bytes = none := by
      simp [Config.max_file_size_bytes, hle]
    refine ⟨hbytes, ?_⟩
    unfold FileProcessor.process_file
    rw [hstat, hbytes]
    exact process_rest_not_sizeSkipped ..
  · intro hpos
    have hbytes : cfg.max_file_size_bytes = some ⌊cfg.max_file_size_mb * 1048576⌋ := by
      simp [Config.max_file_size_bytes, not_le.mpr hpos]
    refine ⟨hbytes, ?_, ?_⟩
    · unfold FileProcessor.process_file
      rw [hstat, hbytes]
      dsimp only
      by_cases hgt : (fm.size : ℤ) > ⌊cfg.max_file_size_mb * 1048576⌋
      · rw [if_pos hgt]
        exact ⟨fun _ => hgt, fun _ => rfl⟩
      · rw [if_neg hgt]
        rw [process_rest_not_sizeSkipped]
        exact iff_of_false (by simp) hgt
    · intro hgt
      unfold FileProcessor.process_file
      rw [hstat, hbytes]
      dsimp only
      rw [if_pos hgt]
      refine ⟨rfl, by simp, by simp⟩

/-- Witness for `c10_max_file_size`: a 100-byte file against a limit of
`10⁻⁷` MB (the spec's near-zero scenario, `int(10⁻⁷·2²⁰) = 0`) is
skipped for size and its content is never read; with the limit `0` the
bound is infinite. -/
theorem c10_max_file_size_witness :
    ({ size := 100, bytes := List.replicate 100 97 } : FileM).statErr = none ∧
    ((FileProcessor.process_file { max_file_size_mb := 1 / 10000000 } none
        (fun _ _ => .error "unknown") (fun _ => none) ["R", "f.txt"] "f.txt"
        { size := 100, bytes := List.replicate 100 97 }).1.sizeSkipped = true ↔
      ((100 : ℕ) : ℤ) > ⌊(1 / 10000000 : ℚ) * 1048576⌋) ∧
    ({ max_file_size_mb := 0 } : Config).max_file_size_bytes = none := by
  refine ⟨rfl, ?_, ?_⟩
  · exact (c10_max_file_size { max_file_size_mb := 1 / 10000000 } none
      (fun _ _ => .error "unknown") (fun _ => none) ["R", "f.txt"] "f.txt"
      { size := 100, bytes := List.replicate 100 97 } rfl).2 (by norm_num) |>.2.1
  · exact (c10_max_file_size { max_file_size_mb := 0 } none
      (fun _ _ => .error "unknown") (fun _ => none) ["R", "f.txt"] "f.txt"
      { size := 100, bytes := List.replicate 100 97 } rfl).1 (by norm_num) |>.1

/-- Shape of the post-size-check processing: every skip carries a
reason, every non-skip carries content, a read fault becomes an
`Error reading file` skip, and a NUL byte in the 8 KiB sample becomes a
`Binary file detected` skip. -/
theorem process_rest_shape (cfg : Config) (chardetO : ChardetOracle)
    (codecO : CodecOracle) (pyTok : List Char → Option (List Char))
    (path : List String) (nm : String) (fm : FileM) :
    ((FileProcessor.process_rest cfg chardetO codecO pyTok path nm fm).1.skipped = true →
      ∃ s, (FileProcessor.process_rest cfg chardetO codecO pyTok path nm fm).1.reason = some s) ∧
    ((FileProcessor.process_rest cfg chardetO codecO pyTok path nm fm).1.skipped = false →
      ∃ c, (FileProcessor.process_rest cfg chardetO codecO pyTok path nm fm).1.content = some c) ∧
    (∀ e, fm.readErr = some e →
      (FileProcessor.process_rest cfg chardetO codecO pyTok path nm fm).1.skipped = true ∧
      (FileProcessor.process_rest cfg chardetO codecO pyTok path nm fm).1.reason =
        some ("Error reading file: " ++ e)) ∧
    (fm.readErr = none → (fm.bytes.take ENCODING_SAMPLE_SIZE).contains 0 = true →
      (FileProcessor.process_rest cfg chardetO codecO pyTok path nm fm).1.skipped = true ∧
      (FileProcessor.process_rest cfg chardetO codecO pyTok path nm fm).1.reason =
        some "Binary file detected") := by
  unfold FileProcessor.process_rest
  cases hre : fm.readErr with
  | some e =>
    refine ⟨fun _ => ⟨_, rfl⟩, fun h => absurd h (by simp), ?_, fun hnone => by simp at hnone⟩
    intro e' he'
    cases Option.some_inj.mp he'
    exact ⟨rfl, rfl⟩
  | none =>
    dsimp only
    refine ⟨?_, ?_, ?_, ?_⟩ <;>
      by_cases hnul : (fm.bytes.take ENCODING_SAMPLE_SIZE).contains 0 = true
    · rw [if_pos hnul]
      exact fun _ => ⟨_, rfl⟩
    · rw [if_neg hnul]
      cases decodeWith codecO
          (FileProcessor._detect_encoding chardetO (fm.bytes.take ENCODING_SAMPLE_SIZE))
          fm.bytes with
      | error e => exact fun _ => ⟨_, rfl⟩
      | ok content0 =>
        dsimp only
        by_cases hne : pyStripNonEmpty
            (if cfg.minify = true then Minifier.minify pyTok content0 (asciiLower (pySuffix nm))
             else content0) = true
        · rw [if_pos hne]
          exact fun h => absurd h (by simp)
        · rw [if_neg hne]
          exact fun _ => ⟨_, rfl⟩
    · rw [if_pos hnul]
      exact fun h => absurd h (by simp)
    · rw [if_neg hnul]
      cases decodeWith codecO
          (FileProcessor._detect_encoding chardetO (fm.bytes.take ENCODING_SAMPLE_SIZE))
          fm.bytes with
      | error e => exact fun h => absurd h (by simp)
      | ok content0 =>
        dsimp only
        by_cases hne : pyStripNonEmpty
            (if cfg.minify = true then Minifier.minify pyTok content0 (asciiLower (pySuffix nm))
             else content0) = true
        · rw [if_pos hne]
          exact fun _ => ⟨_, rfl⟩
        · rw [if_neg hne]
          exact fun h => absurd h (by simp)
    · exact fun e he => by cases he
    · exact fun e he => by cases he
    · rw [if_pos hnul]
      exact fun _ _ => ⟨rfl, rfl⟩
    · exact fun _ hn => absurd hn hnul

/-- Claim C6: `process_file` is total and never escalates: a `stat`
fault, a read fault, a NUL byte in the sample, an oversized file and
blank content all become skips carrying a reason; any skip carries a
reason and any non-skip carries content; encoding selection always
succeeds — strict UTF-8 on the 8 KiB sample, else a `chardet` guess
only with a truthy encoding above confidence `0.7`, else Latin-1 — and
the full decode path for the two guaranteed encodings uses lossy
replacement and cannot fail. -/
theorem c6_process_file_never_raises (cfg : Config) (chardetO : ChardetOracle)
    (codecO : CodecOracle) (pyTok : List Char → Option (List Char))
    (path : List String) (nm : String) (fm : FileM) :
    ((FileProcessor.process_file cfg chardetO codecO pyTok path nm fm).1.skipped = true →
      ∃ s, (FileProcessor.process_file cfg chardetO codecO pyTok path nm fm).1.reason = some s) ∧
    ((FileProcessor.process_file cfg chardetO codecO pyTok path nm fm).1.skipped = false →
      ∃ c, (FileProcessor.process_file cfg chardetO codecO pyTok path nm fm).1.content = some c) ∧
    (∀ e, fm.statErr = some e →
      (FileProcessor.process_file cfg chardetO codecO pyTok path nm fm).1.skipped = true ∧
      (FileProcessor.process_file cfg chardetO codecO pyTok path nm fm).1.reason =
        some ("Error reading file: " ++ e)) ∧
    (fm.statErr = none → sizeOk cfg fm → ∀ e, fm.readErr = some e →
      (FileProcessor.process_file cfg chardetO codecO pyTok path nm fm).1.skipped = true ∧
      (FileProcessor.process_file cfg chardetO codecO pyTok path nm fm).1.reason =
        some ("Error reading file: " ++ e)) ∧
    (fm.statErr = none → sizeOk cfg fm → fm.readErr = none →
      (fm.bytes.take ENCODING_SAMPLE_SIZE).contains 0 = true →
      (FileProcessor.process_file cfg chardetO codecO pyTok path nm fm).1.skipped = true ∧
      (FileProcessor.process_file cfg chardetO codecO pyTok path nm fm).1.reason =
        some "Binary file detected") ∧
    ((FileProcessor._detect_encoding chardetO (fm.bytes.take ENCODING_SAMPLE_SIZE) = "utf-8" ∧
        isValidUtf8 (fm.bytes.take ENCODING_SAMPLE_SIZE) = true) ∨
      (∃ det, chardetO = some det ∧
        ∃ g, (det (fm.bytes.take ENCODING_SAMPLE_SIZE)).1 = some g ∧ g ≠ "" ∧
          (det (fm.bytes.take ENCODING_SAMPLE_SIZE)).2 > 7 / 10 ∧
          FileProcessor._detect_encoding chardetO (fm.bytes.take ENCODING_SAMPLE_SIZE) = g) ∨
      FileProcessor._detect_encoding chardetO (fm.bytes.take ENCODING_SAMPLE_SIZE) = "latin-1") ∧
    (decodeWith codecO "utf-8" fm.bytes = .ok (utf8DecodeReplace fm.bytes) ∧
      decodeWith codecO "latin-1" fm.bytes = .ok (latin1Decode fm.bytes)) := by
  have hshape := process_rest_shape cfg chardetO codecO pyTok path nm fm
  have hlift : fm.statErr = none → sizeOk cfg fm →
      FileProcessor.process_file cfg chardetO codecO pyTok path nm fm =
        FileProcessor.process_rest cfg chardetO codecO pyTok path nm fm := by
    intro hstat hsz
    unfold FileProcessor.process_file
    rw [hstat]
    dsimp only
    unfold sizeOk at hsz
    cases hb : cfg.max_file_size_bytes with
    | none => rfl
    | some limit =>
      rw [hb] at hsz
      dsimp only at hsz ⊢
      rw [if_neg (not_lt.mpr hsz)]
  refine ⟨?_, ?_, ?_, ?_, ?_, ?_, ?_, ?_⟩
  · -- skips carry a reason
    cases hstat : fm.statErr with
    | some e =>
      intro _
      unfold FileProcessor.process_file
      rw [hstat]
      exact ⟨_, rfl⟩
    | none =>
      unfold FileProcessor.process_file
      rw [hstat]
      dsimp only
      cases hb : cfg.max_file_size_bytes with
      | none => exact hshape.1
      | some limit =>
        dsimp only
        by_cases hgt : (fm.size : ℤ) > limit
        · rw [if_pos hgt]
          exact fun _ => ⟨_, rfl⟩
        · rw [if_neg hgt]
          exact hshape.1
  · -- non-skips carry content
    cases hstat : fm.statErr with
    | some e =>
      intro h
      unfold FileProcessor.process_file at h
      rw [hstat] at h
      cases h
    | none =>
      unfold FileProcessor.process_file
      rw [hstat]
      dsimp only
      cases hb : cfg.max_file_size_bytes with
      | none => exact hshape.2.1
      | some limit =>
        dsimp only
        by_cases hgt : (fm.size : ℤ) > limit
        · rw [if_pos hgt]
          exact fun h => absurd h (by simp)
        · rw [if_neg hgt]
          exact hshape.2.1
  · -- stat fault
    intro e he
    unfold FileProcessor.process_file
    rw [he]
    exact ⟨rfl, rfl⟩
  · -- read fault
    intro hstat hsz e he
    rw [hlift hstat hsz]
    exact hshape.2.2.1 e he
  · -- binary sniff
    intro hstat hsz hre hnul
    rw [hlift hstat hsz]
    exact hshape.2.2.2 hre hnul
  · -- encoding selection
    unfold FileProcessor._detect_encoding
    by_cases hv : isValidUtf8 (fm.bytes.take ENCODING_SAMPLE_SIZE) = true
    · rw [if_pos hv]
      exact Or.inl ⟨rfl, hv⟩
    · rw [if_neg hv]
      cases hdet : chardetO with
      | none => exact Or.inr (Or.inr rfl)
      | some det =>
        dsimp only
        cases henc : (det (fm.bytes.take ENCODING_SAMPLE_SIZE)).1 with
        | none => exact Or.inr (Or.inr rfl)
        | some g =>
          dsimp only
          by_cases hc : g ≠ "" ∧ (det (fm.bytes.take ENCODING_SAMPLE_SIZE)).2 > 7 / 10
          · rw [if_pos hc]
            exact Or.inr (Or.inl ⟨det, rfl, g, henc, hc.1, hc.2, rfl⟩)
          · rw [if_neg hc]
            exact Or.inr (Or.inr rfl)
  · exact rfl
  · exact rfl

/-- Witness for `c6_process_file_never_raises`: a concrete run with an
injected read fault produces the corresponding error skip. -/
theorem c6_process_file_never_raises_witness :
    (FileProcessor.process_file {} none (fun _ _ => .error "unknown") (fun _ => none)
        ["R", "f.txt"] "f.txt"
        { size := 3, bytes := [104, 105, 10], readErr := some "Permission denied" }).1.reason =
      some "Error reading file: Permission denied" :=
  ((c6_process_file_never_raises {} none (fun _ _ => .error "unknown") (fun _ => none)
    ["R", "f.txt"] "f.txt"
    { size := 3, bytes := [104, 105, 10], readErr := some "Permission denied" }).2.2.2.1
    rfl (by norm_num [sizeOk, Config.max_file_size_bytes]) "Permission denied" rfl).2

/-! ## Formatters and the streaming writer

The three formatters render to strings; the writer sorts the candidate
paths, drops the output file itself, and streams header, per-file
sections and footer into a temporary file that is atomically renamed
onto the destination.  `time.strftime("%Y-%m-%d %H:%M:%S")` is a pure
rendering of the wall-clock reading, modelled by a `Timestamp`
record. -/

def VERSION : String := "5.0.0"

structure Timestamp where
  year : Nat
  month : Nat
  day : Nat
  hour : Nat
  minute : Nat
  second : Nat
  deriving Repr, DecidableEq

/-- Decimal digits of a natural number (Python `str(int)` for
non-negative values), fuelled by the number itself. -/
def natReprAux : Nat → Nat → List Char
  | 0, _ => []
  | f + 1, n =>
    if n < 10 then [Char.ofNat (48 + n)]
    else natReprAux f (n / 10) ++ [Char.ofNat (48 + n % 10)]

/-- Decimal rendering of a natural number. -/
def natRepr (n : Nat) : String :=
  String.mk (natReprAux (n + 1) n)

/-- Zero-padded two-digit field of `strftime`. -/
def pad2 (n : Nat) : String :=
  if n < 10 then "0" ++ natRepr n else natRepr n

/-- Zero-padded four-digit year field of `strftime`. -/
def pad4 (n : Nat) : String :=
  if n < 10 then "000" ++ natRepr n
  else if n < 100 then "00" ++ natRepr n
  else if n < 1000 then "0" ++ natRepr n
  else natRepr n

/-- `time.strftime("%Y-%m-%d %H:%M:%S")`. -/
def Timestamp.render (t : Timestamp) : String :=
  pad4 t.year ++ "-" ++ pad2 t.month ++ "-" ++ pad2 t.day ++ " " ++
    pad2 t.hour ++ ":" ++ pad2 t.minute ++ ":" ++ pad2 t.second

/-- A run of `n` copies of a character (`"=" * n`). -/
def charRow (c : Char) (n : Nat) : String :=
  String.mk (List.replicate n c)

/-- `TextFormatter.write_header`. -/
def TextFormatter.write_header (rootStr : String) (ts : Timestamp)
    (file_count : Nat) : String :=
  "AI Context Report (v" ++ VERSION ++ ")\n" ++ charRow '=' 50 ++ "\n" ++
  "Project Root: " ++ rootStr ++ "\n" ++
  "Generated: " ++ ts.render ++ "\n" ++
  "Files discovered: " ++ natRepr file_count ++ "\n" ++
  charRow '=' 50 ++ "\n\n"

/-- `TextFormatter.write_file`. -/
def TextFormatter.write_file (relPath : String) (r : ProcessedFile) : String :=
  "\n\n" ++ charRow '=' 20 ++ " File: " ++ relPath ++ " " ++ charRow '=' 20 ++
    "\n\n" ++ (r.content.getD "")

/-- `MarkdownFormatter.write_header`. -/
def MarkdownFormatter.write_header (rootStr : String) (ts : Timestamp)
    (file_count : Nat) : String :=
  "# AI Context Report\n\n" ++
  "- **Version**: `" ++ VERSION ++ "`\n" ++
  "- **Project Root**: `" ++ rootStr ++ "`\n" ++
  "- **Generated**: `" ++ ts.render ++ "`\n" ++
  "- **Files discovered**: `" ++ natRepr file_count ++ "`\n\n" ++
  "---\n\n"

/-- Strip all leading dots (`str.lstrip(".")`). -/
def stripLeadDots (s : String) : String :=
  String.mk (s.data.dropWhile (fun c => c = '.'))

/-- `MarkdownFormatter.write_file`: the fence tag is the lower-cased
extension without its dot, or `text`. -/
def MarkdownFormatter.write_file (relPath : String) (r : ProcessedFile) : String :=
  let ext0 := asciiLower (stripLeadDots (pySuffix (r.path.getLastD "")))
  let ext := if ext0 = "" then "text" else ext0
  "## `" ++ relPath ++ "`\n\n" ++
  "```" ++ ext ++ "\n" ++ (r.content.getD "") ++ "\n```\n\n---\n\n"

/-- One lowercase hexadecimal digit. -/
def hexDigit (d : Nat) : Char :=
  if d < 10 then Char.ofNat (48 + d) else Char.ofNat (87 + d)

/-- Four lowercase hexadecimal digits (the `\uXXXX` payload). -/
def hex4 (n : Nat) : List Char :=
  [hexDigit (n / 4096 % 16), hexDigit (n / 256 % 16),
   hexDigit (n / 16 % 16), hexDigit (n % 16)]

/-- The escape `json.dumps` (with its default `ensure_ascii=True`)
applies to one character of a string. -/
def pyJsonEscapeChar (c : Char) : List Char :=
  if c = '"' then ['\\', '"']
  else if c = '\\' then ['\\', '\\']
  else if c = '\n' then ['\\', 'n']
  else if c = '\t' then ['\\', 't']
  else if c = '\r' then ['\\', 'r']
  else if c = '\x08' then ['\\', 'b']
  else if c = '\x0c' then ['\\', 'f']
  else if c.toNat < 0x20 then '\\' :: 'u' :: hex4 c.toNat
  else if c.toNat ≤ 0x7e then [c]
  else if c.toNat ≤ 0xffff then '\\' :: 'u' :: hex4 c.toNat
  else
    ('\\' :: 'u' :: hex4 (0xd800 + (c.toNat - 0x10000) / 1024)) ++
      ('\\' :: 'u' :: hex4 (0xdc00 + (c.toNat - 0x10000) % 1024))

/-- `json.dumps` of a string value. -/
def pyJsonStr (s : String) : String :=
  "\"" ++ String.mk (s.data.flatMap pyJsonEscapeChar) ++ "\""

/-- `JsonFormatter.write_header` (literal braces written `\x7b`/`\x7d`):
note that `generated_at` interpolates the `strftime` result into the
JSON text without escaping, which is safe because the rendering contains
only digits, `-`, space and `:`. -/
def JsonFormatter.write_header (rootStr : String) (ts : Timestamp)
    (file_count : Nat) : String :=
  "\x7b\n" ++
  "  \"metadata\": \x7b\n" ++
  "    \"version\": \"" ++ VERSION ++ "\",\n" ++
  "    \"project_root\": " ++ pyJsonStr rootStr ++ ",\n" ++
  "    \"generated_at\": \"" ++ ts.render ++ "\",\n" ++
  "    \"file_count\": " ++ natRepr file_count ++ "\n" ++
  "  \x7d,\n" ++
  "  \"files\": [\n"

/-- `json.dumps(file_data, indent=4)` re-indented by four spaces, as
`JsonFormatter.write_file` produces it. -/
def jsonEntry (relPath : String) (r : ProcessedFile) : String :=
  "    \x7b\n" ++
  "        \"path\": " ++ pyJsonStr relPath ++ ",\n" ++
  "        \"size\": " ++ natRepr r.size ++ ",\n" ++
  "        \"encoding\": " ++ pyJsonStr r.encoding ++ ",\n" ++
  "        \"content\": " ++ pyJsonStr (r.content.getD "") ++ "\n" ++
  "    \x7d"

/-- `JsonFormatter.write_file`, with the `_is_first_file` comma
handling. -/
def JsonFormatter.write_file (isFirst : Bool) (relPath : String)
    (r : ProcessedFile) : String :=
  (if isFirst then "" else ",\n") ++ jsonEntry relPath r

/-- `JsonFormatter.write_footer`. -/
def JsonFormatter.write_footer : String := "\n  ]\n\x7d\n"

/-- Concatenation of the written strings, in order. -/
def concatStrs : List String → String
  | [] => ""
  | s :: rest => s ++ concatStrs rest

/-- A formatter as the writer drives it: header (project root, time,
count), per-file render (with the is-first flag only JSON uses), and
footer. -/
structure FormatterM where
  header : String → Timestamp → Nat → String
  fileR : Bool → String → ProcessedFile → String
  footer : String

def textFormatter : FormatterM :=
  { header := TextFormatter.write_header,
    fileR := fun _ rel r => TextFormatter.write_file rel r,
    footer := "" }

def markdownFormatter : FormatterM :=
  { header := MarkdownFormatter.write_header,
    fileR := fun _ rel r => MarkdownFormatter.write_file rel r,
    footer := "" }

def jsonFormatter : FormatterM :=
  { header := JsonFormatter.write_header,
    fileR := JsonFormatter.write_file,
    footer := JsonFormatter.write_footer }

/-- `StreamingWriter._get_formatter`. -/
def StreamingWriter.get_formatter (cfg : Config) : FormatterM :=
  match cfg.output_format with
  | .markdown => markdownFormatter
  | .json => jsonFormatter
  | .text => textFormatter

/-- Strict lexicographic comparison of character lists by code point
(Python string `<`). -/
def strLtChars : List Char → List Char → Bool
  | [], [] => false
  | [], _ :: _ => true
  | _ :: _, [] => false
  | a :: as, b :: bs => if a = b then strLtChars as bs else decide (a.toNat < b.toNat)

/-- Python string `<`. -/
def strLt (a b : String) : Bool :=
  strLtChars a.data b.data

/-- `sorted(list(files))`: Python sorts `Path` objects by their
component tuples, i.e. lexicographically on the part lists with string
comparison per part. -/
def pathLe : List String → List String → Bool
  | [], _ => true
  | _ :: _, [] => false
  | a :: as, b :: bs => if a = b then pathLe as bs else strLt a b

/-- The path order as a decidable relation. -/
def pathLeP (a b : List String) : Prop := pathLe a b = true

instance : DecidableRel pathLeP := fun a b =>
  inferInstanceAs (Decidable (pathLe a b = true))

/-- The sorted candidate list (Python's `sorted` is a stable total-order
sort; on the deduplicated candidate lists of this pipeline any such
sort agrees with insertion sort). -/
def sortPaths (l : List (List String)) : List (List String) :=
  List.insertionSort pathLeP l

/-- The per-file section strings the writer emits, in order: process
each candidate, skip the skipped, render the rest (threading the
is-first flag). -/
def StreamingWriter.filePieces (fmt : FormatterM) (cfg : Config)
    (root : List String) (chardetO : ChardetOracle) (codecO : CodecOracle)
    (pyTok : List Char → Option (List Char)) (fsc : List String → FileM) :
    List (List String) → Bool → List String
  | [], _ => []
  | p :: rest, isFirst =>
    let r := (FileProcessor.process_file cfg chardetO codecO pyTok p
      (p.getLastD "") (fsc p)).1
    if r.skipped then
      StreamingWriter.filePieces fmt cfg root chardetO codecO pyTok fsc rest isFirst
    else
      let pm : PathM := { absolute := true, parts := p, isFile := true, resolved := p }
      fmt.fileR isFirst (relToProjectRoot root pm) r ::
        StreamingWriter.filePieces fmt cfg root chardetO codecO pyTok fsc rest false

/-- All strings the writer sends to the stream: header, surviving file
sections, footer.  `files` is the writer's input; the writer first
sorts it and removes the resolved output path, and the header count is
the number of candidates after that removal. -/
def StreamingWriter.pieces (fmt : FormatterM) (cfg : Config)
    (root : List String) (ts : Timestamp) (chardetO : ChardetOracle)
    (codecO : CodecOracle) (pyTok : List Char → Option (List Char))
    (fsc : List String → FileM) (outResolved : List String)
    (files : List (List String)) : List String :=
  let kept := (sortPaths files).filter (fun p => p ≠ outResolved)
  fmt.header ("/" ++ joinParts root) ts kept.length ::
    (StreamingWriter.filePieces fmt cfg root chardetO codecO pyTok fsc kept true ++
      [fmt.footer])

/-- The complete artifact of a successful run. -/
def StreamingWriter.output (fmt : FormatterM) (cfg : Config)
    (root : List String) (ts : Timestamp) (chardetO : ChardetOracle)
    (codecO : CodecOracle) (pyTok : List Char → Option (List Char))
    (fsc : List String → FileM) (outResolved : List String)
    (files : List (List String)) : String :=
  concatStrs (StreamingWriter.pieces fmt cfg root ts chardetO codecO pyTok
    fsc outResolved files)

/-! ## Claim C3: atomic publish

The filesystem state relevant to the writer is the destination file's
content and the temporary file (its directory and partial content).
A run is the step sequence `create temp` / one append per stream write
/ `os.replace`; an injected failure index models an exception at that
step, upon which the `except` handler deletes the temporary file (when
it was created) and re-raises. -/

structure FsW where
  dest : Option String
  tmp : Option (List String × String)
  deriving Repr, DecidableEq

/-- `tempfile.NamedTemporaryFile(dir=output.parent)`: an empty temp file
appears in the destination's directory. -/
def createTmp (outDir : List String) (st : FsW) : FsW :=
  { st with tmp := some (outDir, "") }

/-- One stream write appends to the temp file. -/
def writeStep (piece : String) (st : FsW) : FsW :=
  { st with tmp := st.tmp.map (fun t => (t.1, t.2 ++ piece)) }

/-- `os.replace(tmp_path, output)`: atomically installs the temp file's
content as the destination and removes the temp file. -/
def replaceStep (st : FsW) : FsW :=
  match st.tmp with
  | some t => { dest := some t.2, tmp := none }
  | none => st

/-- `tmp_path.unlink()` of the `except` handler. -/
def unlinkTmp (st : FsW) : FsW :=
  { st with tmp := none }

/-- The step sequence of one non-dry run. -/
def StreamingWriter.runSteps (outDir : List String) (pieces : List String) :
    List (FsW → FsW) :=
  createTmp outDir :: (pieces.map writeStep ++ [replaceStep])

/-- Apply the first `k` steps. -/
def applyFirst : Nat → List (FsW → FsW) → FsW → FsW
  | _, [], st => st
  | 0, _, st => st
  | k + 1, f :: fs, st => applyFirst k fs (f st)

/-- `StreamingWriter.write` over the step model: a dry run performs no
filesystem action; otherwise either every step runs (success), or the
injected exception at step `k` interrupts the run, the handler unlinks
the temp file, and the failure propagates (`false`).  A failure index
of `0` models `NamedTemporaryFile` itself raising, before any file
exists. -/
def StreamingWriter.write (cfg : Config) (outDir : List String)
    (pieces : List String) (failAt : Option Nat) (init : FsW) : FsW × Bool :=
  if cfg.dry_run then (init, true)
  else
    match failAt with
    | none =>
      ((StreamingWriter.runSteps outDir pieces).foldl (fun st f => f st) init, true)
    | some k =>
      if k < (StreamingWriter.runSteps outDir pieces).length then
        (unlinkTmp (applyFirst k (StreamingWriter.runSteps outDir pieces) init), false)
      else
        ((StreamingWriter.runSteps outDir pieces).foldl (fun st f => f st) init, true)

/-- Write steps preserve the destination and keep the temp file in its
directory, appending to its content. -/
theorem applyFirst_writeSteps (ps : List String) :
    ∀ (k : Nat) (st : FsW) (dir : List String) (c : String),
      st.tmp = some (dir, c) →
      (applyFirst k (ps.map writeStep) st).dest = st.dest ∧
      ∃ c', (applyFirst k (ps.map writeStep) st).tmp = some (dir, c') := by
  induction ps with
  | nil =>
    intro k st dir c hc
    cases k <;> exact ⟨rfl, ⟨c, hc⟩⟩
  | cons p ps ih =>
    intro k st dir c hc
    cases k with
    | zero => exact ⟨rfl, ⟨c, hc⟩⟩
    | succ k =>
      have hstep : (writeStep p st).tmp = some (dir, c ++ p) := by
        simp [writeStep, hc]
      have h := ih k (writeStep p st) dir (c ++ p) hstep
      constructor
      · show (applyFirst k (ps.map writeStep) (writeStep p st)).dest = st.dest
        rw [h.1]
        simp [writeStep]
      · show ∃ c', (applyFirst k (ps.map writeStep) (writeStep p st)).tmp = some (dir, c')
        exact h.2

/-- Applying a prefix shorter than the first list never reaches the
second. -/
theorem applyFirst_append_left (xs ys : List (FsW → FsW)) :
    ∀ (k : Nat) (st : FsW), k ≤ xs.length →
      applyFirst k (xs ++ ys) st = applyFirst k xs st := by
  induction xs with
  | nil =>
    intro k st hk
    have hz : k = 0 := Nat.le_zero.mp hk
    subst hz
    cases ys <;> rfl
  | cons x xs ih =>
    intro k st hk
    cases k with
    | zero => rfl
    | succ k => exact ih k (x st) (Nat.le_of_succ_le_succ hk)

/-- Folding all write steps appends the concatenation of the pieces to
the temp file. -/
theorem foldl_writeSteps (ps : List String) :
    ∀ (st : FsW) (dir : List String) (c : String),
      st.tmp = some (dir, c) →
      (ps.map writeStep).foldl (fun s f => f s) st =
        { dest := st.dest, tmp := some (dir, c ++ concatStrs ps) } := by
  induction ps with
  | nil =>
    intro st dir c hc
    cases st with
    | mk d t =>
      simp only [List.map_nil, List.foldl_nil, concatStrs]
      simp at hc
      simp [hc]
  | cons p ps ih =>
    intro st dir c hc
    have hstep : (writeStep p st).tmp = some (dir, c ++ p) := by
      simp [writeStep, hc]
    simp only [List.map_cons, List.foldl_cons]
    rw [ih (writeStep p st) dir (c ++ p) hstep]
    simp [writeStep, concatStrs, String.append_assoc]

/-- Claim C3: for every non-dry run, either the run fails and the
destination is exactly its prior state with the temporary file deleted,
or the run succeeds and the destination holds the complete new artifact
with the temporary file consumed by the rename; before the final
`os.replace` step the destination is never touched, and the temporary
file lives in the destination's directory throughout. -/
theorem c3_streaming_writer_atomic (cfg : Config) (outDir : List String)
    (pieces : List String) (failAt : Option Nat) (init : FsW)
    (hdry : cfg.dry_run = false) (hinit : init.tmp = none) :
    ((StreamingWriter.write cfg outDir pieces failAt init).2 = false →
      (StreamingWriter.write cfg outDir pieces failAt init).1.dest = init.dest ∧
      (StreamingWriter.write cfg outDir pieces failAt init).1.tmp = none) ∧
    ((StreamingWriter.write cfg outDir pieces failAt init).2 = true →
      (StreamingWriter.write cfg outDir pieces failAt init).1.dest =
        some (concatStrs pieces) ∧
      (StreamingWriter.write cfg outDir pieces failAt init).1.tmp = none) ∧
    (∀ k, k ≤ pieces.length + 1 →
      (applyFirst k (StreamingWriter.runSteps outDir pieces) init).dest = init.dest ∧
      (∀ t, (applyFirst k (StreamingWriter.runSteps outDir pieces) init).tmp = some t →
        t.1 = outDir)) := by
  have hpre : ∀ k, k ≤ pieces.length + 1 →
      (applyFirst k (StreamingWriter.runSteps outDir pieces) init).dest = init.dest ∧
      (∀ t, (applyFirst k (StreamingWriter.runSteps outDir pieces) init).tmp = some t →
        t.1 = outDir) := by
    intro k hk
    cases k with
    | zero =>
      constructor
      · rfl
      · intro t ht
        rw [show applyFirst 0 (StreamingWriter.runSteps outDir pieces) init = init from rfl,
          hinit] at ht
        cases ht
    | succ k =>
      have hk' : k ≤ (pieces.map writeStep).length := by
        simpa using Nat.le_of_succ_le_succ hk
      have hunfold : applyFirst (k + 1) (StreamingWriter.runSteps outDir pieces) init =
          applyFirst k (pieces.map writeStep) (createTmp outDir init) := by
        show applyFirst k (pieces.map writeStep ++ [replaceStep]) (createTmp outDir init) = _
        exact applyFirst_append_left (pieces.map writeStep) [replaceStep] k
          (createTmp outDir init) hk'
      have hcreated : (createTmp outDir init).tmp = some (outDir, "") := rfl
      have h := applyFirst_writeSteps pieces k (createTmp outDir init) outDir "" hcreated
      rw [hunfold]
      refine ⟨h.1.trans rfl, ?_⟩
      intro t ht
      obtain ⟨c', hc'⟩ := h.2
      rw [hc'] at ht
      cases ht
      rfl
  have hrun : (StreamingWriter.runSteps outDir pieces).foldl (fun st f => f st) init =
      { dest := some (concatStrs pieces), tmp := none } := by
    show (createTmp outDir :: (pieces.map writeStep ++ [replaceStep])).foldl
        (fun st f => f st) init = _
    rw [List.foldl_cons, List.foldl_append]
    rw [foldl_writeSteps pieces (createTmp outDir init) outDir "" rfl]
    simp [replaceStep, String.empty_append]
  refine ⟨?_, ?_, hpre⟩
  · intro hfail
    unfold StreamingWriter.write at hfail ⊢
    rw [if_neg (by simp [hdry])] at hfail ⊢
    cases failAt with
    | none => simp at hfail
    | some k =>
      dsimp only at hfail ⊢
      by_cases hlt : k < (StreamingWriter.runSteps outDir pieces).length
      · rw [if_pos hlt]
        have hk : k ≤ pieces.length + 1 := by
          simp [StreamingWriter.runSteps] at hlt
          omega
        have h := hpre k hk
        exact ⟨h.1, rfl⟩
      · rw [if_neg hlt] at hfail
        simp at hfail
  · intro hok
    unfold StreamingWriter.write
    rw [if_neg (by simp [hdry])]
    cases failAt with
    | none =>
      dsimp only
      rw [hrun]
      exact ⟨rfl, rfl⟩
    | some k =>
      dsimp only
      by_cases hlt : k < (StreamingWriter.runSteps outDir pieces).length
      · exfalso
        unfold StreamingWriter.write at hok
        rw [if_neg (by simp [hdry])] at hok
        dsimp only at hok
        rw [if_pos hlt] at hok
        simp at hok
      · rw [if_neg hlt, hrun]
        exact ⟨rfl, rfl⟩

/-- Witness for `c3_streaming_writer_atomic`: a failure after writing
half the pieces leaves a prior destination untouched and no temp file;
the completed run installs the concatenation. -/
theorem c3_streaming_writer_atomic_witness :
    (StreamingWriter.write { dry_run := false } ["R", ".context", "generated"]
        ["H", "F1", "F2"] (some 2) { dest := some "old", tmp := none }).1.dest =
      some "old" ∧
    (StreamingWriter.write { dry_run := false } ["R", ".context", "generated"]
        ["H", "F1", "F2"] (some 2) { dest := some "old", tmp := none }).1.tmp = none ∧
    (StreamingWriter.write { dry_run := false } ["R", ".context", "generated"]
        ["H", "F1", "F2"] none { dest := some "old", tmp := none }).1.dest =
      some "HF1F2" := by
  have h := c3_streaming_writer_atomic { dry_run := false } ["R", ".context", "generated"]
    ["H", "F1", "F2"] (some 2) { dest := some "old", tmp := none } rfl rfl
  have h2 := c3_streaming_writer_atomic { dry_run := false } ["R", ".context", "generated"]
    ["H", "F1", "F2"] none { dest := some "old", tmp := none } rfl rfl
  have hf := h.1 (by decide)
  have hs := h2.2.1 (by decide)
  exact ⟨hf.1, hf.2, by rw [hs.1]; rfl⟩

/-! ## Claim C5: determinism of the output

The writer sorts the candidates, so the artifact is a pure function of
the configuration, the tree (as the content oracle) and the timestamp,
independent of the order in which the filesystem enumerated the
candidates.  The timestamp, however, is embedded in every header, so
two runs are byte-identical only when their clock readings render
identically. -/

theorem strLtChars_irrefl : ∀ as, strLtChars as as = false := by
  intro as
  induction as with
  | nil => rfl
  | cons a as ih => simp [strLtChars, ih]

theorem char_toNat_injective {a b : Char} (h : a.toNat = b.toNat) : a = b :=
  Char.ext (UInt32.ext h)

theorem strLtChars_connex : ∀ as bs, as ≠ bs →
    strLtChars as bs = true ∨ strLtChars bs as = true := by
  intro as
  induction as with
  | nil =>
    intro bs hne
    cases bs with
    | nil => exact absurd rfl hne
    | cons b bs => exact Or.inl rfl
  | cons a as ih =>
    intro bs hne
    cases bs with
    | nil => exact Or.inr rfl
    | cons b bs =>
      by_cases hab : a = b
      · subst hab
        have hne' : as ≠ bs := fun h => hne (by rw [h])
        rcases ih bs hne' with h | h
        · exact Or.inl (by simp [strLtChars, h])
        · exact Or.inr (by simp [strLtChars, h])
      · rcases Nat.lt_or_ge a.toNat b.toNat with h | h
        · exact Or.inl (by simp [strLtChars, hab, h])
        · have hlt : b.toNat < a.toNat := by
            rcases Nat.lt_or_eq_of_le h with h' | h'
            · exact h'
            · exact absurd (char_toNat_injective h'.symm) hab
          exact Or.inr (by simp [strLtChars, Ne.symm hab, hlt])

theorem strLtChars_trans : ∀ as bs cs, strLtChars as bs = true →
    strLtChars bs cs = true → strLtChars as cs = true := by
  intro as
  induction as with
  | nil =>
    intro bs cs h1 h2
    cases bs with
    | nil => cases h1
    | cons b bs =>
      cases cs with
      | nil => cases h2
      | cons c cs => rfl
  | cons a as ih =>
    intro bs cs h1 h2
    cases bs with
    | nil => cases h1
    | cons b bs =>
      cases cs with
      | nil => cases h2
      | cons c cs =>
        by_cases hab : a = b <;> by_cases hbc : b = c
        · subst hab
          subst hbc
          simp only [strLtChars, if_pos rfl] at h1 h2 ⊢
          exact ih bs cs h1 h2
        · subst hab
          simp only [strLtChars, if_pos rfl] at h1
          simpa [strLtChars, hbc] using h2
        · subst hbc
          simp only [strLtChars, if_pos rfl] at h2
          simpa [strLtChars, hab] using h1
        · simp only [strLtChars, if_neg hab] at h1
          simp only [strLtChars, if_neg hbc] at h2
          have h1' : a.toNat < b.toNat := by simpa using h1
          have h2' : b.toNat < c.toNat := by simpa using h2
          have hac : a.toNat < c.toNat := h1'.trans h2'
          have hne : a ≠ c := fun he => absurd (he ▸ hac) (lt_irrefl _)
          simp [strLtChars, hne, hac]

theorem strLtChars_asymm {as bs : List Char} (h1 : strLtChars as bs = true)
    (h2 : strLtChars bs as = true) : False := by
  have := strLtChars_trans as bs as h1 h2
  rw [strLtChars_irrefl] at this
  cases this

theorem str_ne_data {a b : String} (h : a ≠ b) : a.data ≠ b.data := by
  intro hd
  cases a
  cases b
  cases hd
  exact h rfl

theorem pathLe_total : ∀ a b : List String, pathLeP a b ∨ pathLeP b a := by
  intro a
  induction a with
  | nil =>
    intro b
    exact Or.inl rfl
  | cons x xs ih =>
    intro b
    cases b with
    | nil => exact Or.inr rfl
    | cons y ys =>
      by_cases hxy : x = y
      · subst hxy
        rcases ih ys with h | h
        · exact Or.inl (by simpa [pathLeP, pathLe] using h)
        · exact Or.inr (by simpa [pathLeP, pathLe] using h)
      · rcases strLtChars_connex x.data y.data (str_ne_data hxy) with h | h
        · exact Or.inl (by simp [pathLeP, pathLe, hxy, strLt, h])
        · exact Or.inr (by simp [pathLeP, pathLe, Ne.symm hxy, strLt, h])

theorem pathLe_trans : ∀ a b c : List String, pathLeP a b → pathLeP b c → pathLeP a c := by
  intro a
  induction a with
  | nil => intro b c _ _; rfl
  | cons x xs ih =>
    intro b c h1 h2
    cases b with
    | nil => cases h1
    | cons y ys =>
      cases c with
      | nil => cases h2
      | cons z zs =>
        by_cases hxy : x = y <;> by_cases hyz : y = z
        · subst hxy; subst hyz
          simp only [pathLeP, pathLe, if_pos rfl] at h1 h2 ⊢
          exact ih ys zs h1 h2
        · subst hxy
          simp only [pathLeP, pathLe, if_pos rfl] at h1
          simpa [pathLeP, pathLe, hyz] using h2
        · subst hyz
          simp only [pathLeP, pathLe, if_pos rfl] at h2
          simpa [pathLeP, pathLe, hxy] using h1
        · simp only [pathLeP, pathLe, if_neg hxy, strLt] at h1
          simp only [pathLeP, pathLe, if_neg hyz, strLt] at h2
          have hxz : strLtChars x.data z.data = true := strLtChars_trans _ _ _ h1 h2
          have hne : x ≠ z := by
            intro he
            subst he
            exact strLtChars_asymm h1 h2
          simp [pathLeP, pathLe, hne, strLt, hxz]

theorem pathLe_antisymm : ∀ a b : List String, pathLeP a b → pathLeP b a → a = b := by
  intro a
  induction a with
  | nil =>
    intro b _ h2
    cases b with
    | nil => rfl
    | cons y ys => cases h2
  | cons x xs ih =>
    intro b h1 h2
    cases b with
    | nil => cases h1
    | cons y ys =>
      by_cases hxy : x = y
      · subst hxy
        simp only [pathLeP, pathLe, if_pos rfl] at h1 h2
        rw [ih ys h1 h2]
      · simp only [pathLeP, pathLe, if_neg hxy, strLt] at h1
        simp only [pathLeP, pathLe, if_neg (Ne.symm hxy), strLt] at h2
        exact absurd (strLtChars_asymm h1 h2) not_false

instance : IsTotal (List String) pathLeP := ⟨pathLe_total⟩

instance : IsTrans (List String) pathLeP := ⟨pathLe_trans⟩

instance : IsAntisymm (List String) pathLeP := ⟨pathLe_antisymm⟩

/-- Sorting is canonical: two enumerations of the same candidate set
sort to the same list. -/
theorem sortPaths_eq_of_perm {l1 l2 : List (List String)} (h : l1.Perm l2) :
    sortPaths l1 = sortPaths l2 :=
  List.eq_of_perm_of_sorted
    ((List.perm_insertionSort pathLeP l1).trans
      (h.trans (List.perm_insertionSort pathLeP l2).symm))
    (List.sorted_insertionSort pathLeP l1)
    (List.sorted_insertionSort pathLeP l2)

/-- Claim C5 (amended): with the wall-clock reading fixed, the artifact
is byte-identical across runs — it is a pure function of the
configuration, tree and timestamp, and enumerating the candidates in
any other order (no dependence on filesystem iteration order) changes
nothing, because the writer sorts them into the deterministic
component-wise lexicographic path order first.  The timestamp is the
one run-varying datum (see the counterexample). -/
theorem c5_output_deterministic (fmt : FormatterM) (cfg : Config)
    (root : List String) (ts : Timestamp) (chardetO : ChardetOracle)
    (codecO : CodecOracle) (pyTok : List Char → Option (List Char))
    (fsc : List String → FileM) (outResolved : List String)
    (l1 l2 : List (List String)) (h : l1.Perm l2) :
    StreamingWriter.output fmt cfg root ts chardetO codecO pyTok fsc outResolved l1 =
      StreamingWriter.output fmt cfg root ts chardetO codecO pyTok fsc outResolved l2 := by
  unfold StreamingWriter.output StreamingWriter.pieces
  rw [sortPaths_eq_of_perm h]

/-- Witness for `c5_output_deterministic`: two opposite enumeration
orders of the same two files produce identical bytes. -/
theorem c5_output_deterministic_witness :
    StreamingWriter.output textFormatter { max_file_size_mb := 0 } ["R"]
        ⟨2024, 1, 1, 12, 0, 0⟩ none (fun _ _ => .error "unknown") (fun _ => none)
        (fun _ => { size := 2, bytes := [104, 105] })
        ["R", ".context", "generated", "context.txt"]
        [["R", "a.txt"], ["R", "b.txt"]] =
      StreamingWriter.output textFormatter { max_file_size_mb := 0 } ["R"]
        ⟨2024, 1, 1, 12, 0, 0⟩ none (fun _ _ => .error "unknown") (fun _ => none)
        (fun _ => { size := 2, bytes := [104, 105] })
        ["R", ".context", "generated", "context.txt"]
        [["R", "b.txt"], ["R", "a.txt"]] :=
  c5_output_deterministic textFormatter { max_file_size_mb := 0 } ["R"]
    ⟨2024, 1, 1, 12, 0, 0⟩ none (fun _ _ => .error "unknown") (fun _ => none)
    (fun _ => { size := 2, bytes := [104, 105] })
    ["R", ".context", "generated", "context.txt"]
    [["R", "a.txt"], ["R", "b.txt"]] [["R", "b.txt"], ["R", "a.txt"]]
    (List.Perm.swap ["R", "b.txt"] ["R", "a.txt"] [])

/-- Claim C5 (counterexample): the claim as stated — two complete runs
against an unchanged tree produce byte-identical artifacts — fails
because the header embeds `time.strftime`: the same tree and
configuration at two clock readings one second apart produce different
bytes, so run-varying data does enter the output. -/
theorem c5_output_varies_with_timestamp :
    StreamingWriter.output textFormatter { max_file_size_mb := 0 } ["R"]
        ⟨2024, 1, 1, 12, 0, 0⟩ none (fun _ _ => .error "unknown") (fun _ => none)
        (fun _ => { size := 2, bytes := [104, 105] })
        ["R", ".context", "generated", "context.txt"] [["R", "a.txt"]] ≠
      StreamingWriter.output textFormatter { max_file_size_mb := 0 } ["R"]
        ⟨2024, 1, 1, 12, 0, 1⟩ none (fun _ _ => .error "unknown") (fun _ => none)
        (fun _ => { size := 2, bytes := [104, 105] })
        ["R", ".context", "generated", "context.txt"] [["R", "a.txt"]] := by
  decide

/-! ## Claim C7: idempotence analysis of the minifier

The stylesheet and generic strategies are not idempotent (block-comment
removal can expose a new comment opener, or create blank lines that
only the next pass drops); the C-family/JavaScript strategy is.  The
proof of the latter tracks two invariants through the pipeline: after
line-comment removal the text contains no `//`, and after block-comment
removal no `/*` is ever followed by a `*/`.  `hasAdj a b s` scans for
an adjacent pair `ab`; `hasComment s` checks whether the leftmost `/*`
has a `*/` after it, which is exactly when `re.sub(r"/\*.*?\*/")`
finds a match. -/

def hasAdj (a b : Char) : List Char → Bool
  | x :: y :: rest => (x = a ∧ y = b) || hasAdj a b (y :: rest)
  | _ => false

def hasComment : List Char → Bool
  | [] => false
  | c :: rest =>
    if c = '/' ∧ rest.head? = some '*' then hasAdj '*' '/' rest.tail
    else hasComment rest

theorem hasAdj_cons_iff (a b c : Char) (t : List Char) :
    hasAdj a b (c :: t) = true ↔ ((c = a ∧ t.head? = some b) ∨ hasAdj a b t = true) := by
  cases t with
  | nil => simp [hasAdj]
  | cons d t' => simp [hasAdj]

theorem hasAdj_cons_false (a b c : Char) (t : List Char) :
    hasAdj a b (c :: t) = false ↔ (¬(c = a ∧ t.head? = some b) ∧ hasAdj a b t = false) := by
  constructor
  · intro h
    constructor
    · intro hp
      rw [(hasAdj_cons_iff a b c t).mpr (Or.inl hp)] at h
      cases h
    · cases ht : hasAdj a b t with
      | false => rfl
      | true =>
        rw [(hasAdj_cons_iff a b c t).mpr (Or.inr ht)] at h
        cases h
  · intro ⟨h1, h2⟩
    cases hc : hasAdj a b (c :: t) with
    | false => rfl
    | true =>
      rcases (hasAdj_cons_iff a b c t).mp hc with hp | ht
      · exact absurd hp h1
      · rw [ht] at h2
        cases h2

theorem hasAdj_tail {a b c : Char} {t : List Char}
    (h : hasAdj a b (c :: t) = false) : hasAdj a b t = false :=
  ((hasAdj_cons_false a b c t).mp h).2

theorem hasAdj_append_right {a b : Char} (x : List Char) {y : List Char}
    (h : hasAdj a b y = true) : hasAdj a b (x ++ y) = true := by
  induction x with
  | nil => simpa using h
  | cons c x' ih =>
    rw [List.cons_append]
    exact (hasAdj_cons_iff ..).mpr (Or.inr ih)

theorem hasAdj_append_left {a b : Char} {x : List Char} (y : List Char)
    (h : hasAdj a b x = true) : hasAdj a b (x ++ y) = true := by
  induction x with
  | nil => cases h
  | cons c x' ih =>
    rw [List.cons_append]
    rcases (hasAdj_cons_iff a b c x').mp h with ⟨hc, hh⟩ | ht
    · refine (hasAdj_cons_iff ..).mpr (Or.inl ⟨hc, ?_⟩)
      cases x' with
      | nil => cases hh
      | cons d x'' => simpa using hh
    · exact (hasAdj_cons_iff ..).mpr (Or.inr (ih ht))

/-- Adjacency across an inserted separator that can be part of no pair:
exactly the pairs of the two sides. -/
theorem hasAdj_append_sep {a b sep : Char} (hsa : sep ≠ a) (hsb : sep ≠ b) :
    ∀ (x y : List Char),
      hasAdj a b (x ++ sep :: y) = true ↔
        (hasAdj a b x = true ∨ hasAdj a b y = true) := by
  intro x
  induction x with
  | nil =>
    intro y
    rw [List.nil_append, hasAdj_cons_iff]
    simp [hasAdj, hsa]
  | cons c x' ih =>
    intro y
    rw [List.cons_append, hasAdj_cons_iff, hasAdj_cons_iff, ih y]
    constructor
    · rintro (⟨hc, hh⟩ | (hx | hy))
      · cases x' with
        | nil =>
          simp only [List.nil_append, List.head?] at hh
          exact absurd (Option.some_inj.mp hh) hsb
        | cons d x'' =>
          simp only [List.cons_append, List.head?] at hh
          exact Or.inl (Or.inl ⟨hc, by simpa using hh⟩)
      · exact Or.inl (Or.inr hx)
      · exact Or.inr hy
    · rintro ((⟨hc, hh⟩ | hx) | hy)
      · cases x' with
        | nil => cases hh
        | cons d x'' =>
          simp only [List.head?] at hh
          exact Or.inl ⟨hc, by simpa using hh⟩
      · exact Or.inr (Or.inl hx)
      · exact Or.inr (Or.inr hy)

theorem hasComment_imp_close : ∀ {t : List Char},
    hasComment t = true → hasAdj '*' '/' t = true := by
  intro t
  induction t with
  | nil => intro h; cases h
  | cons c rest ih =>
    intro h
    unfold hasComment at h
    by_cases hg : c = '/' ∧ rest.head? = some '*'
    · rw [if_pos hg] at h
      cases rest with
      | nil => simp at hg
      | cons d rest' =>
        simp only [List.tail] at h
        exact (hasAdj_cons_iff ..).mpr (Or.inr ((hasAdj_cons_iff ..).mpr (Or.inr h)))
    · rw [if_neg hg] at h
      exact (hasAdj_cons_iff ..).mpr (Or.inr (ih h))

theorem hasComment_tail {c : Char} {t : List Char}
    (h : hasComment (c :: t) = false) : hasComment t = false := by
  unfold hasComment at h
  by_cases hg : c = '/' ∧ t.head? = some '*'
  · rw [if_pos hg] at h
    cases t with
    | nil => rfl
    | cons d t' =>
      simp only [List.tail] at h
      have hd : d = '*' := by
        have hh := hg.2
        simp only [List.head?] at hh
        exact Option.some_inj.mp hh
      subst hd
      show hasComment ('*' :: t') = false
      unfold hasComment
      rw [if_neg (by simp)]
      cases hct : hasComment t' with
      | false => rfl
      | true => exact absurd (hasComment_imp_close hct) (by simp [h])
  · rwa [if_neg hg] at h

theorem cutLine_head {l : List Char} {x : Char}
    (h : (cutLine l).head? = some x) : l.head? = some x := by
  cases l with
  | nil => cases h
  | cons c rest =>
    unfold cutLine at h
    by_cases hg : c = '/' ∧ rest.head? = some '/'
    · rw [if_pos hg] at h
      cases h
    · rw [if_neg hg] at h
      simpa using h

theorem cutLine_noSS : ∀ l : List Char, hasAdj '/' '/' (cutLine l) = false := by
  intro l
  induction l with
  | nil => rfl
  | cons c rest ih =>
    unfold cutLine
    by_cases hg : c = '/' ∧ rest.head? = some '/'
    · rw [if_pos hg]
      rfl
    · rw [if_neg hg]
      refine (hasAdj_cons_false ..).mpr ⟨?_, ih⟩
      intro ⟨hc, hh⟩
      exact hg ⟨hc, cutLine_head hh⟩

theorem cutLine_id : ∀ {l : List Char}, hasAdj '/' '/' l = false → cutLine l = l := by
  intro l
  induction l with
  | nil => intro _; rfl
  | cons c rest ih =>
    intro h
    have hp := (hasAdj_cons_false ..).mp h
    unfold cutLine
    rw [if_neg hp.1, ih hp.2]

theorem joinNl_noSS : ∀ (ls : List (List Char)),
    (∀ l ∈ ls, hasAdj '/' '/' l = false) → hasAdj '/' '/' (joinNl ls) = false := by
  intro ls
  induction ls with
  | nil => intro _; rfl
  | cons l ls ih =>
    intro h
    cases ls with
    | nil => exact h l (by simp)
    | cons m ms =>
      show hasAdj '/' '/' (l ++ '\n' :: joinNl (m :: ms)) = false
      cases hj : hasAdj '/' '/' (l ++ '\n' :: joinNl (m :: ms)) with
      | false => rfl
      | true =>
        rcases (hasAdj_append_sep (by decide) (by decide) l (joinNl (m :: ms))).mp hj
          with hx | hy
        · rw [h l (by simp)] at hx
          cases hx
        · rw [ih (fun l' hl' => h l' (by simp [hl']))] at hy
          cases hy

theorem lineSub_noSS (s : List Char) : hasAdj '/' '/' (lineSub s) = false := by
  unfold lineSub
  refine joinNl_noSS _ ?_
  intro l hl
  rcases List.mem_map.mp hl with ⟨l', _, rfl⟩
  exact cutLine_noSS l'

theorem findClose_none {t : List Char} (h : findClose t = none) :
    hasAdj '*' '/' t = false := by
  induction t with
  | nil => rfl
  | cons c rest ih =>
    unfold findClose at h
    by_cases hg : c = '*' ∧ rest.head? = some '/'
    · rw [if_pos hg] at h
      cases h
    · rw [if_neg hg] at h
      exact (hasAdj_cons_false ..).mpr ⟨hg, ih h⟩

theorem findClose_spec : ∀ {t d : List Char}, findClose t = some d →
    ∃ c, t = c ++ '*' :: '/' :: d ∧ d.length + 2 ≤ t.length := by
  intro t
  induction t with
  | nil => intro d h; cases h
  | cons c rest ih =>
    intro d h
    unfold findClose at h
    by_cases hg : c = '*' ∧ rest.head? = some '/'
    · rw [if_pos hg] at h
      cases rest with
      | nil => cases hg.2
      | cons e rest' =>
        have he : e = '/' := by
          have hh := hg.2
          simp only [List.head?] at hh
          exact Option.some_inj.mp hh
        subst he
        simp only [List.tail] at h
        cases Option.some_inj.mp h
        exact ⟨[], by simp [hg.1]⟩
    · rw [if_neg hg] at h
      rcases ih h with ⟨pre, hpre, hlen⟩
      exact ⟨c :: pre, by simp [hpre], by simp; omega⟩

/-- Head of block-comment removal: either the input's head survives or
the input opens with `/*`. -/
theorem blockSubF_head : ∀ (f : Nat) (c : Char) (rest : List Char),
    (blockSubF f (c :: rest)).head? = some c ∨ (c = '/' ∧ rest.head? = some '*') := by
  intro f c rest
  cases f with
  | zero => exact Or.inl rfl
  | succ f =>
    by_cases hg : c = '/' ∧ rest.head? = some '*'
    · exact Or.inr hg
    · left
      show (blockSubF (f + 1) (c :: rest)).head? = some c
      unfold blockSubF
      rw [if_neg hg]
      rfl

/-- Block-comment removal of `//`-free text yields `//`-free text with
no remaining comment match. -/
theorem blockSubF_good : ∀ (f : Nat) (s : List Char), s.length ≤ f →
    hasAdj '/' '/' s = false →
    hasAdj '/' '/' (blockSubF f s) = false ∧ hasComment (blockSubF f s) = false := by
  intro f
  induction f with
  | zero =>
    intro s hlen hss
    have : s = [] := List.length_eq_zero.mp (Nat.le_zero.mp hlen)
    subst this
    exact ⟨rfl, rfl⟩
  | succ f ih =>
    intro s hlen hss
    cases s with
    | nil => exact ⟨rfl, rfl⟩
    | cons c rest =>
      by_cases hg : c = '/' ∧ rest.head? = some '*'
      · show (hasAdj '/' '/' (blockSubF (f+1) (c :: rest)) = false ∧ _)
        unfold blockSubF
        rw [if_pos hg]
        cases hfc : findClose rest.tail with
        | none =>
          constructor
          · exact hss
          · show hasComment (c :: rest) = false
            unfold hasComment
            rw [if_pos hg]
            exact findClose_none hfc
        | some d =>
          rcases findClose_spec hfc with ⟨pre, hpre, hdlen⟩
          have hdss : hasAdj '/' '/' d = false := by
            cases hd : hasAdj '/' '/' d with
            | false => rfl
            | true =>
              have h1 : hasAdj '/' '/' rest.tail = true := by
                rw [hpre]
                exact hasAdj_append_right pre
                  ((hasAdj_cons_iff ..).mpr (Or.inr ((hasAdj_cons_iff ..).mpr (Or.inr hd))))
              have h2 : hasAdj '/' '/' (c :: rest) = true := by
                cases rest with
                | nil => cases h1
                | cons e rest' =>
                  exact (hasAdj_cons_iff ..).mpr
                    (Or.inr ((hasAdj_cons_iff ..).mpr (Or.inr h1)))
              rw [hss] at h2
              cases h2
          have hdl : d.length ≤ f := by
            have h1 : rest.tail.length ≤ rest.length := by
              cases rest <;> simp [List.tail]
            have h2 : rest.length + 1 ≤ f + 1 := by simpa using hlen
            omega
          exact ih d hdl hdss
      · show (hasAdj '/' '/' (blockSubF (f+1) (c :: rest)) = false ∧ _)
        unfold blockSubF
        rw [if_neg hg]
        have hrest : hasAdj '/' '/' rest = false := hasAdj_tail hss
        have hrl : rest.length ≤ f := by simpa using hlen
        have h := ih rest hrl hrest
        have hpair : ¬(c = '/' ∧ (blockSubF f rest).head? = some '/') := by
          intro ⟨hc, hh⟩
          cases rest with
          | nil =>
            cases f <;> cases hh
          | cons e rest' =>
            rcases blockSubF_head f e rest' with hh' | ⟨he, _⟩
            · rw [hh'] at hh
              have he : e = '/' := Option.some_inj.mp hh
              have hbad : hasAdj '/' '/' (c :: e :: rest') = true :=
                (hasAdj_cons_iff '/' '/' c (e :: rest')).mpr
                  (Or.inl ⟨hc, by simp [he]⟩)
              rw [hss] at hbad
              cases hbad
            · have hbad : hasAdj '/' '/' (c :: e :: rest') = true :=
                (hasAdj_cons_iff '/' '/' c (e :: rest')).mpr
                  (Or.inl ⟨hc, by simp [he]⟩)
              rw [hss] at hbad
              cases hbad
        constructor
        · exact (hasAdj_cons_false ..).mpr ⟨hpair, h.1⟩
        · show hasComment (c :: blockSubF f rest) = false
          have hnopen : ¬(c = '/' ∧ (blockSubF f rest).head? = some '*') := by
            intro ⟨hc, hh⟩
            cases rest with
            | nil => cases f <;> cases hh
            | cons e rest' =>
              rcases blockSubF_head f e rest' with hh' | ⟨he, hr⟩
              · rw [hh'] at hh
                have hx : e = '*' := Option.some_inj.mp hh
                exact hg ⟨hc, by simp [hx]⟩
              · subst he
                have hbad : hasAdj '/' '/' (c :: '/' :: rest') = true :=
                  (hasAdj_cons_iff '/' '/' c ('/' :: rest')).mpr
                    (Or.inl ⟨hc, rfl⟩)
                rw [hss] at hbad
                cases hbad
          unfold hasComment
          rw [if_neg hnopen]
          exact h.2

/-- Text with no comment match is a fixed point of block-comment
removal. -/
theorem blockSubF_id : ∀ (f : Nat) (s : List Char), s.length ≤ f →
    hasComment s = false → blockSubF f s = s := by
  intro f
  induction f with
  | zero =>
    intro s _ _
    rfl
  | succ f ih =>
    intro s hlen hc
    cases s with
    | nil => rfl
    | cons c rest =>
      unfold blockSubF
      by_cases hg : c = '/' ∧ rest.head? = some '*'
      · rw [if_pos hg]
        unfold hasComment at hc
        rw [if_pos hg] at hc
        cases hfc : findClose rest.tail with
        | none => rfl
        | some d =>
          exfalso
          rcases findClose_spec hfc with ⟨pre, hpre, _⟩
          have : hasAdj '*' '/' rest.tail = true := by
            rw [hpre]
            exact hasAdj_append_right pre ((hasAdj_cons_iff ..).mpr (Or.inl ⟨rfl, rfl⟩))
          rw [hc] at this
          cases this
      · rw [if_neg hg]
        unfold hasComment at hc
        rw [if_neg hg] at hc
        rw [ih rest (by simpa using hlen) hc]


/-- Text with no comment match is a fixed point of block-comment
removal (limit-fuel form). -/
theorem blockSub_id {s : List Char} (h : hasComment s = false) : blockSub s = s :=
  blockSubF_id s.length s le_rfl h

theorem splitOnNl_ne_nil : ∀ s : List Char, splitOnNl s ≠ [] := by
  intro s
  cases s with
  | nil => simp [splitOnNl]
  | cons c rest =>
    simp only [splitOnNl]
    by_cases hc : c = '\n'
    · rw [if_pos hc]; simp
    · rw [if_neg hc]
      cases splitOnNl rest <;> simp

theorem joinNl_cons_cons (c : Char) (x : List Char) (xs : List (List Char)) :
    joinNl ((c :: x) :: xs) = c :: joinNl (x :: xs) := by
  cases xs with
  | nil => rfl
  | cons y ys => rfl

theorem joinNl_splitOnNl : ∀ s : List Char, joinNl (splitOnNl s) = s := by
  intro s
  induction s with
  | nil => rfl
  | cons c rest ih =>
    simp only [splitOnNl]
    by_cases hc : c = '\n'
    · rw [if_pos hc]
      cases hsp : splitOnNl rest with
      | nil => exact absurd hsp (splitOnNl_ne_nil rest)
      | cons l ls =>
        show '\n' :: joinNl (l :: ls) = c :: rest
        rw [← hsp, ih, hc]
    · rw [if_neg hc]
      cases hsp : splitOnNl rest with
      | nil => exact absurd hsp (splitOnNl_ne_nil rest)
      | cons l ls =>
        show joinNl ((c :: l) :: ls) = c :: rest
        rw [joinNl_cons_cons, ← hsp, ih]

/-- The head of the first `\n`-line is the head of the text. -/
theorem splitOnNl_head {r l : List Char} {ls : List (List Char)} {x : Char}
    (hsp : splitOnNl r = l :: ls) (hx : l.head? = some x) : r.head? = some x := by
  cases r with
  | nil =>
    simp only [splitOnNl] at hsp
    injection hsp with h1 h2
    subst h1
    simp at hx
  | cons c rest =>
    simp only [splitOnNl] at hsp
    by_cases hc : c = '\n'
    · rw [if_pos hc] at hsp
      injection hsp with h1 h2
      subst h1
      simp at hx
    · rw [if_neg hc] at hsp
      cases hsp2 : splitOnNl rest with
      | nil => exact absurd hsp2 (splitOnNl_ne_nil rest)
      | cons l0 ls0 =>
        rw [hsp2] at hsp
        injection hsp with h1 h2
        subst h1
        simp only [List.head?] at hx
        simpa using hx

/-- `//`-free text is a fixed point of line-comment removal. -/
theorem lineSub_id : ∀ {s : List Char}, hasAdj '/' '/' s = false → lineSub s = s := by
  intro s
  induction s with
  | nil => intro _; rfl
  | cons c rest ih =>
    intro h
    have hp := (hasAdj_cons_false ..).mp h
    unfold lineSub
    simp only [splitOnNl]
    by_cases hc : c = '\n'
    · rw [if_pos hc]
      cases hsp : splitOnNl rest with
      | nil => exact absurd hsp (splitOnNl_ne_nil rest)
      | cons l ls =>
        show '\n' :: joinNl (cutLine l :: ls.map cutLine) = c :: rest
        have hrest : joinNl (List.map cutLine (l :: ls)) = rest := by
          have h2 := ih hp.2
          unfold lineSub at h2
          rwa [hsp] at h2
        rw [List.map_cons] at hrest
        rw [hrest, hc]
    · rw [if_neg hc]
      cases hsp : splitOnNl rest with
      | nil => exact absurd hsp (splitOnNl_ne_nil rest)
      | cons l ls =>
        show joinNl (List.map cutLine ((c :: l) :: ls)) = c :: rest
        simp only [List.map_cons]
        have hng : ¬(c = '/' ∧ l.head? = some '/') := by
          intro ⟨hc', hh⟩
          exact hp.1 ⟨hc', splitOnNl_head hsp hh⟩
        have hcut : cutLine (c :: l) = c :: cutLine l := by
          show (if c = '/' ∧ l.head? = some '/' then [] else c :: cutLine l) = c :: cutLine l
          rw [if_neg hng]
        rw [hcut, joinNl_cons_cons]
        have hrest : joinNl (List.map cutLine (l :: ls)) = rest := by
          have h2 := ih hp.2
          unfold lineSub at h2
          rwa [hsp] at h2
        rw [List.map_cons] at hrest
        rw [hrest]


theorem pySplitlines_ne_nil : ∀ {t : List Char}, t ≠ [] → pySplitlines t ≠ [] := by
  intro t ht
  cases t with
  | nil => exact absurd rfl ht
  | cons c t1 =>
    cases t1 with
    | nil =>
      simp only [pySplitlines]
      by_cases hb : pyIsLineBreak c = true
      · rw [if_pos hb]; simp
      · rw [if_neg hb]; simp
    | cons d rest =>
      simp only [pySplitlines]
      by_cases h1 : c = '\r' ∧ d = '\n'
      · rw [if_pos h1]; simp
      · rw [if_neg h1]
        by_cases h2 : pyIsLineBreak c = true
        · rw [if_pos h2]; simp
        · rw [if_neg h2]
          cases pySplitlines (d :: rest) <;> simp

/-- The head of the first line is the head of the text. -/
theorem pySplitlines_head : ∀ {t l : List Char} {ls : List (List Char)} {x : Char},
    pySplitlines t = l :: ls → l.head? = some x → t.head? = some x := by
  intro t l ls x hsp hx
  cases t with
  | nil => simp [pySplitlines] at hsp
  | cons c t1 =>
    cases t1 with
    | nil =>
      simp only [pySplitlines] at hsp
      by_cases hb : pyIsLineBreak c = true
      · rw [if_pos hb] at hsp
        injection hsp with h1 h2
        subst h1
        simp at hx
      · rw [if_neg hb] at hsp
        injection hsp with h1 h2
        subst h1
        simpa using hx
    | cons d rest =>
      simp only [pySplitlines] at hsp
      by_cases h1 : c = '\r' ∧ d = '\n'
      · rw [if_pos h1] at hsp
        injection hsp with h1 h2
        subst h1
        simp at hx
      · rw [if_neg h1] at hsp
        by_cases h2 : pyIsLineBreak c = true
        · rw [if_pos h2] at hsp
          injection hsp with h1 h2
          subst h1
          simp at hx
        · rw [if_neg h2] at hsp
          cases hm : pySplitlines (d :: rest) with
          | nil =>
            rw [hm] at hsp
            injection hsp with h1 h2
            subst h1
            simpa using hx
          | cons l0 ls0 =>
            rw [hm] at hsp
            injection hsp with h1 h2
            subst h1
            simpa using hx

/-- An adjacent pair inside any line of `splitlines` is an adjacent pair
of the text. -/
theorem lines_hasAdj (a b : Char) : ∀ (n : Nat) (t : List Char), t.length ≤ n →
    ∀ l ∈ pySplitlines t, hasAdj a b l = true → hasAdj a b t = true := by
  intro n
  induction n with
  | zero =>
    intro t ht l hl _
    have : t = [] := List.length_eq_zero.mp (Nat.le_zero.mp ht)
    subst this
    simp [pySplitlines] at hl
  | succ n ih =>
    intro t ht l hl hadj
    cases t with
    | nil => simp [pySplitlines] at hl
    | cons c t1 =>
      cases t1 with
      | nil =>
        exfalso
        simp only [pySplitlines] at hl
        by_cases hb : pyIsLineBreak c = true
        · rw [if_pos hb] at hl
          simp at hl
          subst hl
          simp [hasAdj] at hadj
        · rw [if_neg hb] at hl
          simp at hl
          subst hl
          simp [hasAdj] at hadj
      | cons d rest =>
        have hlen : rest.length + 2 ≤ n + 1 := by simpa using ht
        simp only [pySplitlines] at hl
        by_cases h1 : c = '\r' ∧ d = '\n'
        · rw [if_pos h1] at hl
          rcases List.mem_cons.mp hl with rfl | hl'
          · simp [hasAdj] at hadj
          · have hr := ih rest (by omega) l hl' hadj
            exact (hasAdj_cons_iff ..).mpr (Or.inr ((hasAdj_cons_iff ..).mpr (Or.inr hr)))
        · rw [if_neg h1] at hl
          by_cases h2 : pyIsLineBreak c = true
          · rw [if_pos h2] at hl
            rcases List.mem_cons.mp hl with rfl | hl'
            · simp [hasAdj] at hadj
            · have hr := ih (d :: rest) (by simp; omega) l hl' hadj
              exact (hasAdj_cons_iff ..).mpr (Or.inr hr)
          · rw [if_neg h2] at hl
            cases hm : pySplitlines (d :: rest) with
            | nil =>
              rw [hm] at hl
              simp at hl
              subst hl
              simp [hasAdj] at hadj
            | cons l0 ls0 =>
              rw [hm] at hl
              rcases List.mem_cons.mp hl with rfl | hl'
              · rcases (hasAdj_cons_iff a b c l0).mp hadj with ⟨hca, hh⟩ | ht0
                · exact (hasAdj_cons_iff ..).mpr
                    (Or.inl ⟨hca, pySplitlines_head hm hh⟩)
                · have hr := ih (d :: rest) (by simp; omega) l0 (by rw [hm]; simp) ht0
                  exact (hasAdj_cons_iff ..).mpr (Or.inr hr)
              · have hr := ih (d :: rest) (by simp; omega) l (by rw [hm]; simp [hl']) hadj
                exact (hasAdj_cons_iff ..).mpr (Or.inr hr)

theorem lines_hasAdj_of_mem {a b : Char} {t l : List Char}
    (hl : l ∈ pySplitlines t) (h : hasAdj a b l = true) : hasAdj a b t = true :=
  lines_hasAdj a b t.length t le_rfl l hl h

/-- Lines of `splitlines` contain no line-break character. -/
theorem lines_noBreak : ∀ (n : Nat) (t : List Char), t.length ≤ n →
    ∀ l ∈ pySplitlines t, ∀ c ∈ l, pyIsLineBreak c = false := by
  intro n
  induction n with
  | zero =>
    intro t ht l hl
    have : t = [] := List.length_eq_zero.mp (Nat.le_zero.mp ht)
    subst this
    simp [pySplitlines] at hl
  | succ n ih =>
    intro t ht l hl x hx
    cases t with
    | nil => simp [pySplitlines] at hl
    | cons c t1 =>
      cases t1 with
      | nil =>
        simp only [pySplitlines] at hl
        by_cases hb : pyIsLineBreak c = true
        · rw [if_pos hb] at hl
          simp at hl
          subst hl
          simp at hx
        · rw [if_neg hb] at hl
          simp at hl
          subst hl
          simp at hx
          subst hx
          simpa using hb
      | cons d rest =>
        have hlen : rest.length + 2 ≤ n + 1 := by simpa using ht
        simp only [pySplitlines] at hl
        by_cases h1 : c = '\r' ∧ d = '\n'
        · rw [if_pos h1] at hl
          rcases List.mem_cons.mp hl with rfl | hl'
          · simp at hx
          · exact ih rest (by omega) l hl' x hx
        · rw [if_neg h1] at hl
          by_cases h2 : pyIsLineBreak c = true
          · rw [if_pos h2] at hl
            rcases List.mem_cons.mp hl with rfl | hl'
            · simp at hx
            · exact ih (d :: rest) (by simp; omega) l hl' x hx
          · rw [if_neg h2] at hl
            cases hm : pySplitlines (d :: rest) with
            | nil =>
              rw [hm] at hl
              simp at hl
              subst hl
              simp at hx
              subst hx
              simpa using h2
            | cons l0 ls0 =>
              rw [hm] at hl
              rcases List.mem_cons.mp hl with rfl | hl'
              · rcases List.mem_cons.mp hx with rfl | hx'
                · simpa using h2
                · exact ih (d :: rest) (by simp; omega) l0 (by rw [hm]; simp) x hx'
              · exact ih (d :: rest) (by simp; omega) l (by rw [hm]; simp [hl']) x hx

theorem lines_noBreak_of_mem {t l : List Char}
    (hl : l ∈ pySplitlines t) : ∀ c ∈ l, pyIsLineBreak c = false :=
  lines_noBreak t.length t le_rfl l hl

/-- The first line is a prefix of the text, and adjacent pairs of the
later lines live in the remaining suffix. -/
theorem lines_split : ∀ (n : Nat) (t m : List Char) (ms : List (List Char)),
    t.length ≤ n → pySplitlines t = m :: ms →
    ∃ w, t = m ++ w ∧
      ∀ m' ∈ ms, ∀ a b : Char, hasAdj a b m' = true → hasAdj a b w = true := by
  intro n
  induction n with
  | zero =>
    intro t m ms ht hsp
    have : t = [] := List.length_eq_zero.mp (Nat.le_zero.mp ht)
    subst this
    simp [pySplitlines] at hsp
  | succ n ih =>
    intro t m ms ht hsp
    cases t with
    | nil => simp [pySplitlines] at hsp
    | cons c t1 =>
      cases t1 with
      | nil =>
        simp only [pySplitlines] at hsp
        by_cases hb : pyIsLineBreak c = true
        · rw [if_pos hb] at hsp
          injection hsp with h1 h2
          subst h1
          subst h2
          exact ⟨[c], rfl, by simp⟩
        · rw [if_neg hb] at hsp
          injection hsp with h1 h2
          subst h1
          subst h2
          exact ⟨[], by simp, by simp⟩
      | cons d rest =>
        have hlen : rest.length + 2 ≤ n + 1 := by simpa using ht
        simp only [pySplitlines] at hsp
        by_cases h1 : c = '\r' ∧ d = '\n'
        · rw [if_pos h1] at hsp
          injection hsp with h1' h2'
          subst h1'
          subst h2'
          refine ⟨c :: d :: rest, rfl, ?_⟩
          intro m' hm' a b hadj
          have hr := lines_hasAdj_of_mem hm' hadj
          exact (hasAdj_cons_iff ..).mpr (Or.inr ((hasAdj_cons_iff ..).mpr (Or.inr hr)))
        · rw [if_neg h1] at hsp
          by_cases h2 : pyIsLineBreak c = true
          · rw [if_pos h2] at hsp
            injection hsp with h1' h2'
            subst h1'
            subst h2'
            refine ⟨c :: d :: rest, rfl, ?_⟩
            intro m' hm' a b hadj
            have hr := lines_hasAdj_of_mem hm' hadj
            exact (hasAdj_cons_iff ..).mpr (Or.inr hr)
          · rw [if_neg h2] at hsp
            cases hm : pySplitlines (d :: rest) with
            | nil =>
              rw [hm] at hsp
              injection hsp with h1' h2'
              subst h1'
              subst h2'
              exact ⟨d :: rest, rfl, by simp⟩
            | cons l0 ls0 =>
              rw [hm] at hsp
              injection hsp with h1' h2'
              subst h1'
              subst h2'
              rcases ih (d :: rest) l0 ls0 (by simp; omega) hm with ⟨w, hw, hcond⟩
              refine ⟨w, ?_, hcond⟩
              rw [List.cons_append, ← hw]

theorem lines_split_of_eq {t m : List Char} {ms : List (List Char)}
    (h : pySplitlines t = m :: ms) :
    ∃ w, t = m ++ w ∧
      ∀ m' ∈ ms, ∀ a b : Char, hasAdj a b m' = true → hasAdj a b w = true :=
  lines_split t.length t m ms le_rfl h


/-- Prepending a character preserves the existence of a comment match. -/
theorem hasComment_cons {z : List Char} (c : Char) (h : hasComment z = true) :
    hasComment (c :: z) = true := by
  show (if c = '/' ∧ z.head? = some '*' then hasAdj '*' '/' z.tail
    else hasComment z) = true
  by_cases hg : c = '/' ∧ z.head? = some '*'
  · rw [if_pos hg]
    cases z with
    | nil => simp at hg
    | cons e z' =>
      have he : e = '*' := by
        have hh := hg.2
        simp only [List.head?] at hh
        exact Option.some_inj.mp hh
      subst he
      have h' : hasComment z' = true := by
        have hz : hasComment ('*' :: z') =
            (if ('*' : Char) = '/' ∧ z'.head? = some '*' then hasAdj '*' '/' z'.tail
              else hasComment z') := rfl
        rw [hz, if_neg (by simp)] at h
        exact h
      show hasAdj '*' '/' z' = true
      exact hasComment_imp_close h'
  · rw [if_neg hg]
    exact h

/-- Appending on the right preserves the existence of a comment match. -/
theorem hasComment_append_left : ∀ {x : List Char} (w : List Char),
    hasComment x = true → hasComment (x ++ w) = true := by
  intro x
  induction x with
  | nil =>
    intro w h
    simp [hasComment] at h
  | cons c x' ih =>
    intro w h
    rw [List.cons_append]
    have hx : hasComment (c :: x') =
        (if c = '/' ∧ x'.head? = some '*' then hasAdj '*' '/' x'.tail
          else hasComment x') := rfl
    rw [hx] at h
    by_cases hg : c = '/' ∧ x'.head? = some '*'
    · rw [if_pos hg] at h
      cases x' with
      | nil => simp at hg
      | cons e x'' =>
        have he : e = '*' := by
          have hh := hg.2
          simp only [List.head?] at hh
          exact Option.some_inj.mp hh
        subst he
        simp only [List.tail] at h
        show (if c = '/' ∧ (('*' :: x'') ++ w).head? = some '*' then
            hasAdj '*' '/' (('*' :: x'') ++ w).tail
            else hasComment (('*' :: x'') ++ w)) = true
        rw [if_pos ⟨hg.1, rfl⟩]
        show hasAdj '*' '/' (x'' ++ w) = true
        exact hasAdj_append_left w h
    · rw [if_neg hg] at h
      exact hasComment_cons c (ih w h)

/-- A witnessing decomposition for an adjacent pair. -/
theorem hasAdj_exists : ∀ {x : List Char} {a b : Char}, hasAdj a b x = true →
    ∃ u v, x = u ++ a :: b :: v := by
  intro x a b
  induction x with
  | nil =>
    intro h
    simp [hasAdj] at h
  | cons c t ih =>
    intro h
    rcases (hasAdj_cons_iff a b c t).mp h with ⟨hc, hh⟩ | ht
    · cases t with
      | nil => simp at hh
      | cons d t' =>
        have hd : d = b := by
          simp only [List.head?] at hh
          exact Option.some_inj.mp hh
        refine ⟨[], t', ?_⟩
        rw [hc, hd]
        rfl
    · rcases ih ht with ⟨u, v, huv⟩
      refine ⟨c :: u, v, ?_⟩
      rw [List.cons_append, huv]

/-- Conversely, a `/*` with a later `*/` yields a comment match. -/
theorem exists_imp_hasComment : ∀ (u v : List Char), hasAdj '*' '/' v = true →
    hasComment (u ++ '/' :: '*' :: v) = true := by
  intro u
  induction u with
  | nil =>
    intro v h
    show (if ('/' : Char) = '/' ∧ ('*' :: v).head? = some '*' then
        hasAdj '*' '/' ('*' :: v).tail else hasComment ('*' :: v)) = true
    rw [if_pos ⟨rfl, rfl⟩]
    exact h
  | cons c u' ih =>
    intro v h
    rw [List.cons_append]
    exact hasComment_cons c (ih v h)

/-- No line of the list contains a `*/`. -/
def noClose (ls : List (List Char)) : Bool :=
  ls.all (fun m => !hasAdj '*' '/' m)

/-- The per-line invariant guaranteeing the joined text has no comment
match: no line has a comment match of its own, and once a line contains
a `/*`, no later line contains a `*/`. -/
def linesOk : List (List Char) → Bool
  | [] => true
  | l :: ls =>
    !hasComment l && (if hasAdj '/' '*' l then noClose ls else linesOk ls)

theorem noClose_linesOk : ∀ {ls : List (List Char)}, noClose ls = true →
    linesOk ls = true := by
  intro ls
  induction ls with
  | nil => intro h; rfl
  | cons l ls ih =>
    intro h
    have hl : hasAdj '*' '/' l = false := by
      have hx := (List.all_eq_true.mp h) l (by simp)
      simpa using hx
    have hls : noClose ls = true := by
      apply List.all_eq_true.mpr
      intro m hm
      exact (List.all_eq_true.mp h) m (by simp [hm])
    have hcm : hasComment l = false := by
      cases hc : hasComment l with
      | false => rfl
      | true => rw [hasComment_imp_close hc] at hl; cases hl
    show (!hasComment l && (if hasAdj '/' '*' l then noClose ls else linesOk ls)) = true
    rw [hcm]
    by_cases ho : hasAdj '/' '*' l = true
    · rw [if_pos ho, hls]
      rfl
    · rw [if_neg ho, ih hls]
      rfl


/-- If the per-line invariant fails, the text has a comment match. -/
theorem linesOk_false_hasComment : ∀ (n : Nat) (t : List Char), t.length ≤ n →
    linesOk (pySplitlines t) = false → hasComment t = true := by
  intro n
  induction n with
  | zero =>
    intro t ht h
    have : t = [] := List.length_eq_zero.mp (Nat.le_zero.mp ht)
    subst this
    simp [pySplitlines, linesOk] at h
  | succ n ih =>
    intro t ht h
    cases t with
    | nil => simp [pySplitlines, linesOk] at h
    | cons c t1 =>
      cases t1 with
      | nil =>
        exfalso
        simp only [pySplitlines] at h
        by_cases hb : pyIsLineBreak c = true
        · rw [if_pos hb] at h
          simp [linesOk, hasComment, hasAdj, noClose] at h
        · rw [if_neg hb] at h
          simp [linesOk, hasComment, hasAdj, noClose] at h
      | cons d rest =>
        have hlen : rest.length + 2 ≤ n + 1 := by simpa using ht
        simp only [pySplitlines] at h
        by_cases h1 : c = '\r' ∧ d = '\n'
        · rw [if_pos h1] at h
          have h' : linesOk (pySplitlines rest) = false := by
            simpa [linesOk, hasComment, hasAdj] using h
          exact hasComment_cons c (hasComment_cons d (ih rest (by omega) h'))
        · rw [if_neg h1] at h
          by_cases h2 : pyIsLineBreak c = true
          · rw [if_pos h2] at h
            have h' : linesOk (pySplitlines (d :: rest)) = false := by
              simpa [linesOk, hasComment, hasAdj] using h
            exact hasComment_cons c (ih (d :: rest) (by simp; omega) h')
          · rw [if_neg h2] at h
            cases hm : pySplitlines (d :: rest) with
            | nil => exact absurd hm (pySplitlines_ne_nil (by simp))
            | cons l0 ls0 =>
              rw [hm] at h
              by_cases hcm : hasComment (c :: l0) = true
              · have hAiff : hasComment (c :: l0) =
                    (if c = '/' ∧ l0.head? = some '*' then hasAdj '*' '/' l0.tail
                      else hasComment l0) := rfl
                rw [hAiff] at hcm
                rcases lines_split_of_eq hm with ⟨w, hw, _⟩
                by_cases hg : c = '/' ∧ l0.head? = some '*'
                · rw [if_pos hg] at hcm
                  cases l0 with
                  | nil => simp at hg
                  | cons e l0' =>
                    have he : e = '*' := by
                      have hh := hg.2
                      simp only [List.head?] at hh
                      exact Option.some_inj.mp hh
                    subst he
                    simp only [List.tail] at hcm
                    rw [hg.1, hw]
                    exact exists_imp_hasComment [] (l0' ++ w) (hasAdj_append_left w hcm)
                · rw [if_neg hg] at hcm
                  have hdr : hasComment (d :: rest) = true := by
                    rw [hw]
                    exact hasComment_append_left w hcm
                  exact hasComment_cons c hdr
              · have hcmf : hasComment (c :: l0) = false := by simpa using hcm
                have hbr : (if hasAdj '/' '*' (c :: l0) then noClose ls0
                    else linesOk ls0) = false := by
                  have hlo : linesOk ((c :: l0) :: ls0) =
                      (!hasComment (c :: l0) &&
                        (if hasAdj '/' '*' (c :: l0) then noClose ls0
                          else linesOk ls0)) := rfl
                  rw [hlo, hcmf] at h
                  simpa using h
                by_cases ho : hasAdj '/' '*' (c :: l0) = true
                · rw [if_pos ho] at hbr
                  have hex : ∃ m, m ∈ ls0 ∧ hasAdj '*' '/' m = true := by
                    by_contra hno
                    push_neg at hno
                    have hnc : noClose ls0 = true := by
                      apply List.all_eq_true.mpr
                      intro m hmem
                      have hf := hno m hmem
                      simp only [Bool.not_eq_true] at hf
                      simp [hf]
                    rw [hnc] at hbr
                    cases hbr
                  rcases hex with ⟨m, hmem, hmadj⟩
                  rcases lines_split_of_eq hm with ⟨w, hw, hcond⟩
                  have hclosew : hasAdj '*' '/' w = true := hcond m hmem '*' '/' hmadj
                  rcases hasAdj_exists ho with ⟨u, v, huv⟩
                  have ht2 : c :: d :: rest = u ++ '/' :: '*' :: (v ++ w) := by
                    have e1 : c :: d :: rest = (c :: l0) ++ w := by
                      rw [List.cons_append, ← hw]
                    rw [e1, huv]
                    simp [List.append_assoc]
                  rw [ht2]
                  exact exists_imp_hasComment u (v ++ w) (hasAdj_append_right v hclosew)
                · rw [if_neg ho] at hbr
                  have hol0 : hasAdj '/' '*' l0 = false := by
                    cases hx : hasAdj '/' '*' l0 with
                    | false => rfl
                    | true =>
                      exact absurd ((hasAdj_cons_iff '/' '*' c l0).mpr (Or.inr hx)) ho
                  have hcm0 : hasComment l0 = false := by
                    cases hx : hasComment l0 with
                    | false => rfl
                    | true => exact absurd (hasComment_cons c hx) (by simp [hcmf])
                  have h' : linesOk (pySplitlines (d :: rest)) = false := by
                    rw [hm]
                    show (!hasComment l0 && (if hasAdj '/' '*' l0 then noClose ls0
                      else linesOk ls0)) = false
                    rw [hcm0]
                    simp only [Bool.not_false, Bool.true_and]
                    rw [if_neg (by simp [hol0])]
                    exact hbr
                  exact hasComment_cons c (ih (d :: rest) (by simp; omega) h')

/-- Comment-free text yields lines satisfying the per-line invariant. -/
theorem linesOk_of_noComment {t : List Char} (h : hasComment t = false) :
    linesOk (pySplitlines t) = true := by
  cases hlo : linesOk (pySplitlines t) with
  | true => rfl
  | false => rw [linesOk_false_hasComment t.length t le_rfl hlo] at h; cases h


/-- The right-stripped list is a prefix of the original. -/
theorem pyRstrip_prefix (l : List Char) : ∃ w, l = pyRstrip l ++ w := by
  refine ⟨(l.reverse.takeWhile pyIsSpace).reverse, ?_⟩
  have h : l.reverse.takeWhile pyIsSpace ++ l.reverse.dropWhile pyIsSpace = l.reverse :=
    List.takeWhile_append_dropWhile ..
  calc l = (l.reverse).reverse := (List.reverse_reverse l).symm
  _ = (l.reverse.takeWhile pyIsSpace ++ l.reverse.dropWhile pyIsSpace).reverse := by rw [h]
  _ = (l.reverse.dropWhile pyIsSpace).reverse ++ (l.reverse.takeWhile pyIsSpace).reverse := by
      rw [List.reverse_append]
  _ = pyRstrip l ++ (l.reverse.takeWhile pyIsSpace).reverse := rfl

theorem hasAdj_pyRstrip {a b : Char} {l : List Char}
    (h : hasAdj a b (pyRstrip l) = true) : hasAdj a b l = true := by
  rcases pyRstrip_prefix l with ⟨w, hw⟩
  rw [hw]
  exact hasAdj_append_left w h

theorem hasComment_pyRstrip {l : List Char}
    (h : hasComment (pyRstrip l) = true) : hasComment l = true := by
  rcases pyRstrip_prefix l with ⟨w, hw⟩
  rw [hw]
  exact hasComment_append_left w h

theorem mem_pyRstrip {c : Char} {l : List Char} (h : c ∈ pyRstrip l) : c ∈ l := by
  rcases pyRstrip_prefix l with ⟨w, hw⟩
  rw [hw]
  exact List.mem_append.mpr (Or.inl h)

theorem dropWhile_any_not (p : Char → Bool) : ∀ (xs : List Char),
    (xs.dropWhile p).any (fun c => !p c) = xs.any (fun c => !p c) := by
  intro xs
  induction xs with
  | nil => rfl
  | cons x xs ih =>
    rw [List.dropWhile_cons]
    by_cases hx : p x = true
    · rw [if_pos hx, ih]
      simp [hx]
    · rw [if_neg hx]

/-- Right-stripping keeps some non-whitespace character when one
exists. -/
theorem pyStripNonEmpty_pyRstrip {l : List Char} (h : pyStripNonEmpty l = true) :
    pyStripNonEmpty (pyRstrip l) = true := by
  unfold pyStripNonEmpty at h ⊢
  unfold pyRstrip
  rw [List.any_reverse, dropWhile_any_not, List.any_reverse]
  exact h

theorem pyRstrip_ne_nil {l : List Char} (h : pyStripNonEmpty l = true) :
    pyRstrip l ≠ [] := by
  intro hnil
  have h2 := pyStripNonEmpty_pyRstrip h
  rw [hnil] at h2
  simp [pyStripNonEmpty] at h2

theorem dropWhile_idem (p : Char → Bool) : ∀ (xs : List Char),
    (xs.dropWhile p).dropWhile p = xs.dropWhile p := by
  intro xs
  induction xs with
  | nil => rfl
  | cons x xs ih =>
    rw [List.dropWhile_cons]
    by_cases hx : p x = true
    · rw [if_pos hx]
      exact ih
    · rw [if_neg hx, List.dropWhile_cons, if_neg hx]

theorem pyRstrip_idem (l : List Char) : pyRstrip (pyRstrip l) = pyRstrip l := by
  unfold pyRstrip
  rw [List.reverse_reverse, dropWhile_idem]

/-- The line transformation applied by the C-family strategy after
comment removal: keep the right-stripped line when non-blank. -/
def jsKeep (l : List Char) : Option (List Char) :=
  if pyStripNonEmpty l then some (pyRstrip l) else none

theorem minify_javascript_eq (s : List Char) :
    Minifier._minify_javascript s =
      joinNl ((pySplitlines (blockSub (lineSub s))).filterMap jsKeep) := rfl

theorem jsKeep_some_shape {l m : List Char} (h : jsKeep l = some m) :
    m = pyRstrip l ∧ pyStripNonEmpty l = true := by
  unfold jsKeep at h
  by_cases hp : pyStripNonEmpty l = true
  · rw [if_pos hp] at h
    exact ⟨(Option.some_inj.mp h).symm, hp⟩
  · rw [if_neg hp] at h
    cases h

theorem jsKeep_of_kept {l m : List Char} (h : jsKeep l = some m) :
    jsKeep m = some m := by
  rcases jsKeep_some_shape h with ⟨rfl, hp⟩
  unfold jsKeep
  rw [if_pos (pyStripNonEmpty_pyRstrip hp), pyRstrip_idem]

theorem noClose_filterMap {ls : List (List Char)} (h : noClose ls = true) :
    noClose (ls.filterMap jsKeep) = true := by
  apply List.all_eq_true.mpr
  intro m hm
  rcases List.mem_filterMap.mp hm with ⟨l, hl, hkeep⟩
  rcases jsKeep_some_shape hkeep with ⟨rfl, _⟩
  have hla := (List.all_eq_true.mp h) l hl
  have hlaf : hasAdj '*' '/' l = false := by simpa using hla
  show (!hasAdj '*' '/' (pyRstrip l)) = true
  cases hadj : hasAdj '*' '/' (pyRstrip l) with
  | false => rfl
  | true => rw [hasAdj_pyRstrip hadj] at hlaf; cases hlaf

/-- Keeping the right-stripped non-blank lines preserves the per-line
comment invariant. -/
theorem linesOk_filterMap : ∀ {ls : List (List Char)}, linesOk ls = true →
    linesOk (ls.filterMap jsKeep) = true := by
  intro ls
  induction ls with
  | nil => intro _; rfl
  | cons l ls ih =>
    intro h
    have hlo : linesOk (l :: ls) =
        (!hasComment l && (if hasAdj '/' '*' l then noClose ls else linesOk ls)) := rfl
    rw [hlo] at h
    have hcm : hasComment l = false := by
      cases hx : hasComment l with
      | false => rfl
      | true => rw [hx] at h; simp at h
    rw [hcm] at h
    simp only [Bool.not_false, Bool.true_and] at h
    have hls : linesOk ls = true := by
      by_cases ho : hasAdj '/' '*' l = true
      · rw [if_pos ho] at h
        exact noClose_linesOk h
      · rwa [if_neg ho] at h
    cases hk : jsKeep l with
    | none =>
      rw [List.filterMap_cons_none hk]
      exact ih hls
    | some m =>
      rw [List.filterMap_cons_some hk]
      have hml := (jsKeep_some_shape hk).1
      show (!hasComment m && (if hasAdj '/' '*' m then noClose (ls.filterMap jsKeep)
        else linesOk (ls.filterMap jsKeep))) = true
      have hcm' : hasComment m = false := by
        subst hml
        cases hx : hasComment (pyRstrip l) with
        | false => rfl
        | true => rw [hasComment_pyRstrip hx] at hcm; cases hcm
      rw [hcm']
      simp only [Bool.not_false, Bool.true_and]
      by_cases ho' : hasAdj '/' '*' m = true
      · rw [if_pos ho']
        have hol : hasAdj '/' '*' l = true := by
          subst hml
          exact hasAdj_pyRstrip ho'
        rw [if_pos hol] at h
        exact noClose_filterMap h
      · rw [if_neg ho']
        exact ih hls


/-- A comment match in `x ++ "\n" ++ y` comes from a match in `x`, a
match in `y`, or an opener in `x` with a closer in `y`. -/
theorem hasComment_append_nl : ∀ {x : List Char} {y : List Char},
    hasComment (x ++ '\n' :: y) = true →
    hasComment x = true ∨ (hasAdj '/' '*' x = true ∧ hasAdj '*' '/' y = true) ∨
      hasComment y = true := by
  intro x
  induction x with
  | nil =>
    intro y h
    right; right
    have hx : hasComment ('\n' :: y) =
        (if ('\n' : Char) = '/' ∧ y.head? = some '*' then hasAdj '*' '/' y.tail
          else hasComment y) := rfl
    rw [List.nil_append, hx, if_neg (by simp)] at h
    exact h
  | cons c x' ih =>
    intro y h
    rw [List.cons_append] at h
    have hx : hasComment (c :: (x' ++ '\n' :: y)) =
        (if c = '/' ∧ (x' ++ '\n' :: y).head? = some '*' then
          hasAdj '*' '/' (x' ++ '\n' :: y).tail
          else hasComment (x' ++ '\n' :: y)) := rfl
    rw [hx] at h
    by_cases hg : c = '/' ∧ (x' ++ '\n' :: y).head? = some '*'
    · rw [if_pos hg] at h
      cases x' with
      | nil =>
        exfalso
        have hh := hg.2
        simp at hh
      | cons e x'' =>
        have he : e = '*' := by
          have hh := hg.2
          simp only [List.cons_append, List.head?] at hh
          exact Option.some_inj.mp hh
        subst he
        have h' : hasAdj '*' '/' (x'' ++ '\n' :: y) = true := by
          simpa using h
        rcases (hasAdj_append_sep (by decide) (by decide) x'' y).mp h' with hx2 | hy2
        · left
          show hasComment (c :: '*' :: x'') = true
          have hcc : hasComment (c :: '*' :: x'') =
              (if c = '/' ∧ ('*' :: x'').head? = some '*' then
                hasAdj '*' '/' ('*' :: x'').tail else hasComment ('*' :: x'')) := rfl
          rw [hcc, if_pos ⟨hg.1, rfl⟩]
          exact hx2
        · right; left
          exact ⟨(hasAdj_cons_iff ..).mpr (Or.inl ⟨hg.1, rfl⟩), hy2⟩
    · rw [if_neg hg] at h
      rcases ih h with h1 | ⟨h2a, h2b⟩ | h3
      · left
        exact hasComment_cons c h1
      · right; left
        exact ⟨(hasAdj_cons_iff ..).mpr (Or.inr h2a), h2b⟩
      · right; right
        exact h3

theorem noClose_joinNl : ∀ {ls : List (List Char)}, noClose ls = true →
    hasAdj '*' '/' (joinNl ls) = false := by
  intro ls
  induction ls with
  | nil => intro _; rfl
  | cons l ls ih =>
    intro h
    have hl : hasAdj '*' '/' l = false := by
      have hx := (List.all_eq_true.mp h) l (by simp)
      simpa using hx
    have hls : noClose ls = true := by
      apply List.all_eq_true.mpr
      intro m hm
      exact (List.all_eq_true.mp h) m (by simp [hm])
    cases ls with
    | nil => exact hl
    | cons m ms =>
      show hasAdj '*' '/' (l ++ '\n' :: joinNl (m :: ms)) = false
      cases hj : hasAdj '*' '/' (l ++ '\n' :: joinNl (m :: ms)) with
      | false => rfl
      | true =>
        rcases (hasAdj_append_sep (by decide) (by decide) l (joinNl (m :: ms))).mp hj
          with hx | hy
        · rw [hl] at hx; cases hx
        · rw [ih hls] at hy; cases hy

/-- Lines satisfying the per-line invariant join into comment-free
text. -/
theorem linesOk_joinNl : ∀ {ls : List (List Char)}, linesOk ls = true →
    hasComment (joinNl ls) = false := by
  intro ls
  induction ls with
  | nil => intro _; rfl
  | cons l ls ih =>
    intro h
    have hlo : linesOk (l :: ls) =
        (!hasComment l && (if hasAdj '/' '*' l then noClose ls else linesOk ls)) := rfl
    rw [hlo] at h
    have hcm : hasComment l = false := by
      cases hx : hasComment l with
      | false => rfl
      | true => rw [hx] at h; simp at h
    rw [hcm] at h
    simp only [Bool.not_false, Bool.true_and] at h
    cases ls with
    | nil => exact hcm
    | cons m ms =>
      show hasComment (l ++ '\n' :: joinNl (m :: ms)) = false
      have hlk : linesOk (m :: ms) = true := by
        by_cases ho : hasAdj '/' '*' l = true
        · rw [if_pos ho] at h
          exact noClose_linesOk h
        · rwa [if_neg ho] at h
      cases hj : hasComment (l ++ '\n' :: joinNl (m :: ms)) with
      | false => rfl
      | true =>
        exfalso
        rcases hasComment_append_nl hj with h1 | ⟨h2a, h2b⟩ | h3
        · rw [hcm] at h1; cases h1
        · rw [if_pos h2a] at h
          rw [noClose_joinNl h] at h2b
          cases h2b
        · rw [ih hlk] at h3
          cases h3

/-- A nonempty line with no break characters splits into itself. -/
theorem pySplitlines_noBreak : ∀ {m : List Char}, m ≠ [] →
    (∀ c ∈ m, pyIsLineBreak c = false) → pySplitlines m = [m] := by
  intro m
  induction m with
  | nil => intro h _; exact absurd rfl h
  | cons c m' ih =>
    intro _ hnb
    have hc : pyIsLineBreak c = false := hnb c (by simp)
    cases m' with
    | nil =>
      simp only [pySplitlines]
      rw [if_neg (by simp [hc])]
    | cons d m'' =>
      have hcr : ¬(c = '\r' ∧ d = '\n') := by
        intro hp
        rw [hp.1] at hc
        exact absurd hc (by decide)
      simp only [pySplitlines]
      rw [if_neg hcr, if_neg (by simp [hc])]
      rw [ih (by simp) (fun x hx => hnb x (List.mem_cons_of_mem c hx))]

/-- Splitting after a break-free line and an inserted `\n`. -/
theorem pySplitlines_append_nl : ∀ (m : List Char),
    (∀ c ∈ m, pyIsLineBreak c = false) →
    ∀ (R : List Char), pySplitlines (m ++ '\n' :: R) = m :: pySplitlines R := by
  intro m
  induction m with
  | nil =>
    intro _ R
    rw [List.nil_append]
    cases R with
    | nil => decide
    | cons e R' =>
      simp only [pySplitlines]
      rw [if_neg ?hne, if_pos (by decide)]
      case hne =>
        intro hp
        exact absurd hp.1 (by decide)
  | cons c m' ih =>
    intro hnb R
    have hc : pyIsLineBreak c = false := hnb c (by simp)
    cases hm2 : m' ++ '\n' :: R with
    | nil => exact absurd hm2 (by simp)
    | cons d rest =>
      rw [List.cons_append, hm2]
      simp only [pySplitlines]
      have hcr : ¬(c = '\r' ∧ d = '\n') := by
        intro hp
        rw [hp.1] at hc
        exact absurd hc (by decide)
      rw [if_neg hcr, if_neg (by simp [hc])]
      rw [← hm2, ih (fun x hx => hnb x (List.mem_cons_of_mem c hx)) R]

/-- Joining nonempty break-free lines then splitting recovers the
lines. -/
theorem pySplitlines_joinNl : ∀ {ms : List (List Char)},
    (∀ m ∈ ms, m ≠ [] ∧ ∀ c ∈ m, pyIsLineBreak c = false) →
    pySplitlines (joinNl ms) = ms := by
  intro ms
  induction ms with
  | nil => intro _; rfl
  | cons m ms ih =>
    intro h
    cases ms with
    | nil =>
      show pySplitlines m = [m]
      exact pySplitlines_noBreak (h m (by simp)).1 (h m (by simp)).2
    | cons m2 ms' =>
      show pySplitlines (m ++ '\n' :: joinNl (m2 :: ms')) = m :: m2 :: ms'
      rw [pySplitlines_append_nl m (h m (by simp)).2]
      rw [ih (fun x hx => h x (by simp [hx]))]

theorem filterMap_jsKeep_fixed : ∀ {ms : List (List Char)},
    (∀ m ∈ ms, jsKeep m = some m) → ms.filterMap jsKeep = ms := by
  intro ms
  induction ms with
  | nil => intro _; rfl
  | cons m ms ih =>
    intro h
    rw [List.filterMap_cons_some (h m (by simp))]
    rw [ih (fun x hx => h x (by simp [hx]))]

/-- The C-family/JavaScript strategy is idempotent. -/
theorem minify_javascript_idem (s : List Char) :
    Minifier._minify_javascript (Minifier._minify_javascript s) =
      Minifier._minify_javascript s := by
  have hq : hasAdj '/' '/' (blockSub (lineSub s)) = false ∧
      hasComment (blockSub (lineSub s)) = false :=
    blockSubF_good (lineSub s).length (lineSub s) le_rfl (lineSub_noSS s)
  have hlines : ∀ l ∈ pySplitlines (blockSub (lineSub s)), hasAdj '/' '/' l = false := by
    intro l hl
    cases hx : hasAdj '/' '/' l with
    | false => rfl
    | true => exact absurd (lines_hasAdj_of_mem hl hx) (by simp [hq.1])
  have hms : ∀ m ∈ (pySplitlines (blockSub (lineSub s))).filterMap jsKeep,
      hasAdj '/' '/' m = false := by
    intro m hm
    rcases List.mem_filterMap.mp hm with ⟨l, hl, hk⟩
    rcases jsKeep_some_shape hk with ⟨rfl, _⟩
    cases hx : hasAdj '/' '/' (pyRstrip l) with
    | false => rfl
    | true => exact absurd (hasAdj_pyRstrip hx) (by simp [hlines l hl])
  have hN1 : hasAdj '/' '/' (Minifier._minify_javascript s) = false := by
    rw [minify_javascript_eq]
    exact joinNl_noSS _ hms
  have hok2 : linesOk ((pySplitlines (blockSub (lineSub s))).filterMap jsKeep) = true :=
    linesOk_filterMap (linesOk_of_noComment hq.2)
  have hN2 : hasComment (Minifier._minify_javascript s) = false := by
    rw [minify_javascript_eq]
    exact linesOk_joinNl hok2
  have hcond : ∀ m ∈ (pySplitlines (blockSub (lineSub s))).filterMap jsKeep,
      m ≠ [] ∧ ∀ c ∈ m, pyIsLineBreak c = false := by
    intro m hm
    rcases List.mem_filterMap.mp hm with ⟨l, hl, hk⟩
    rcases jsKeep_some_shape hk with ⟨rfl, hp⟩
    refine ⟨pyRstrip_ne_nil hp, ?_⟩
    intro c hcm
    exact lines_noBreak_of_mem hl c (mem_pyRstrip hcm)
  have hfix : ∀ m ∈ (pySplitlines (blockSub (lineSub s))).filterMap jsKeep,
      jsKeep m = some m := by
    intro m hm
    rcases List.mem_filterMap.mp hm with ⟨l, hl, hk⟩
    exact jsKeep_of_kept hk
  rw [minify_javascript_eq (Minifier._minify_javascript s)]
  rw [lineSub_id hN1, blockSub_id hN2]
  rw [minify_javascript_eq s]
  rw [pySplitlines_joinNl hcond]
  rw [filterMap_jsKeep_fixed hfix]


/-- **C7 (counterexample).** The claim that all four minification
strategies are idempotent is false for the stylesheet and generic
strategies: block-comment removal can expose a new comment (stylesheet
input `//*a*/*x*/` minifies to `/*x*/`, which a second pass erases),
and comment stripping can leave a blank line that only the next pass
drops (generic input `a\n/**/\nb` minifies to `a\n\nb`, then to
`a\nb`). -/
theorem c7_minify_not_idempotent :
    Minifier.minify (fun _ => none)
        (Minifier.minify (fun _ => none) "//*a*/*x*/".data ".css") ".css" ≠
      Minifier.minify (fun _ => none) "//*a*/*x*/".data ".css" ∧
    Minifier.minify (fun _ => none)
        (Minifier.minify (fun _ => none) "a\n/**/\nb".data ".txt") ".txt" ≠
      Minifier.minify (fun _ => none) "a\n/**/\nb".data ".txt" := by
  decide

/-- **C7 (amended).** The C-family/JavaScript strategy is idempotent:
for every extension of the JavaScript family and every input,
minifying the minified content returns it unchanged. -/
theorem c7_minify_js_idempotent (pyTok : List Char → Option (List Char))
    (content : List Char) (ext : String)
    (hext : ext ∈ [".js", ".jsx", ".ts", ".tsx", ".mjs", ".cjs"]) :
    Minifier.minify pyTok (Minifier.minify pyTok content ext) ext =
      Minifier.minify pyTok content ext := by
  have hne : ¬ext = ".py" := by
    intro h
    subst h
    exact absurd hext (by decide)
  unfold Minifier.minify
  rw [if_neg hne, if_pos hext, if_neg hne, if_pos hext]
  exact minify_javascript_idem content

theorem c7_minify_js_idempotent_witness :
    (".js" : String) ∈ [".js", ".jsx", ".ts", ".tsx", ".mjs", ".cjs"] ∧
      Minifier.minify (fun _ => none) (Minifier.minify (fun _ => none)
          "a //c\n/* b */ x".data ".js") ".js" =
        Minifier.minify (fun _ => none) "a //c\n/* b */ x".data ".js" :=
  ⟨by decide,
    c7_minify_js_idempotent (fun _ => none) "a //c\n/* b */ x".data ".js" (by decide)⟩


/-! ## Claim C4: the JSON artifact

A recursive-descent JSON parser over character lists settles syntactic
validity: it accepts only RFC-8259-conformant text (strings with
validated escapes and no raw control characters, integer numbers
without leading zeros — the only numbers the artifact contains —
arrays and objects with exact comma/close discipline), so a successful
complete parse certifies the artifact is valid JSON.  String tokens
carry their raw (still-escaped) span, which suffices to identify the
object keys and to state the count properties.  The value/array/object
recursion is driven by one fuel parameter so every run reduces in the
kernel. -/

inductive JVal where
  | jnum (n : Nat)
  | jstr (raw : List Char)
  | jarr (xs : List JVal)
  | jobj (kvs : List (List Char × JVal))

inductive POut where
  | v (x : JVal)
  | arr (xs : List JVal)
  | obj (kvs : List (List Char × JVal))

inductive PReq where
  | val
  | arrItems
  | objItems

/-- JSON insignificant whitespace. -/
def isJsonWs (c : Char) : Bool :=
  c = ' ' ∨ c = '\t' ∨ c = '\n' ∨ c = '\r'

def skipWs : List Char → List Char
  | [] => []
  | c :: rest => if isJsonWs c then skipWs rest else c :: rest

def isHexDigitB (c : Char) : Bool :=
  decide ((48 ≤ c.toNat ∧ c.toNat ≤ 57) ∨ (97 ≤ c.toNat ∧ c.toNat ≤ 102) ∨
    (65 ≤ c.toNat ∧ c.toNat ≤ 70))

/-- Read a string body (after the opening quote) through its closing
quote, returning the raw span and the remainder; escapes are validated,
raw control characters are rejected. -/
def readStrAux : List Char → Option (List Char × List Char)
  | [] => none
  | c :: rest =>
    if c = '"' then some ([], rest)
    else if c = '\\' then
      match rest with
      | [] => none
      | e :: rest2 =>
        if e = 'u' then
          match rest2 with
          | h1 :: h2 :: h3 :: h4 :: rest3 =>
            if isHexDigitB h1 ∧ isHexDigitB h2 ∧ isHexDigitB h3 ∧ isHexDigitB h4 then
              match readStrAux rest3 with
              | some (raw, r) => some (c :: e :: h1 :: h2 :: h3 :: h4 :: raw, r)
              | none => none
            else none
          | _ => none
        else if e = '"' ∨ e = '\\' ∨ e = '/' ∨ e = 'b' ∨ e = 'f' ∨ e = 'n' ∨
            e = 'r' ∨ e = 't' then
          match readStrAux rest2 with
          | some (raw, r) => some (c :: e :: raw, r)
          | none => none
        else none
    else if c.toNat < 32 then none
    else
      match readStrAux rest with
      | some (raw, r) => some (c :: raw, r)
      | none => none
termination_by structural s => s

def takeDigits : List Char → List Char × List Char
  | [] => ([], [])
  | c :: rest =>
    if 48 ≤ c.toNat ∧ c.toNat ≤ 57 then
      let p := takeDigits rest
      (c :: p.1, p.2)
    else ([], c :: rest)

def digitsToNat (acc : Nat) : List Char → Nat
  | [] => acc
  | c :: rest => digitsToNat (acc * 10 + (c.toNat - 48)) rest

/-- Read a JSON integer (no sign, no leading zero — the artifact's
numbers are byte counts). -/
def readNum (s : List Char) : Option (Nat × List Char) :=
  match takeDigits s with
  | ([], _) => none
  | (d :: ds, r) =>
    if d = '0' ∧ ds ≠ [] then none else some (digitsToNat 0 (d :: ds), r)

/-- The parser: `val` parses one JSON value, `arrItems` the members of a
nonempty array after its `[`, `objItems` the members of a nonempty
object after its `\x7b`. -/
def parseF : Nat → PReq → List Char → Option (POut × List Char)
  | 0, _, _ => none
  | f + 1, .val, s =>
    match skipWs s with
    | [] => none
    | c :: rest =>
      if c = '"' then
        match readStrAux rest with
        | some (raw, r2) => some (.v (.jstr raw), r2)
        | none => none
      else if c = '\x7b' then
        if (skipWs rest).head? = some '\x7d' then
          some (.v (.jobj []), (skipWs rest).tail)
        else
          match parseF f .objItems (skipWs rest) with
          | some (.obj kvs, r3) => some (.v (.jobj kvs), r3)
          | _ => none
      else if c = '[' then
        if (skipWs rest).head? = some ']' then
          some (.v (.jarr []), (skipWs rest).tail)
        else
          match parseF f .arrItems (skipWs rest) with
          | some (.arr xs, r3) => some (.v (.jarr xs), r3)
          | _ => none
      else
        match readNum (c :: rest) with
        | some (n, r2) => some (.v (.jnum n), r2)
        | none => none
  | f + 1, .arrItems, s =>
    match parseF f .val s with
    | some (.v x, r1) =>
      if (skipWs r1).head? = some ',' then
        match parseF f .arrItems ((skipWs r1).tail) with
        | some (.arr xs, r3) => some (.arr (x :: xs), r3)
        | _ => none
      else if (skipWs r1).head? = some ']' then
        some (.arr [x], (skipWs r1).tail)
      else none
    | _ => none
  | f + 1, .objItems, s =>
    if (skipWs s).head? = some '"' then
      match readStrAux ((skipWs s).tail) with
      | some (key, r2) =>
        if (skipWs r2).head? = some ':' then
          match parseF f .val ((skipWs r2).tail) with
          | some (.v x, r4) =>
            if (skipWs r4).head? = some ',' then
              match parseF f .objItems ((skipWs r4).tail) with
              | some (.obj kvs, r6) => some (.obj ((key, x) :: kvs), r6)
              | _ => none
            else if (skipWs r4).head? = some '\x7d' then
              some (.obj [(key, x)], (skipWs r4).tail)
            else none
          | _ => none
        else none
      | none => none
    else none

/-- The escaped span `json.dumps` produces for a string value (the raw
body of `pyJsonStr`). -/
def jsonEscape (s : String) : List Char :=
  s.data.flatMap pyJsonEscapeChar

/-- The AST of one member of the `files` array. -/
def entryAst (rel : String) (r : ProcessedFile) : JVal :=
  .jobj [("path".data, .jstr (jsonEscape rel)),
         ("size".data, .jnum r.size),
         ("encoding".data, .jstr (jsonEscape r.encoding)),
         ("content".data, .jstr (jsonEscape (r.content.getD "")))]

/-- The non-skipped candidates with their rendered relative paths, in
writer order. -/
def StreamingWriter.keptRecords (cfg : Config) (root : List String)
    (chardetO : ChardetOracle) (codecO : CodecOracle)
    (pyTok : List Char → Option (List Char)) (fsc : List String → FileM) :
    List (List String) → List (String × ProcessedFile)
  | [] => []
  | p :: rest =>
    let r := (FileProcessor.process_file cfg chardetO codecO pyTok p
      (p.getLastD "") (fsc p)).1
    if r.skipped then
      StreamingWriter.keptRecords cfg root chardetO codecO pyTok fsc rest
    else
      let pm : PathM := { absolute := true, parts := p, isFile := true, resolved := p }
      (relToProjectRoot root pm, r) ::
        StreamingWriter.keptRecords cfg root chardetO codecO pyTok fsc rest

/-- The JSON per-file pieces as a function of the kept records. -/
def renderJsonPieces : List (String × ProcessedFile) → Bool → List String
  | [], _ => []
  | pr :: rest, isFirst =>
    JsonFormatter.write_file isFirst pr.1 pr.2 :: renderJsonPieces rest false


/-- More fuel never changes a successful parse. -/
theorem parseF_mono : ∀ (f : Nat) (req : PReq) (s : List Char) (r : POut × List Char),
    parseF f req s = some r → ∀ f', f ≤ f' → parseF f' req s = some r := by
  intro f
  induction f with
  | zero =>
    intro req s r h
    simp [parseF] at h
  | succ f ih =>
    intro req s r h f' hf
    obtain ⟨f'', rfl⟩ : ∃ f'', f' = f'' + 1 := ⟨f' - 1, by omega⟩
    have hff : f ≤ f'' := by omega
    cases req with
    | val =>
      unfold parseF at h ⊢
      cases hs : skipWs s with
      | nil => rw [hs] at h; exact Option.noConfusion h
      | cons c rest =>
        rw [hs] at h
        dsimp only at h ⊢
        by_cases hq : c = '"'
        · rw [if_pos hq] at h ⊢
          exact h
        · rw [if_neg hq] at h ⊢
          by_cases hob : c = '\x7b'
          · rw [if_pos hob] at h ⊢
            by_cases hh : (skipWs rest).head? = some '\x7d'
            · rw [if_pos hh] at h ⊢
              exact h
            · rw [if_neg hh] at h ⊢
              cases hrec : parseF f .objItems (skipWs rest) with
              | none => rw [hrec] at h; exact Option.noConfusion h
              | some pr =>
                rw [hrec] at h
                rw [ih .objItems (skipWs rest) pr hrec f'' hff]
                exact h
          · rw [if_neg hob] at h ⊢
            by_cases har : c = '['
            · rw [if_pos har] at h ⊢
              by_cases hh : (skipWs rest).head? = some ']'
              · rw [if_pos hh] at h ⊢
                exact h
              · rw [if_neg hh] at h ⊢
                cases hrec : parseF f .arrItems (skipWs rest) with
                | none => rw [hrec] at h; exact Option.noConfusion h
                | some pr =>
                  rw [hrec] at h
                  rw [ih .arrItems (skipWs rest) pr hrec f'' hff]
                  exact h
            · rw [if_neg har] at h ⊢
              exact h
    | arrItems =>
      unfold parseF at h ⊢
      cases hv : parseF f .val s with
      | none => rw [hv] at h; exact Option.noConfusion h
      | some pr =>
        rw [hv] at h
        rw [ih .val s pr hv f'' hff]
        obtain ⟨po, r1⟩ := pr
        cases po with
        | v x =>
          dsimp only at h ⊢
          by_cases hc : (skipWs r1).head? = some ','
          · rw [if_pos hc] at h ⊢
            cases hrec : parseF f .arrItems (skipWs r1).tail with
            | none => rw [hrec] at h; exact Option.noConfusion h
            | some pr2 =>
              rw [hrec] at h
              rw [ih .arrItems (skipWs r1).tail pr2 hrec f'' hff]
              exact h
          · rw [if_neg hc] at h ⊢
            exact h
        | arr xs => exact Option.noConfusion h
        | obj kvs => exact Option.noConfusion h
    | objItems =>
      unfold parseF at h ⊢
      by_cases h0 : (skipWs s).head? = some '"'
      · rw [if_pos h0] at h ⊢
        cases hk : readStrAux (skipWs s).tail with
        | none => rw [hk] at h; exact Option.noConfusion h
        | some kp =>
          rw [hk] at h
          obtain ⟨key, r2⟩ := kp
          dsimp only at h ⊢
          by_cases hcol : (skipWs r2).head? = some ':'
          · rw [if_pos hcol] at h ⊢
            cases hv : parseF f .val (skipWs r2).tail with
            | none => rw [hv] at h; exact Option.noConfusion h
            | some pr =>
              rw [hv] at h
              rw [ih .val (skipWs r2).tail pr hv f'' hff]
              obtain ⟨po, r4⟩ := pr
              cases po with
              | v x =>
                dsimp only at h ⊢
                by_cases hcm : (skipWs r4).head? = some ','
                · rw [if_pos hcm] at h ⊢
                  cases hrec : parseF f .objItems (skipWs r4).tail with
                  | none => rw [hrec] at h; exact Option.noConfusion h
                  | some pr2 =>
                    rw [hrec] at h
                    rw [ih .objItems (skipWs r4).tail pr2 hrec f'' hff]
                    exact h
                · rw [if_neg hcm] at h ⊢
                  exact h
              | arr xs => exact Option.noConfusion h
              | obj kvs => exact Option.noConfusion h
          · rw [if_neg hcol] at h
            exact Option.noConfusion h
      · rw [if_neg h0] at h
        exact Option.noConfusion h


/-- A character the string reader passes through verbatim. -/
def plainChar (c : Char) : Bool :=
  decide (¬c = '"' ∧ ¬c = '\\' ∧ 32 ≤ c.toNat)

theorem readStrAux_plain : ∀ {l : List Char}, (∀ c ∈ l, plainChar c = true) →
    ∀ rest, readStrAux (l ++ '"' :: rest) = some (l, rest) := by
  intro l
  induction l with
  | nil =>
    intro _ rest
    rw [List.nil_append]
    unfold readStrAux
    rw [if_pos rfl]
  | cons c l' ih =>
    intro hp rest
    have hc : plainChar c = true := hp c (by simp)
    have hc' := of_decide_eq_true hc
    rw [List.cons_append]
    unfold readStrAux
    rw [if_neg hc'.1, if_neg hc'.2.1, if_neg (by omega), ih (fun x hx => hp x (by simp [hx])) rest]

/-- Each hexadecimal digit the escaper emits is accepted by the
reader. -/
theorem isHexDigitB_hexDigit : ∀ d : Nat, d < 16 → isHexDigitB (hexDigit d) = true := by
  intro d hd
  interval_cases d <;> decide

/-- A two-character escape is consumed verbatim. -/
theorem readStrAux_esc2 (e : Char)
    (he : e = '"' ∨ e = '\\' ∨ e = '/' ∨ e = 'b' ∨ e = 'f' ∨ e = 'n' ∨
      e = 'r' ∨ e = 't')
    (hu : ¬e = 'u') (z : List Char) :
    readStrAux ('\\' :: e :: z) =
      (readStrAux z).map (fun p => ('\\' :: e :: p.1, p.2)) := by
  conv_lhs => unfold readStrAux
  rw [if_neg (by decide), if_pos rfl]
  try dsimp only
  rw [if_neg hu, if_pos he]
  cases hz : readStrAux z <;> rfl

/-- A `\uXXXX` escape is consumed verbatim. -/
theorem readStrAux_escU (h1 h2 h3 h4 : Char)
    (hh : isHexDigitB h1 = true ∧ isHexDigitB h2 = true ∧ isHexDigitB h3 = true ∧
      isHexDigitB h4 = true) (z : List Char) :
    readStrAux ('\\' :: 'u' :: h1 :: h2 :: h3 :: h4 :: z) =
      (readStrAux z).map (fun p => ('\\' :: 'u' :: h1 :: h2 :: h3 :: h4 :: p.1, p.2)) := by
  conv_lhs => unfold readStrAux
  rw [if_neg (by decide), if_pos rfl]
  try dsimp only
  rw [if_pos rfl]
  try dsimp only
  rw [if_pos hh]
  cases hz : readStrAux z <;> rfl

/-- A plain character is consumed verbatim. -/
theorem readStrAux_plain1 (c : Char) (hq : ¬c = '"') (hb : ¬c = '\\')
    (hc : ¬c.toNat < 32) (z : List Char) :
    readStrAux (c :: z) = (readStrAux z).map (fun p => (c :: p.1, p.2)) := by
  conv_lhs => unfold readStrAux
  rw [if_neg hq, if_neg hb, if_neg hc]
  cases hz : readStrAux z <;> rfl

/-- The escape sequence produced for one character is consumed
verbatim, whatever follows. -/
theorem readStrAux_chunk : ∀ (c : Char) (z : List Char),
    readStrAux (pyJsonEscapeChar c ++ z) =
      (readStrAux z).map (fun p => (pyJsonEscapeChar c ++ p.1, p.2)) := by
  intro c z
  have hower : ∀ m : Nat, isHexDigitB (hexDigit (m % 16)) = true :=
    fun m => isHexDigitB_hexDigit _ (Nat.mod_lt _ (by omega))
  unfold pyJsonEscapeChar
  by_cases h1 : c = '"'
  · rw [if_pos h1]
    exact readStrAux_esc2 '"' (by decide) (by decide) z
  · rw [if_neg h1]
    by_cases h2 : c = '\\'
    · rw [if_pos h2]
      exact readStrAux_esc2 '\\' (by decide) (by decide) z
    · rw [if_neg h2]
      by_cases h3 : c = '\n'
      · rw [if_pos h3]
        exact readStrAux_esc2 'n' (by decide) (by decide) z
      · rw [if_neg h3]
        by_cases h4 : c = '\t'
        · rw [if_pos h4]
          exact readStrAux_esc2 't' (by decide) (by decide) z
        · rw [if_neg h4]
          by_cases h5 : c = '\r'
          · rw [if_pos h5]
            exact readStrAux_esc2 'r' (by decide) (by decide) z
          · rw [if_neg h5]
            by_cases h6 : c = '\x08'
            · rw [if_pos h6]
              exact readStrAux_esc2 'b' (by decide) (by decide) z
            · rw [if_neg h6]
              by_cases h7 : c = '\x0c'
              · rw [if_pos h7]
                exact readStrAux_esc2 'f' (by decide) (by decide) z
              · rw [if_neg h7]
                by_cases h8 : c.toNat < 32
                · rw [if_pos h8]
                  simp only [hex4, List.cons_append, List.nil_append]
                  exact readStrAux_escU _ _ _ _
                    ⟨hower _, hower _, hower _, hower _⟩ z
                · rw [if_neg h8]
                  by_cases h9 : c.toNat ≤ 126
                  · rw [if_pos h9]
                    rw [List.cons_append, List.nil_append]
                    exact readStrAux_plain1 c h1 h2 (by omega) z
                  · rw [if_neg h9]
                    by_cases h10 : c.toNat ≤ 65535
                    · rw [if_pos h10]
                      simp only [hex4, List.cons_append, List.nil_append]
                      exact readStrAux_escU _ _ _ _
                        ⟨hower _, hower _, hower _, hower _⟩ z
                    · rw [if_neg h10]
                      simp only [hex4, List.cons_append, List.nil_append,
                        List.append_assoc]
                      rw [readStrAux_escU _ _ _ _ ⟨hower _, hower _, hower _, hower _⟩,
                        readStrAux_escU _ _ _ _ ⟨hower _, hower _, hower _, hower _⟩]
                      cases hz : readStrAux z <;> rfl


/-- The whole escaped body of a `json.dumps` string is consumed through
the closing quote. -/
theorem readStrAux_escape : ∀ (s : List Char) (rest : List Char),
    readStrAux (s.flatMap pyJsonEscapeChar ++ '"' :: rest) =
      some (s.flatMap pyJsonEscapeChar, rest) := by
  intro s
  induction s with
  | nil =>
    intro rest
    rw [List.flatMap_nil, List.nil_append]
    unfold readStrAux
    rw [if_pos rfl]
  | cons c s' ih =>
    intro rest
    rw [List.flatMap_cons, List.append_assoc, readStrAux_chunk, ih rest]
    rfl

theorem digitCharToNat : ∀ d : Nat, d < 10 → (Char.ofNat (48 + d)).toNat = 48 + d := by
  intro d hd
  interval_cases d <;> decide

theorem natReprAux_digits : ∀ (f n : Nat), n < f →
    ∀ c ∈ natReprAux f n, 48 ≤ c.toNat ∧ c.toNat ≤ 57 := by
  intro f
  induction f with
  | zero => intro n hn c hc; exact absurd hn (Nat.not_lt_zero n)
  | succ f ih =>
    intro n hn c hc
    unfold natReprAux at hc
    by_cases h10 : n < 10
    · rw [if_pos h10] at hc
      simp at hc
      subst hc
      rw [digitCharToNat n h10]
      omega
    · rw [if_neg h10] at hc
      rcases List.mem_append.mp hc with h | h
      · have hdiv := Nat.div_lt_self (show 0 < n by omega) (show 1 < 10 by omega)
        exact ih (n / 10) (by omega) c h
      · simp at h
        subst h
        rw [digitCharToNat _ (Nat.mod_lt _ (by omega))]
        omega

theorem natReprAux_ne_nil : ∀ (f n : Nat), n < f → natReprAux f n ≠ [] := by
  intro f n hn
  cases f with
  | zero => omega
  | succ f =>
    unfold natReprAux
    by_cases h10 : n < 10
    · rw [if_pos h10]; simp
    · rw [if_neg h10]; simp

theorem natReprAux_head_not_zero : ∀ (f n : Nat), n < f → 1 ≤ n →
    ∀ c, (natReprAux f n).head? = some c → ¬c = '0' := by
  intro f
  induction f with
  | zero => intro n hn; omega
  | succ f ih =>
    intro n hn h1 c hc
    unfold natReprAux at hc
    by_cases h10 : n < 10
    · rw [if_pos h10] at hc
      simp at hc
      subst hc
      intro h0
      have ht : (Char.ofNat (48 + n)).toNat = 48 + n := digitCharToNat n h10
      rw [h0] at ht
      have : (48 : Nat) = 48 + n := by
        calc (48 : Nat) = ('0' : Char).toNat := by decide
        _ = 48 + n := ht
      omega
    · rw [if_neg h10] at hc
      have hdiv := Nat.div_lt_self (show 0 < n by omega) (show 1 < 10 by omega)
      rcases hne : natReprAux f (n / 10) with _ | ⟨d, ds⟩
      · exact absurd hne (natReprAux_ne_nil f (n / 10) (by omega))
      · rw [hne] at hc
        simp at hc
        subst hc
        have h1' : 1 ≤ n / 10 := Nat.le_div_iff_mul_le (by omega) |>.mpr (by omega)
        exact ih (n / 10) (by omega) h1' d (by rw [hne]; rfl)

theorem takeDigits_append : ∀ (ds : List Char),
    (∀ c ∈ ds, 48 ≤ c.toNat ∧ c.toNat ≤ 57) →
    ∀ (rest : List Char), (∀ h, rest.head? = some h → ¬(48 ≤ h.toNat ∧ h.toNat ≤ 57)) →
    takeDigits (ds ++ rest) = (ds, rest) := by
  intro ds
  induction ds with
  | nil =>
    intro _ rest hr
    rw [List.nil_append]
    cases rest with
    | nil => rfl
    | cons h t =>
      unfold takeDigits
      rw [if_neg (hr h rfl)]
  | cons c ds' ih =>
    intro hd rest hr
    rw [List.cons_append]
    unfold takeDigits
    rw [if_pos (hd c (by simp))]
    rw [ih (fun x hx => hd x (by simp [hx])) rest hr]

theorem digitsToNat_append : ∀ (xs ys : List Char) (acc : Nat),
    digitsToNat acc (xs ++ ys) = digitsToNat (digitsToNat acc xs) ys := by
  intro xs
  induction xs with
  | nil => intro ys acc; rfl
  | cons c xs' ih =>
    intro ys acc
    rw [List.cons_append]
    show digitsToNat (acc * 10 + (c.toNat - 48)) (xs' ++ ys) =
      digitsToNat (digitsToNat (acc * 10 + (c.toNat - 48)) xs') ys
    exact ih ys _

theorem digitsToNat_natReprAux : ∀ (f n acc : Nat), n < f →
    digitsToNat acc (natReprAux f n) = acc * 10 ^ (natReprAux f n).length + n := by
  intro f
  induction f with
  | zero => intro n acc hn; exact absurd hn (Nat.not_lt_zero n)
  | succ f ih =>
    intro n acc hn
    unfold natReprAux
    by_cases h10 : n < 10
    · rw [if_pos h10]
      have he : digitsToNat acc [Char.ofNat (48 + n)] =
          digitsToNat (acc * 10 + ((Char.ofNat (48 + n)).toNat - 48)) [] := rfl
      rw [he, digitCharToNat n h10]
      show acc * 10 + (48 + n - 48) = acc * 10 ^ ([Char.ofNat (48 + n)]).length + n
      rw [List.length_singleton, pow_one]
      omega
    · rw [if_neg h10]
      rw [digitsToNat_append]
      have hdiv := Nat.div_lt_self (show 0 < n by omega) (show 1 < 10 by omega)
      rw [ih (n / 10) acc (by omega)]
      have he : digitsToNat (acc * 10 ^ (natReprAux f (n / 10)).length + n / 10)
          [Char.ofNat (48 + n % 10)] =
          (acc * 10 ^ (natReprAux f (n / 10)).length + n / 10) * 10 +
            ((Char.ofNat (48 + n % 10)).toNat - 48) := rfl
      rw [he, digitCharToNat _ (Nat.mod_lt _ (by omega))]
      rw [List.length_append, List.length_singleton, pow_succ]
      generalize (10 : Nat) ^ (natReprAux f (n / 10)).length = X
      have hdm := Nat.div_add_mod n 10
      have : (acc * X + n / 10) * 10 = acc * X * 10 + (n / 10) * 10 := by ring
      rw [this, Nat.mul_assoc]
      omega

theorem readNum_natRepr (n : Nat) (rest : List Char)
    (hr : ∀ h, rest.head? = some h → ¬(48 ≤ h.toNat ∧ h.toNat ≤ 57)) :
    readNum ((natRepr n).data ++ rest) = some (n, rest) := by
  have hd : (natRepr n).data = natReprAux (n + 1) n := rfl
  rw [hd]
  unfold readNum
  rw [takeDigits_append (natReprAux (n + 1) n) (natReprAux_digits (n + 1) n (by omega))
    rest hr]
  rcases hne : natReprAux (n + 1) n with _ | ⟨d, ds⟩
  · exact absurd hne (natReprAux_ne_nil (n + 1) n (by omega))
  · have hguard : ¬(d = '0' ∧ ds ≠ []) := by
      intro hg
      by_cases h10 : n < 10
      · unfold natReprAux at hne
        rw [if_pos h10] at hne
        injection hne with h1 h2
        exact hg.2 h2.symm
      · exact natReprAux_head_not_zero (n + 1) n (by omega) (by omega) d
          (by rw [hne]; rfl) hg.1
    dsimp only
    rw [if_neg hguard]
    rw [← hne, digitsToNat_natReprAux (n + 1) n 0 (by omega)]
    simp

theorem natRepr_plain (n : Nat) : ∀ c ∈ (natRepr n).data, plainChar c = true := by
  intro c hc
  have h := natReprAux_digits (n + 1) n (by omega) c hc
  unfold plainChar
  apply decide_eq_true
  refine ⟨?_, ?_, by omega⟩
  · intro h0
    subst h0
    revert h
    decide
  · intro h0
    subst h0
    revert h
    decide

theorem pad2_plain (n : Nat) : ∀ c ∈ (pad2 n).data, plainChar c = true := by
  intro c hc
  unfold pad2 at hc
  by_cases h : n < 10
  · rw [if_pos h] at hc
    have hc' : c = '0' ∨ c ∈ (natRepr n).data := by
      simpa [String.data_append] using hc
    rcases hc' with rfl | h1
    · decide
    · exact natRepr_plain n c h1
  · rw [if_neg h] at hc
    exact natRepr_plain n c hc

theorem pad4_plain (n : Nat) : ∀ c ∈ (pad4 n).data, plainChar c = true := by
  intro c hc
  unfold pad4 at hc
  by_cases h1 : n < 10
  · rw [if_pos h1] at hc
    have hc' : c = '0' ∨ c ∈ (natRepr n).data := by
      simpa [String.data_append] using hc
    rcases hc' with rfl | h
    · decide
    · exact natRepr_plain n c h
  · rw [if_neg h1] at hc
    by_cases h2 : n < 100
    · rw [if_pos h2] at hc
      have hc' : c = '0' ∨ c ∈ (natRepr n).data := by
        simpa [String.data_append] using hc
      rcases hc' with rfl | h
      · decide
      · exact natRepr_plain n c h
    · rw [if_neg h2] at hc
      by_cases h3 : n < 1000
      · rw [if_pos h3] at hc
        have hc' : c = '0' ∨ c ∈ (natRepr n).data := by
          simpa [String.data_append] using hc
        rcases hc' with rfl | h
        · decide
        · exact natRepr_plain n c h
      · rw [if_neg h3] at hc
        exact natRepr_plain n c hc

/-- Every character of the `strftime` rendering passes through the
string reader verbatim. -/
theorem render_plain (t : Timestamp) : ∀ c ∈ (Timestamp.render t).data, plainChar c = true := by
  intro c hc
  unfold Timestamp.render at hc
  simp only [String.data_append, List.mem_append] at hc
  rcases hc with ((((((((((h | h) | h) | h) | h) | h) | h) | h) | h) | h) | h)
  · exact pad4_plain t.year c h
  · simp at h; subst h; decide
  · exact pad2_plain t.month c h
  · simp at h; subst h; decide
  · exact pad2_plain t.day c h
  · simp at h; subst h; decide
  · exact pad2_plain t.hour c h
  · simp at h; subst h; decide
  · exact pad2_plain t.minute c h
  · simp at h; subst h; decide
  · exact pad2_plain t.second c h


/-- A successful parse with some amount of fuel. -/
def ParsesTo (req : PReq) (s : List Char) (out : POut) (rest : List Char) : Prop :=
  ∃ f, parseF f req s = some (out, rest)

theorem skipWs_append_ws : ∀ {pre : List Char}, (∀ c ∈ pre, isJsonWs c = true) →
    ∀ t, skipWs (pre ++ t) = skipWs t := by
  intro pre
  induction pre with
  | nil => intro _ t; rw [List.nil_append]
  | cons c pre' ih =>
    intro h t
    rw [List.cons_append]
    show (if isJsonWs c = true then skipWs (pre' ++ t) else c :: (pre' ++ t)) = skipWs t
    rw [if_pos (h c (by simp))]
    exact ih (fun x hx => h x (by simp [hx])) t

theorem parseF_val_ws {f : Nat} {s t : List Char} (h : skipWs s = skipWs t) :
    parseF (f + 1) .val s = parseF (f + 1) .val t := by
  unfold parseF
  rw [h]

theorem parsesTo_val_congr {s t : List Char} {out : POut} {rest : List Char}
    (h : skipWs s = skipWs t) (hp : ParsesTo .val t out rest) :
    ParsesTo .val s out rest := by
  obtain ⟨f, hf⟩ := hp
  refine ⟨f + 1, ?_⟩
  rw [parseF_val_ws h]
  exact parseF_mono f .val t _ hf (f + 1) (by omega)

theorem parseF_arrItems_ws {f : Nat} {s t : List Char} (h : skipWs s = skipWs t) :
    parseF (f + 1 + 1) .arrItems s = parseF (f + 1 + 1) .arrItems t := by
  unfold parseF
  rw [parseF_val_ws h]

theorem parsesTo_arrItems_congr {s t : List Char} {out : POut} {rest : List Char}
    (h : skipWs s = skipWs t) (hp : ParsesTo .arrItems t out rest) :
    ParsesTo .arrItems s out rest := by
  obtain ⟨f, hf⟩ := hp
  refine ⟨f + 1 + 1, ?_⟩
  rw [parseF_arrItems_ws h]
  exact parseF_mono f .arrItems t _ hf (f + 1 + 1) (by omega)

theorem parsesTo_str {s : List Char} {raw rest r1 : List Char}
    (hs : skipWs s = '"' :: r1) (hread : readStrAux r1 = some (raw, rest)) :
    ParsesTo .val s (.v (.jstr raw)) rest := by
  refine ⟨1, ?_⟩
  unfold parseF
  rw [hs]
  try dsimp only
  rw [if_pos rfl, hread]

theorem parsesTo_arr_nil {s r0 : List Char}
    (hs : skipWs s = '[' :: r0) (hn : (skipWs r0).head? = some ']') :
    ParsesTo .val s (.v (.jarr [])) (skipWs r0).tail := by
  refine ⟨1, ?_⟩
  unfold parseF
  rw [hs]
  try dsimp only
  rw [if_neg (by decide), if_neg (by decide), if_pos rfl, if_pos hn]

theorem parsesTo_arr {s r0 rest : List Char} {xs : List JVal}
    (hs : skipWs s = '[' :: r0) (hne : ¬(skipWs r0).head? = some ']')
    (hitems : ParsesTo .arrItems (skipWs r0) (.arr xs) rest) :
    ParsesTo .val s (.v (.jarr xs)) rest := by
  obtain ⟨f, hf⟩ := hitems
  refine ⟨f + 1, ?_⟩
  unfold parseF
  rw [hs]
  try dsimp only
  rw [if_neg (by decide), if_neg (by decide), if_pos rfl, if_neg hne, hf]

theorem parsesTo_obj {s r0 rest : List Char} {kvs : List (List Char × JVal)}
    (hs : skipWs s = '\x7b' :: r0) (hne : ¬(skipWs r0).head? = some '\x7d')
    (hitems : ParsesTo .objItems (skipWs r0) (.obj kvs) rest) :
    ParsesTo .val s (.v (.jobj kvs)) rest := by
  obtain ⟨f, hf⟩ := hitems
  refine ⟨f + 1, ?_⟩
  unfold parseF
  rw [hs]
  try dsimp only
  rw [if_neg (by decide), if_pos rfl, if_neg hne, hf]

theorem parsesTo_arrItems_last {s r1 rest : List Char} {x : JVal}
    (hv : ParsesTo .val s (.v x) r1) (hr : skipWs r1 = ']' :: rest) :
    ParsesTo .arrItems s (.arr [x]) rest := by
  obtain ⟨f, hf⟩ := hv
  refine ⟨f + 1, ?_⟩
  unfold parseF
  rw [hf]
  try dsimp only
  rw [hr]
  simp only [List.head?_cons, List.tail_cons]
  rw [if_neg (by decide), if_pos trivial]

theorem parsesTo_arrItems_cons {s r1 r2 rest : List Char} {x : JVal} {xs : List JVal}
    (hv : ParsesTo .val s (.v x) r1) (hr : skipWs r1 = ',' :: r2)
    (hrec : ParsesTo .arrItems r2 (.arr xs) rest) :
    ParsesTo .arrItems s (.arr (x :: xs)) rest := by
  obtain ⟨f1, hf1⟩ := hv
  obtain ⟨f2, hf2⟩ := hrec
  refine ⟨max f1 f2 + 1, ?_⟩
  unfold parseF
  rw [parseF_mono f1 .val s _ hf1 (max f1 f2) (le_max_left ..)]
  try dsimp only
  rw [hr]
  simp only [List.head?_cons, List.tail_cons]
  rw [if_pos trivial]
  rw [parseF_mono f2 .arrItems r2 _ hf2 (max f1 f2) (le_max_right ..)]

theorem parsesTo_objItems_last {s r1 r2 r3 r4 rest : List Char} {key : List Char} {x : JVal}
    (h1 : skipWs s = '"' :: r1) (h2 : readStrAux r1 = some (key, r2))
    (h3 : skipWs r2 = ':' :: r3) (hv : ParsesTo .val r3 (.v x) r4)
    (h5 : skipWs r4 = '\x7d' :: rest) :
    ParsesTo .objItems s (.obj [(key, x)]) rest := by
  obtain ⟨f, hf⟩ := hv
  refine ⟨f + 1, ?_⟩
  unfold parseF
  rw [h1]
  simp only [List.head?_cons, List.tail_cons]
  rw [if_pos trivial, h2]
  try dsimp only
  rw [h3]
  simp only [List.head?_cons, List.tail_cons]
  rw [if_pos trivial, hf]
  try dsimp only
  rw [h5]
  simp only [List.head?_cons, List.tail_cons]
  rw [if_neg (by decide), if_pos trivial]

theorem parsesTo_objItems_cons {s r1 r2 r3 r4 r5 rest : List Char} {key : List Char}
    {x : JVal} {kvs : List (List Char × JVal)}
    (h1 : skipWs s = '"' :: r1) (h2 : readStrAux r1 = some (key, r2))
    (h3 : skipWs r2 = ':' :: r3) (hv : ParsesTo .val r3 (.v x) r4)
    (h5 : skipWs r4 = ',' :: r5) (hrec : ParsesTo .objItems r5 (.obj kvs) rest) :
    ParsesTo .objItems s (.obj ((key, x) :: kvs)) rest := by
  obtain ⟨f1, hf1⟩ := hv
  obtain ⟨f2, hf2⟩ := hrec
  refine ⟨max f1 f2 + 1, ?_⟩
  unfold parseF
  rw [h1]
  simp only [List.head?_cons, List.tail_cons]
  rw [if_pos trivial, h2]
  try dsimp only
  rw [h3]
  simp only [List.head?_cons, List.tail_cons]
  rw [if_pos trivial,
    parseF_mono f1 .val r3 _ hf1 (max f1 f2) (le_max_left ..)]
  try dsimp only
  rw [h5]
  simp only [List.head?_cons, List.tail_cons]
  rw [if_pos trivial]
  rw [parseF_mono f2 .objItems r5 _ hf2 (max f1 f2) (le_max_right ..)]

/-- A string value rendered by `pyJsonStr`, as it appears followed by
more text. -/
theorem parsesTo_str_escape {s : List Char} (str : String) {rest : List Char}
    (hs : skipWs s = '"' :: (str.data.flatMap pyJsonEscapeChar ++ '"' :: rest)) :
    ParsesTo .val s (.v (.jstr (jsonEscape str))) rest :=
  parsesTo_str hs (readStrAux_escape str.data rest)

theorem head_not_digit {t : List Char} {c : Char} (h : t.head? = some c)
    (hc : ¬(48 ≤ c.toNat ∧ c.toNat ≤ 57)) :
    ∀ x, t.head? = some x → ¬(48 ≤ x.toNat ∧ x.toNat ≤ 57) := by
  intro x hx
  rw [h] at hx
  cases Option.some_inj.mp hx
  exact hc

/-- A number value rendered by `str(int)` after insignificant
whitespace. -/
theorem parsesTo_num_entry (pre : List Char) (hpre : ∀ c ∈ pre, isJsonWs c = true)
    (n : Nat) (rest : List Char)
    (hrest : ∀ x, rest.head? = some x → ¬(48 ≤ x.toNat ∧ x.toNat ≤ 57)) :
    ParsesTo .val (pre ++ ((natRepr n).data ++ rest)) (.v (.jnum n)) rest := by
  rcases hne : (natRepr n).data with _ | ⟨d, ds⟩
  · exact absurd (show natReprAux (n + 1) n = [] from hne)
      (natReprAux_ne_nil (n + 1) n (by omega))
  · have hd : 48 ≤ d.toNat ∧ d.toNat ≤ 57 := by
      have hmem : d ∈ natReprAux (n + 1) n := by
        rw [show natReprAux (n + 1) n = (natRepr n).data from rfl, hne]
        simp
      exact natReprAux_digits (n + 1) n (by omega) d hmem
    have hws : isJsonWs d = false := by
      apply decide_eq_false
      intro hor
      rcases hor with h | h | h | h <;> (subst h; revert hd; decide)
    have hq : ¬d = '"' := by intro h0; rw [h0] at hd; revert hd; decide
    have hob : ¬d = '\x7b' := by intro h0; rw [h0] at hd; revert hd; decide
    have har : ¬d = '[' := by intro h0; rw [h0] at hd; revert hd; decide
    refine ⟨1, ?_⟩
    unfold parseF
    rw [skipWs_append_ws hpre, List.cons_append]
    have hskip : skipWs (d :: (ds ++ rest)) = d :: (ds ++ rest) := by
      show (if isJsonWs d = true then skipWs (ds ++ rest) else d :: (ds ++ rest)) = _
      rw [if_neg (by simp [hws])]
    rw [hskip]
    try dsimp only
    rw [if_neg hq, if_neg hob, if_neg har, ← List.cons_append, ← hne,
      readNum_natRepr n rest hrest]


theorem ne_head_of_eq {t : List Char} {a b : Char} (h : t.head? = some a)
    (hab : ¬a = b) : ¬t.head? = some b := by
  intro hb
  rw [h] at hb
  exact hab (Option.some_inj.mp hb)

theorem parsesTo_arrItems_nl {T : List Char} {out : POut} {rest : List Char}
    (hp : ParsesTo .arrItems T out rest) : ParsesTo .arrItems ('\n' :: T) out rest :=
  parsesTo_arrItems_congr (show skipWs ('\n' :: T) = skipWs T from rfl) hp

set_option maxHeartbeats 1000000 in
/-- One member of the `files` array parses to its AST, whatever
follows. -/
theorem entry_value_parses (rel : String) (r : ProcessedFile) (pre X : List Char)
    (hpre : ∀ c ∈ pre, isJsonWs c = true) :
    ParsesTo .val (pre ++ ((jsonEntry rel r).data ++ X)) (.v (entryAst rel r)) X := by
  apply parsesTo_val_congr (skipWs_append_ws hpre ((jsonEntry rel r).data ++ X))
  rw [show (jsonEntry rel r).data ++ X =
      "    \x7b\n        \"path\": \"".data ++ (jsonEscape rel ++ ('"' ::
        (",\n        \"size\": ".data ++ ((natRepr r.size).data ++
        (",\n        \"encoding\": \"".data ++ (jsonEscape r.encoding ++ ('"' ::
        (",\n        \"content\": \"".data ++ (jsonEscape (r.content.getD "") ++ ('"' ::
        ("\n    \x7d".data ++ X)))))))))))
    from by simp only [jsonEntry, pyJsonStr, String.data_append, List.append_assoc]; rfl]
  refine parsesTo_obj rfl (ne_head_of_eq rfl (by decide)) ?_
  exact parsesTo_objItems_cons rfl
    (readStrAux_plain (show ∀ c ∈ ("path" : String).data, plainChar c = true by decide) _)
    rfl (parsesTo_str_escape rel rfl) rfl
    (parsesTo_objItems_cons rfl
      (readStrAux_plain (show ∀ c ∈ ("size" : String).data, plainChar c = true by decide) _)
      rfl
      (parsesTo_num_entry [' '] (by decide) r.size _ (head_not_digit rfl (by decide))) rfl
      (parsesTo_objItems_cons rfl
        (readStrAux_plain
          (show ∀ c ∈ ("encoding" : String).data, plainChar c = true by decide) _)
        rfl (parsesTo_str_escape r.encoding rfl) rfl
        (parsesTo_objItems_last rfl
          (readStrAux_plain
            (show ∀ c ∈ ("content" : String).data, plainChar c = true by decide) _)
          rfl (parsesTo_str_escape (r.content.getD "") rfl) rfl)))

set_option maxHeartbeats 1000000 in
/-- A nonempty run of members, comma-separated as the writer emits
them, parses to the member ASTs in order. -/
theorem entries_parse : ∀ (recs : List (String × ProcessedFile))
    (pr0 : String × ProcessedFile) (X : List Char),
    ParsesTo .arrItems
      ((jsonEntry pr0.1 pr0.2).data ++
        ((concatStrs (renderJsonPieces recs false)).data ++
          ('\n' :: ' ' :: ' ' :: ']' :: X)))
      (.arr ((pr0 :: recs).map (fun pr => entryAst pr.1 pr.2))) X := by
  intro recs
  induction recs with
  | nil =>
    intro pr0 X
    exact parsesTo_arrItems_last (entry_value_parses pr0.1 pr0.2 [] _ (by simp)) rfl
  | cons pr1 recs' ih =>
    intro pr0 X
    rw [show (concatStrs (renderJsonPieces (pr1 :: recs') false)).data ++
        ('\n' :: ' ' :: ' ' :: ']' :: X) =
        ',' :: '\n' :: ((jsonEntry pr1.1 pr1.2).data ++
          ((concatStrs (renderJsonPieces recs' false)).data ++
            ('\n' :: ' ' :: ' ' :: ']' :: X)))
      from by simp only [renderJsonPieces, concatStrs, JsonFormatter.write_file,
        String.data_append, List.append_assoc, List.nil_append]; rfl]
    exact parsesTo_arrItems_cons (entry_value_parses pr0.1 pr0.2 [] _ (by simp)) rfl
      (parsesTo_arrItems_nl (ih pr1 X))

set_option maxHeartbeats 1000000 in
/-- The whole `files` array value parses to the list of member ASTs. -/
theorem files_value_parses : ∀ (recs : List (String × ProcessedFile)) (X : List Char),
    ParsesTo .val
      ('[' :: '\n' :: ((concatStrs (renderJsonPieces recs true)).data ++
        ('\n' :: ' ' :: ' ' :: ']' :: X)))
      (.v (.jarr (recs.map (fun pr => entryAst pr.1 pr.2)))) X := by
  intro recs X
  cases recs with
  | nil =>
    exact parsesTo_arr_nil
      (show skipWs ('[' :: '\n' ::
          ((concatStrs (renderJsonPieces ([] : List (String × ProcessedFile)) true)).data ++
            ('\n' :: ' ' :: ' ' :: ']' :: X))) =
        '[' :: ('\n' ::
          ((concatStrs (renderJsonPieces ([] : List (String × ProcessedFile)) true)).data ++
            ('\n' :: ' ' :: ' ' :: ']' :: X))) from rfl)
      rfl
  | cons pr0 recs' =>
    rw [show (concatStrs (renderJsonPieces (pr0 :: recs') true)).data ++
        ('\n' :: ' ' :: ' ' :: ']' :: X) =
        (jsonEntry pr0.1 pr0.2).data ++
          ((concatStrs (renderJsonPieces recs' false)).data ++
            ('\n' :: ' ' :: ' ' :: ']' :: X))
      from by simp only [renderJsonPieces, concatStrs, JsonFormatter.write_file,
        String.data_append, List.append_assoc, List.nil_append]; rfl]
    refine parsesTo_arr rfl (ne_head_of_eq rfl (by decide)) ?_
    refine parsesTo_arrItems_congr ?_ (entries_parse recs' pr0 X)
    exact rfl


/-- The AST of the `metadata` object. -/
def metadataAst (rootStr : String) (ts : Timestamp) (k : Nat) : JVal :=
  .jobj [("version".data, .jstr VERSION.data),
         ("project_root".data, .jstr (jsonEscape rootStr)),
         ("generated_at".data, .jstr (Timestamp.render ts).data),
         ("file_count".data, .jnum k)]

/-- The AST of the whole JSON artifact. -/
def artifactAst (rootStr : String) (ts : Timestamp) (k : Nat)
    (recs : List (String × ProcessedFile)) : JVal :=
  .jobj [("metadata".data, metadataAst rootStr ts k),
         ("files".data, .jarr (recs.map (fun pr => entryAst pr.1 pr.2)))]

theorem parsesTo_val_sp {T : List Char} {out : POut} {rest : List Char}
    (hp : ParsesTo .val T out rest) : ParsesTo .val (' ' :: T) out rest :=
  parsesTo_val_congr (show skipWs (' ' :: T) = skipWs T from rfl) hp

set_option maxHeartbeats 1000000 in
/-- The complete JSON artifact text parses to its AST, leaving the
final newline. -/
theorem artifact_parses (rootStr : String) (ts : Timestamp) (k : Nat)
    (recs : List (String × ProcessedFile)) :
    ParsesTo .val
      ((JsonFormatter.write_header rootStr ts k).data ++
        ((concatStrs (renderJsonPieces recs true)).data ++
          (JsonFormatter.write_footer).data))
      (.v (artifactAst rootStr ts k recs)) ['\n'] := by
  rw [show (JsonFormatter.write_header rootStr ts k).data ++
        ((concatStrs (renderJsonPieces recs true)).data ++
          (JsonFormatter.write_footer).data) =
      "\x7b\n  \"metadata\": \x7b\n    \"version\": \"5.0.0\",\n    \"project_root\": \"".data ++
      (jsonEscape rootStr ++ ('"' ::
      (",\n    \"generated_at\": \"".data ++
      ((Timestamp.render ts).data ++ ('"' ::
      (",\n    \"file_count\": ".data ++
      ((natRepr k).data ++
      ("\n  \x7d,\n  \"files\": ".data ++
      ('[' :: '\n' ::
      ((concatStrs (renderJsonPieces recs true)).data ++
      ('\n' :: ' ' :: ' ' :: ']' :: '\n' :: '\x7d' :: '\n' :: [])))))))))))
    from by simp only [JsonFormatter.write_header, JsonFormatter.write_footer, pyJsonStr,
      VERSION, String.data_append, List.append_assoc]; rfl]
  refine parsesTo_obj rfl (ne_head_of_eq rfl (by decide)) ?_
  exact parsesTo_objItems_cons rfl
    (readStrAux_plain (show ∀ c ∈ ("metadata" : String).data, plainChar c = true by decide) _)
    rfl
    (parsesTo_obj rfl (ne_head_of_eq rfl (by decide))
      (parsesTo_objItems_cons rfl
        (readStrAux_plain (show ∀ c ∈ ("version" : String).data, plainChar c = true by decide) _)
        rfl
        (parsesTo_str rfl
          (readStrAux_plain (show ∀ c ∈ ("5.0.0" : String).data, plainChar c = true by decide) _))
        rfl
        (parsesTo_objItems_cons rfl
          (readStrAux_plain
            (show ∀ c ∈ ("project_root" : String).data, plainChar c = true by decide) _)
          rfl (parsesTo_str_escape rootStr rfl) rfl
          (parsesTo_objItems_cons rfl
            (readStrAux_plain
              (show ∀ c ∈ ("generated_at" : String).data, plainChar c = true by decide) _)
            rfl
            (parsesTo_str rfl (readStrAux_plain (render_plain ts) _))
            rfl
            (parsesTo_objItems_last rfl
              (readStrAux_plain
                (show ∀ c ∈ ("file_count" : String).data, plainChar c = true by decide) _)
              rfl
              (parsesTo_num_entry [' '] (by decide) k _ (head_not_digit rfl (by decide)))
              rfl)))))
    rfl
    (parsesTo_objItems_last rfl
      (readStrAux_plain (show ∀ c ∈ ("files" : String).data, plainChar c = true by decide) _)
      rfl
      (parsesTo_val_sp (files_value_parses recs ('\n' :: '\x7d' :: '\n' :: [])))
      rfl)

/-- The JSON formatter's per-file pieces are the rendering of the kept
records. -/
theorem filePieces_json_eq (cfg : Config) (root : List String)
    (chardetO : ChardetOracle) (codecO : CodecOracle)
    (pyTok : List Char → Option (List Char)) (fsc : List String → FileM) :
    ∀ (ps : List (List String)) (isFirst : Bool),
    StreamingWriter.filePieces jsonFormatter cfg root chardetO codecO pyTok fsc ps isFirst =
      renderJsonPieces
        (StreamingWriter.keptRecords cfg root chardetO codecO pyTok fsc ps) isFirst := by
  intro ps
  induction ps with
  | nil => intro _; rfl
  | cons p rest ih =>
    intro isFirst
    unfold StreamingWriter.filePieces StreamingWriter.keptRecords
    dsimp only
    by_cases hk : ((FileProcessor.process_file cfg chardetO codecO pyTok p
        (p.getLastD "") (fsc p)).1).skipped = true
    · rw [if_pos hk, if_pos hk]
      exact ih isFirst
    · rw [if_neg hk, if_neg hk]
      unfold renderJsonPieces
      dsimp only
      rw [ih false]
      rfl

theorem concatStrs_data_append_single : ∀ (l : List String) (f : String),
    (concatStrs (l ++ [f])).data = (concatStrs l).data ++ f.data := by
  intro l f
  induction l with
  | nil => simp [concatStrs, String.data_append]
  | cons x l ih =>
    show ((x ++ concatStrs (l ++ [f]))).data = ((x ++ concatStrs l)).data ++ f.data
    rw [String.data_append, String.data_append, ih, List.append_assoc]

theorem concatStrs_pieces (h f : String) (l : List String) :
    (concatStrs (h :: (l ++ [f]))).data = h.data ++ ((concatStrs l).data ++ f.data) := by
  show (h ++ concatStrs (l ++ [f])).data = _
  rw [String.data_append, concatStrs_data_append_single]

/-- The complete artifact of a JSON run, split into header, rendered
kept records, and footer. -/
theorem output_json_data (cfg : Config) (root : List String) (ts : Timestamp)
    (chardetO : ChardetOracle) (codecO : CodecOracle)
    (pyTok : List Char → Option (List Char)) (fsc : List String → FileM)
    (outResolved : List String) (files : List (List String)) :
    (StreamingWriter.output jsonFormatter cfg root ts chardetO codecO pyTok fsc
        outResolved files).data =
      (JsonFormatter.write_header ("/" ++ joinParts root) ts
          (((sortPaths files).filter (fun p => p ≠ outResolved)).length)).data ++
        ((concatStrs (renderJsonPieces
            (StreamingWriter.keptRecords cfg root chardetO codecO pyTok fsc
              ((sortPaths files).filter (fun p => p ≠ outResolved))) true)).data ++
          (JsonFormatter.write_footer).data) := by
  unfold StreamingWriter.output StreamingWriter.pieces
  dsimp only
  rw [filePieces_json_eq cfg root chardetO codecO pyTok fsc]
  exact concatStrs_pieces _ _ _

theorem keptRecords_length_le (cfg : Config) (root : List String)
    (chardetO : ChardetOracle) (codecO : CodecOracle)
    (pyTok : List Char → Option (List Char)) (fsc : List String → FileM) :
    ∀ ps : List (List String),
    (StreamingWriter.keptRecords cfg root chardetO codecO pyTok fsc ps).length ≤
      ps.length := by
  intro ps
  induction ps with
  | nil => exact Nat.le_refl 0
  | cons p rest ih =>
    unfold StreamingWriter.keptRecords
    dsimp only
    by_cases hk : ((FileProcessor.process_file cfg chardetO codecO pyTok p
        (p.getLastD "") (fsc p)).1).skipped = true
    · rw [if_pos hk]
      exact Nat.le_succ_of_le ih
    · rw [if_neg hk]
      simpa using Nat.succ_le_succ ih

theorem keptRecords_length_eq_iff (cfg : Config) (root : List String)
    (chardetO : ChardetOracle) (codecO : CodecOracle)
    (pyTok : List Char → Option (List Char)) (fsc : List String → FileM) :
    ∀ ps : List (List String),
    ((StreamingWriter.keptRecords cfg root chardetO codecO pyTok fsc ps).length = ps.length ↔
      ∀ p ∈ ps, (FileProcessor.process_file cfg chardetO codecO pyTok p
        (p.getLastD "") (fsc p)).1.skipped = false) := by
  intro ps
  induction ps with
  | nil => simp [StreamingWriter.keptRecords]
  | cons p rest ih =>
    unfold StreamingWriter.keptRecords
    dsimp only
    by_cases hk : ((FileProcessor.process_file cfg chardetO codecO pyTok p
        (p.getLastD "") (fsc p)).1).skipped = true
    · rw [if_pos hk]
      constructor
      · intro hlen
        have hle := keptRecords_length_le cfg root chardetO codecO pyTok fsc rest
        simp only [List.length_cons] at hlen
        omega
      · intro hall
        have h0 := hall p (by simp)
        rw [hk] at h0
        exact Bool.noConfusion h0
    · rw [if_neg hk]
      have hf : (FileProcessor.process_file cfg chardetO codecO pyTok p
          (p.getLastD "") (fsc p)).1.skipped = false := by
        cases hx : (FileProcessor.process_file cfg chardetO codecO pyTok p
            (p.getLastD "") (fsc p)).1.skipped
        · rfl
        · exact absurd hx hk
      simp only [List.length_cons]
      constructor
      · intro hlen
        intro q hq
        rcases List.mem_cons.mp hq with h | h
        · rw [h]; exact hf
        · exact (ih.mp (by omega)) q h
      · intro hall
        have := ih.mpr (fun q hq => hall q (List.mem_cons_of_mem p hq))
        omega

/-- C4 (corrected): for every JSON-format run, the artifact is
syntactically valid JSON - it parses to the expected object AST with a
final newline left over - and the `file_count` field equals the number
of candidates after sorting and output-file exclusion, while the
`files` array has one entry per non-skipped candidate; the two agree
exactly when no candidate is skipped. -/
theorem c4_json_artifact (cfg : Config) (root : List String) (ts : Timestamp)
    (chardetO : ChardetOracle) (codecO : CodecOracle)
    (pyTok : List Char → Option (List Char)) (fsc : List String → FileM)
    (outResolved : List String) (files : List (List String)) :
    ParsesTo .val
      (StreamingWriter.output
        (StreamingWriter.get_formatter { cfg with output_format := .json })
        { cfg with output_format := .json } root ts chardetO codecO pyTok fsc
        outResolved files).data
      (.v (artifactAst ("/" ++ joinParts root) ts
        (((sortPaths files).filter (fun p => p ≠ outResolved)).length)
        (StreamingWriter.keptRecords { cfg with output_format := .json } root
          chardetO codecO pyTok fsc
          ((sortPaths files).filter (fun p => p ≠ outResolved)))))
      ['\n'] ∧
    (StreamingWriter.keptRecords { cfg with output_format := .json } root
        chardetO codecO pyTok fsc
        ((sortPaths files).filter (fun p => p ≠ outResolved))).length ≤
      ((sortPaths files).filter (fun p => p ≠ outResolved)).length ∧
    ((StreamingWriter.keptRecords { cfg with output_format := .json } root
        chardetO codecO pyTok fsc
        ((sortPaths files).filter (fun p => p ≠ outResolved))).length =
      ((sortPaths files).filter (fun p => p ≠ outResolved)).length ↔
      ∀ p ∈ (sortPaths files).filter (fun p => p ≠ outResolved),
        (FileProcessor.process_file { cfg with output_format := .json }
          chardetO codecO pyTok p (p.getLastD "") (fsc p)).1.skipped = false) := by
  refine ⟨?_,
    keptRecords_length_le { cfg with output_format := .json } root
      chardetO codecO pyTok fsc _,
    keptRecords_length_eq_iff { cfg with output_format := .json } root
      chardetO codecO pyTok fsc _⟩
  rw [show StreamingWriter.get_formatter { cfg with output_format := .json } =
      jsonFormatter from rfl]
  rw [output_json_data]
  exact artifact_parses _ _ _ _

set_option maxHeartbeats 1000000 in
/-- C4 counterexample: a run over one candidate that is skipped as a
binary file produces an artifact whose metadata says `file_count` 1
while its `files` array is empty - the two counts differ. -/
theorem c4_file_count_mismatch :
    parseF 32 .val (StreamingWriter.output jsonFormatter
        { max_file_size_mb := 0, output_format := .json } ["R"]
        ⟨2024, 1, 1, 12, 0, 0⟩ none (fun _ _ => .error "unknown") (fun _ => none)
        (fun _ => { size := 2, bytes := [0, 104] })
        ["R", ".context", "generated", "context.json"] [["R", "a.png"]]).data =
      some (.v (.jobj
        [("metadata".data, .jobj
          [("version".data, .jstr "5.0.0".data),
           ("project_root".data, .jstr "/R".data),
           ("generated_at".data, .jstr "2024-01-01 12:00:00".data),
           ("file_count".data, .jnum 1)]),
         ("files".data, .jarr [])]), ['\n']) ∧
    ([] : List JVal).length ≠ (1 : Nat) := by
  exact ⟨rfl, by decide⟩

end CtxGen
